import Mathlib

/-!
# Search server (`search_system.cpp`)

A shallow embedding of the in-memory TF-IDF search server and a verification
of its specification.

Modelling conventions.

* `std::string` is the list of its characters (`Str`); the code only ever
  compares characters with `' '`, with `'-'` and with the range `[0, 0x20)`.
* `std::map` and `std::set` are lists kept in ascending key order, which is the
  order in which the C++ containers are iterated.
* `double` is an arbitrary linearly ordered field `K` together with a function
  `log : K → K`; taking `K = ℝ` and `log = Real.log` gives real-number
  arithmetic, taking `K = ℚ` gives an executable instance.
* a function that can throw returns `Except Exception _`; `AddDocument`, the
  only mutating member function, returns the outcome together with the state
  of the server at the moment it returns or throws.
-/

namespace SearchSystem

set_option linter.unusedSectionVars false
set_option linter.unusedVariables false

/-! ## Strings and standard containers -/

/-- A `std::string`, as the sequence of its characters. -/
abbrev Str := List Char

/-- Lexicographic `operator<` of `std::string`. -/
def strLess : Str → Str → Bool
  | _, [] => false
  | [], _ :: _ => true
  | a :: as, b :: bs => if a < b then true else if b < a then false else strLess as bs

/-- The comparison `std::less` used by the ordered containers. -/
class StdLess (κ : Type) where
  less : κ → κ → Bool

instance : StdLess Int := ⟨fun a b => decide (a < b)⟩

instance : StdLess Str := ⟨strLess⟩

/-- A `std::set<κ>`: its elements in ascending order. -/
abbrev StdSet (κ : Type) := List κ

/-- A `std::map<κ, ν>`: its entries in ascending key order. -/
abbrev StdMap (κ ν : Type) := List (κ × ν)

/-- The exceptions thrown by the program. -/
inductive Exception where
  | invalid_argument (what : String)
  | out_of_range
  deriving DecidableEq

namespace StdSet

variable {κ : Type} [DecidableEq κ] [StdLess κ]

/-- `set::insert`. -/
def insert (k : κ) : StdSet κ → StdSet κ
  | [] => [k]
  | x :: rest =>
    if k = x then x :: rest
    else if StdLess.less k x then k :: x :: rest
    else x :: insert k rest

/-- `set::count`. -/
def count (s : StdSet κ) (k : κ) : Nat := if k ∈ s then 1 else 0

end StdSet

namespace StdMap

variable {κ ν : Type} [DecidableEq κ] [StdLess κ]

/-- The value stored under a key, if any. -/
def lookup (m : StdMap κ ν) (k : κ) : Option ν :=
  match m with
  | [] => none
  | (x, v) :: rest => if k = x then some v else lookup rest k

/-- `map::count`. -/
def count (m : StdMap κ ν) (k : κ) : Nat :=
  match lookup m k with
  | some _ => 1
  | none => 0

/-- `map::at`, which throws `std::out_of_range` for a missing key. -/
def «at» (m : StdMap κ ν) (k : κ) : Except Exception ν :=
  match lookup m k with
  | some v => .ok v
  | none => .error .out_of_range

/-- The statement `m[k] = f(m[k])`: `operator[]` inserts the value-initialised
`init` under a missing key, then the stored value is replaced by its image. -/
def update (k : κ) (init : ν) (f : ν → ν) : StdMap κ ν → StdMap κ ν
  | [] => [(k, f init)]
  | (x, v) :: rest =>
    if k = x then (x, f v) :: rest
    else if StdLess.less k x then (k, f init) :: (x, v) :: rest
    else (x, v) :: update k init f rest

/-- `map::emplace`: inserts the entry unless the key is already present. -/
def emplace (k : κ) (v : ν) (m : StdMap κ ν) : StdMap κ ν :=
  update k v (fun old => old) m

/-- `map::erase` by key. -/
def erase (k : κ) (m : StdMap κ ν) : StdMap κ ν :=
  m.filter (fun e => decide (e.1 ≠ k))

/-- `map::size`. -/
def size (m : StdMap κ ν) : Nat := m.length

end StdMap

/-! ## Free functions -/

/-- `MAX_RESULT_DOCUMENT_COUNT`. -/
def MAX_RESULT_DOCUMENT_COUNT : Nat := 5

/-- The loop body of `SplitIntoWords`, on the pair `(words, word)`. -/
def SplitIntoWords.step (st : List Str × Str) (c : Char) : List Str × Str :=
  if c = ' ' then
    if st.2 ≠ [] then (st.1 ++ [st.2], []) else st
  else (st.1, st.2 ++ [c])

/-- `SplitIntoWords`. -/
def SplitIntoWords (text : Str) : List Str :=
  let st := text.foldl SplitIntoWords.step ([], [])
  if st.2 ≠ [] then st.1 ++ [st.2] else st.1

/-- `struct Document`. -/
structure Document (K : Type) where
  id : Int
  relevance : K
  rating : Int

/-- `enum class DocumentStatus`. -/
inductive DocumentStatus where
  | ACTUAL
  | IRRELEVANT
  | BANNED
  | REMOVED
  deriving DecidableEq

/-- `MakeUniqueNonEmptyStrings`. -/
def MakeUniqueNonEmptyStrings (strings : List Str) : StdSet Str :=
  strings.foldl (fun non_empty_strings str =>
    if str ≠ [] then StdSet.insert str non_empty_strings else non_empty_strings) []

/-! ## The class `SearchServer` -/

/-- `SearchServer::DocumentData`. -/
structure DocumentData where
  rating : Int
  status : DocumentStatus
  deriving DecidableEq

/-- `SearchServer::QueryWord`. -/
structure QueryWord where
  data : Str
  is_minus : Bool
  is_stop : Bool
  deriving DecidableEq

/-- `SearchServer::Query`. -/
structure Query where
  plus_words : StdSet Str
  minus_words : StdSet Str
  deriving DecidableEq

/-- The data members of `SearchServer`. -/
structure SearchServer (K : Type) where
  stop_words_ : StdSet Str
  word_to_document_freqs_ : StdMap Str (StdMap Int K)
  documents_ : StdMap Int DocumentData
  document_ids_ : List Int

/-- A document predicate `(document_id, status, rating) -> bool`. -/
abbrev DocumentPredicate := Int → DocumentStatus → Int → Bool

/-- The value of an `int` computation, wrapped to 32 bits. -/
def wrapInt32 (x : Int) : Int := (x + 2147483648) % 4294967296 - 2147483648

/-- `SearchServer::IsValidWord`. -/
def IsValidWord (word : Str) : Bool :=
  !word.any (fun c => decide (0 ≤ c.toNat) && decide (c.toNat < 32))

/-- `SearchServer::ComputeAverageRating`. -/
def ComputeAverageRating (ratings : List Int) : Int :=
  if ratings = [] then 0
  else
    let rating_sum := ratings.foldl (fun rating_sum rating => wrapInt32 (rating_sum + rating)) 0
    Int.tdiv rating_sum (wrapInt32 (ratings.length : Int))

section Server

variable {K : Type} [LinearOrderedField K]

/-- The constructor `SearchServer(const StringContainer& stop_words)`. -/
def SearchServer.create (stop_words : List Str) : Except Exception (SearchServer K) :=
  if stop_words.all IsValidWord then
    .ok { stop_words_ := MakeUniqueNonEmptyStrings stop_words
          word_to_document_freqs_ := []
          documents_ := []
          document_ids_ := [] }
  else .error (.invalid_argument "Some of stop words are invalid")

/-- The constructor `SearchServer(const string& stop_words_text)`. -/
def SearchServer.createFromText (stop_words_text : Str) : Except Exception (SearchServer K) :=
  SearchServer.create (SplitIntoWords stop_words_text)

/-- `SearchServer::IsStopWord`. -/
def IsStopWord (s : SearchServer K) (word : Str) : Bool :=
  decide (StdSet.count s.stop_words_ word > 0)

/-- `SearchServer::SplitIntoWordsNoStop`. -/
def SplitIntoWordsNoStop (s : SearchServer K) (text : Str) : Except Exception (List Str) :=
  if !IsValidWord text then
    .error (.invalid_argument "one of several words contains forbidden symbols: ")
  else
    .ok ((SplitIntoWords text).foldl (fun words word =>
      if !IsStopWord s word then words ++ [word] else words) [])

/-- The statement `word_to_document_freqs_[word][document_id] += inv_word_count`. -/
def addWordFreq (document_id : Int) (inv_word_count : K)
    (freqs : StdMap Str (StdMap Int K)) (word : Str) : StdMap Str (StdMap Int K) :=
  StdMap.update word [] (StdMap.update document_id 0 (fun tf => tf + inv_word_count)) freqs

/-- `SearchServer::AddDocument`: the outcome and the server after the call. -/
def AddDocument (s : SearchServer K) (document_id : Int) (document : Str)
    (status : DocumentStatus) (ratings : List Int) : Except Exception Unit × SearchServer K :=
  if document_id < 0 ∨ StdMap.count s.documents_ document_id > 0 then
    (.error (.invalid_argument "Invalid document ID"), s)
  else
    match SplitIntoWordsNoStop s document with
    | .error e => (.error e, s)
    | .ok words =>
      let inv_word_count : K := 1 / (words.length : K)
      let freqs := words.foldl (addWordFreq document_id inv_word_count) s.word_to_document_freqs_
      (.ok (),
        { s with
          word_to_document_freqs_ := freqs
          documents_ := StdMap.emplace document_id
            { rating := ComputeAverageRating ratings, status := status } s.documents_
          document_ids_ := s.document_ids_ ++ [document_id] })

/-- `SearchServer::GetDocumentCount`. -/
def GetDocumentCount (s : SearchServer K) : Nat := StdMap.size s.documents_

/-- `SearchServer::GetDocumentId`; a negative `int` index converts to a `size_t`
beyond every size. -/
def GetDocumentId (s : SearchServer K) (index : Int) : Except Exception Int :=
  if index < 0 then .error .out_of_range
  else
    match s.document_ids_.get? index.toNat with
    | some id => .ok id
    | none => .error .out_of_range

/-- `SearchServer::ParseQueryWord`. -/
def ParseQueryWord (s : SearchServer K) (text : Str) : Except Exception QueryWord :=
  let is_minus := decide (text.headD (Char.ofNat 0) = '-')
  let word := if is_minus then text.drop 1 else text
  if word = [] ∨ word.headD (Char.ofNat 0) = '-' ∨ !IsValidWord word then
    .error (.invalid_argument ("Query word " ++ String.mk text ++ " is invalid"))
  else
    .ok { data := word, is_minus := is_minus, is_stop := IsStopWord s word }

/-- The loop body of `SearchServer::ParseQuery`. -/
def ParseQuery.step (s : SearchServer K) (query : Query) (word : Str) : Except Exception Query :=
  match ParseQueryWord s word with
  | .error e => .error e
  | .ok query_word =>
    if !query_word.is_stop then
      if query_word.is_minus then
        .ok { query with minus_words := StdSet.insert query_word.data query.minus_words }
      else
        .ok { query with plus_words := StdSet.insert query_word.data query.plus_words }
    else .ok query

/-- `SearchServer::ParseQuery`. -/
def ParseQuery (s : SearchServer K) (text : Str) : Except Exception Query :=
  if text = [] then .error (.invalid_argument "Query is empty")
  else (SplitIntoWords text).foldlM (ParseQuery.step s) { plus_words := [], minus_words := [] }

/-- `SearchServer::ComputeWordInverseDocumentFreq`. -/
def ComputeWordInverseDocumentFreq (log : K → K) (s : SearchServer K) (word : Str) :
    Except Exception K :=
  match StdMap.at s.word_to_document_freqs_ word with
  | .error e => .error e
  | .ok freqs => .ok (log ((GetDocumentCount s : K) * 1 / (StdMap.size freqs : K)))

/-- The inner loop of the plus-word pass of `FindAllDocuments`. -/
def FindAllDocuments.plusInner (s : SearchServer K) (document_predicat : DocumentPredicate)
    (inverse_document_freq : K) (document_to_relevance : StdMap Int K) (elem : Int × K) :
    Except Exception (StdMap Int K) :=
  match StdMap.at s.documents_ elem.1 with
  | .error e => .error e
  | .ok data =>
    if document_predicat elem.1 data.status data.rating then
      .ok (StdMap.update elem.1 0 (fun r => r + elem.2 * inverse_document_freq)
        document_to_relevance)
    else .ok document_to_relevance

/-- The body of the plus-word loop of `FindAllDocuments`. -/
def FindAllDocuments.plusStep (log : K → K) (s : SearchServer K)
    (document_predicat : DocumentPredicate) (document_to_relevance : StdMap Int K)
    (word : Str) : Except Exception (StdMap Int K) :=
  if StdMap.count s.word_to_document_freqs_ word = 0 then .ok document_to_relevance
  else
    match ComputeWordInverseDocumentFreq log s word with
    | .error e => .error e
    | .ok inverse_document_freq =>
      match StdMap.at s.word_to_document_freqs_ word with
      | .error e => .error e
      | .ok freqs =>
        freqs.foldlM (FindAllDocuments.plusInner s document_predicat inverse_document_freq)
          document_to_relevance

/-- The body of the minus-word loop of `FindAllDocuments`. -/
def FindAllDocuments.minusStep (s : SearchServer K) (document_to_relevance : StdMap Int K)
    (word : Str) : Except Exception (StdMap Int K) :=
  if StdMap.count s.word_to_document_freqs_ word = 0 then .ok document_to_relevance
  else
    match StdMap.at s.word_to_document_freqs_ word with
    | .error e => .error e
    | .ok freqs =>
      .ok (freqs.foldl (fun rel elem => StdMap.erase elem.1 rel) document_to_relevance)

/-- The final loop of `FindAllDocuments`, for one entry. -/
def FindAllDocuments.collect (s : SearchServer K) (elem : Int × K) :
    Except Exception (Document K) :=
  match StdMap.at s.documents_ elem.1 with
  | .error e => .error e
  | .ok data => .ok { id := elem.1, relevance := elem.2, rating := data.rating }

/-- `SearchServer::FindAllDocuments`. -/
def FindAllDocuments (log : K → K) (s : SearchServer K) (query : Query)
    (document_predicat : DocumentPredicate) : Except Exception (List (Document K)) :=
  match query.plus_words.foldlM (FindAllDocuments.plusStep log s document_predicat) [] with
  | .error e => .error e
  | .ok rel_plus =>
    match query.minus_words.foldlM (FindAllDocuments.minusStep s) rel_plus with
    | .error e => .error e
    | .ok document_to_relevance => document_to_relevance.mapM (FindAllDocuments.collect s)

/-- The comparator passed to `sort` in `FindTopDocuments`. -/
def relevanceComp (lhs rhs : Document K) : Bool :=
  if |lhs.relevance - rhs.relevance| < 1 / 1000000 then decide (lhs.rating > rhs.rating)
  else decide (lhs.relevance > rhs.relevance)

/-- Insertion of one element into an ordered range, before the first element it
precedes. -/
def stdSort.insert {α : Type} (comp : α → α → Bool) (x : α) : List α → List α
  | [] => [x]
  | y :: ys => if comp x y then x :: y :: ys else y :: stdSort.insert comp x ys

/-- `std::sort` with a comparator, as an insertion sort (the standard fixes the
result only up to the order of equivalent elements). -/
def stdSort {α : Type} (comp : α → α → Bool) (l : List α) : List α :=
  l.foldl (fun sorted x => stdSort.insert comp x sorted) []

/-- `SearchServer::FindTopDocuments` with a predicate. -/
def FindTopDocuments (log : K → K) (s : SearchServer K) (raw_query : Str)
    (document_predicate : DocumentPredicate) : Except Exception (List (Document K)) :=
  match ParseQuery s raw_query with
  | .error e => .error e
  | .ok query =>
    match FindAllDocuments log s query document_predicate with
    | .error e => .error e
    | .ok matched_documents =>
      let matched_documents := stdSort relevanceComp matched_documents
      if matched_documents.length > MAX_RESULT_DOCUMENT_COUNT then
        .ok (matched_documents.take MAX_RESULT_DOCUMENT_COUNT)
      else .ok matched_documents

/-- `SearchServer::FindTopDocuments` with a status. -/
def FindTopDocumentsByStatus (log : K → K) (s : SearchServer K) (raw_query : Str)
    (status : DocumentStatus) : Except Exception (List (Document K)) :=
  FindTopDocuments log s raw_query (fun _document_id st _rating => decide (st = status))

/-- `SearchServer::FindTopDocuments` with the query only. -/
def FindTopDocumentsDefault (log : K → K) (s : SearchServer K) (raw_query : Str) :
    Except Exception (List (Document K)) :=
  FindTopDocumentsByStatus log s raw_query DocumentStatus.ACTUAL

/-- The plus-word loop body of `MatchDocument`. -/
def MatchDocument.plusStep (s : SearchServer K) (document_id : Int) (matched_words : List Str)
    (word : Str) : Except Exception (List Str) :=
  if StdMap.count s.word_to_document_freqs_ word = 0 then .ok matched_words
  else
    match StdMap.at s.word_to_document_freqs_ word with
    | .error e => .error e
    | .ok freqs =>
      if StdMap.count freqs document_id ≠ 0 then .ok (matched_words ++ [word])
      else .ok matched_words

/-- The minus-word loop of `MatchDocument`, which stops at the first hit. -/
def MatchDocument.minusLoop (s : SearchServer K) (document_id : Int) :
    List Str → List Str → Except Exception (List Str)
  | [], matched_words => .ok matched_words
  | word :: rest, matched_words =>
    if StdMap.count s.word_to_document_freqs_ word = 0 then
      MatchDocument.minusLoop s document_id rest matched_words
    else
      match StdMap.at s.word_to_document_freqs_ word with
      | .error e => .error e
      | .ok freqs =>
        if StdMap.count freqs document_id ≠ 0 then .ok []
        else MatchDocument.minusLoop s document_id rest matched_words

/-- `SearchServer::MatchDocument`. -/
def MatchDocument (s : SearchServer K) (raw_query : Str) (document_id : Int) :
    Except Exception (List Str × DocumentStatus) :=
  match ParseQuery s raw_query with
  | .error e => .error e
  | .ok query =>
    match query.plus_words.foldlM (MatchDocument.plusStep s document_id) [] with
    | .error e => .error e
    | .ok matched_plus =>
      match MatchDocument.minusLoop s document_id query.minus_words matched_plus with
      | .error e => .error e
      | .ok matched_words =>
        match StdMap.at s.documents_ document_id with
        | .error e => .error e
        | .ok data => .ok (matched_words, data.status)

/-! ## Reachable states -/

/-- The arguments of one call of `AddDocument`. -/
structure AddCall where
  document_id : Int
  document : Str
  status : DocumentStatus
  ratings : List Int

/-- The server after one call of `AddDocument`, whether it returned or threw. -/
def afterCall (s : SearchServer K) (c : AddCall) : SearchServer K :=
  (AddDocument s c.document_id c.document c.status c.ratings).2

/-- The server after a sequence of calls of `AddDocument`. -/
def afterCalls (s : SearchServer K) (calls : List AddCall) : SearchServer K :=
  calls.foldl afterCall s

/-- A server state is reachable when a constructor followed by calls of
`AddDocument` (the only mutating member function) produces it. -/
def Reachable (s : SearchServer K) : Prop :=
  ∃ (stop_words : List Str) (s0 : SearchServer K) (calls : List AddCall),
    SearchServer.create stop_words = .ok s0 ∧ s = afterCalls s0 calls

/-- The keys of a map, in iteration order. -/
def StdMap.keys {κ ν : Type} (m : StdMap κ ν) : List κ := m.map Prod.fst

/-- The text has a character with code in `[0, 0x20)`. -/
def HasControlChar (text : Str) : Prop := ∃ c ∈ text, c.toNat < 32

/-- The laws of a strict total order, which `std::less` obeys on both key types. -/
class LawfulStdLess (κ : Type) [StdLess κ] : Prop where
  irrefl : ∀ a : κ, StdLess.less a a = false
  trans : ∀ a b c : κ, StdLess.less a b = true → StdLess.less b c = true →
    StdLess.less a c = true
  total : ∀ a b : κ, StdLess.less a b = false → StdLess.less b a = false → a = b

/-- The list is in strictly ascending order for `std::less`. -/
def Ascending {κ : Type} [StdLess κ] (l : List κ) : Prop :=
  l.Pairwise (fun a b => StdLess.less a b = true)

/-- The weight stored in an inverted index for a term and a document, if any. -/
def termFreq {K : Type} (freqs : StdMap Str (StdMap Int K)) (word : Str) (document_id : Int) :
    Option K :=
  match StdMap.lookup freqs word with
  | none => none
  | some m => StdMap.lookup m document_id

/-- The well-formedness of an inverted index whose documents all have their id
in `ids`: ascending keys at both levels and no empty per-term map. -/
structure IndexOk {K : Type} (freqs : StdMap Str (StdMap Int K)) (ids : Int → Prop) : Prop where
  outer : Ascending (StdMap.keys freqs)
  inner : ∀ e ∈ freqs, Ascending (StdMap.keys e.2)
  nonempty : ∀ e ∈ freqs, e.2 ≠ []
  stored : ∀ e ∈ freqs, ∀ d ∈ StdMap.keys e.2, ids d

/-- The tokens under which `AddDocument` indexes a text: the words of
`SplitIntoWords` that are not stop words, in order. -/
def nonStopWords {K : Type} [LinearOrderedField K] (s : SearchServer K) (text : Str) :
    List Str :=
  (SplitIntoWords text).filter (fun word => !IsStopWord s word)

/-- The calls of a sequence that return normally, in order. -/
def acceptedCalls {K : Type} [LinearOrderedField K] (s : SearchServer K) :
    List AddCall → List AddCall
  | [] => []
  | c :: rest =>
    match (AddDocument s c.document_id c.document c.status c.ratings).1 with
    | .ok _ => c :: acceptedCalls (afterCall s c) rest
    | .error _ => acceptedCalls (afterCall s c) rest

/-- The invariant that ties a server to the calls of `AddDocument` it accepted. -/
structure ServerInv {K : Type} [LinearOrderedField K] (s : SearchServer K)
    (acc : List AddCall) : Prop where
  index : IndexOk s.word_to_document_freqs_ (fun d => d ∈ StdMap.keys s.documents_)
  docs_asc : Ascending (StdMap.keys s.documents_)
  ids : s.document_ids_ = acc.map (fun c => c.document_id)
  keys : ∀ d, d ∈ StdMap.keys s.documents_ ↔ d ∈ acc.map (fun c => c.document_id)
  nodup : (acc.map (fun c => c.document_id)).Nodup
  data : ∀ c ∈ acc, StdMap.lookup s.documents_ c.document_id
    = some { rating := ComputeAverageRating c.ratings, status := c.status }
  valid : ∀ c ∈ acc, 0 ≤ c.document_id ∧ ¬ HasControlChar c.document
  freq : ∀ c ∈ acc, ∀ t, termFreq s.word_to_document_freqs_ t c.document_id
    = if t ∈ nonStopWords s c.document then
        some (((nonStopWords s c.document).count t : K)
          / ((nonStopWords s c.document).length : K))
      else none

/-- The document is indexed under the term: it is a key of the per-term map. -/
def indexedUnder {K : Type} (s : SearchServer K) (word : Str) (document_id : Int) : Bool :=
  match StdMap.lookup s.word_to_document_freqs_ word with
  | none => false
  | some freqs => decide (document_id ∈ StdMap.keys freqs)

/-- The predicate applied to a stored document and its stored status and rating. -/
def admits {K : Type} (s : SearchServer K) (p : DocumentPredicate) (document_id : Int) : Bool :=
  match StdMap.lookup s.documents_ document_id with
  | none => false
  | some data => p document_id data.status data.rating

/-- The stored rating of a document. -/
def ratingOf {K : Type} (s : SearchServer K) (document_id : Int) : Int :=
  match StdMap.lookup s.documents_ document_id with
  | none => 0
  | some data => data.rating

/-- The statements `rel[id] += x`, for a list of pairs `(id, x)` in order. -/
def accumulate {K : Type} [LinearOrderedField K] (rel : StdMap Int K) (cs : List (Int × K)) :
    StdMap Int K :=
  cs.foldl (fun r e => StdMap.update e.1 0 (fun x => x + e.2) r) rel

/-- The pairs `(id, tf * idf)` that one plus-word adds to the relevance map. -/
def plusContribs {K : Type} [LinearOrderedField K] (log : K → K) (s : SearchServer K)
    (p : DocumentPredicate) (word : Str) : List (Int × K) :=
  match StdMap.lookup s.word_to_document_freqs_ word with
  | none => []
  | some freqs =>
    (freqs.filter (fun e => admits s p e.1)).map
      (fun e => (e.1, e.2 * log ((GetDocumentCount s : K) * 1 / (StdMap.size freqs : K))))

/-- The inverse document frequency of a term of the index, as
`ComputeWordInverseDocumentFreq` computes it. -/
def idfOf {K : Type} [LinearOrderedField K] (log : K → K) (s : SearchServer K) (word : Str) : K :=
  log ((GetDocumentCount s : K) * 1
    / (StdMap.size ((StdMap.lookup s.word_to_document_freqs_ word).getD []) : K))

/-- What one plus-word adds to the relevance of one document: `tf * idf` when
the document is indexed under the word. -/
def termWeight {K : Type} [LinearOrderedField K] (log : K → K) (s : SearchServer K)
    (word : Str) (document_id : Int) : K :=
  match termFreq s.word_to_document_freqs_ word document_id with
  | none => 0
  | some tf => tf * idfOf log s word

/-- The value of `FindAllDocuments` on a well-formed server, loop by loop. -/
def evaluate {K : Type} [LinearOrderedField K] (log : K → K) (s : SearchServer K)
    (query : Query) (p : DocumentPredicate) : List (Document K) :=
  ((accumulate [] (query.plus_words.flatMap (plusContribs log s p))).filter
      (fun e => !query.minus_words.any (fun t => indexedUnder s t e.1))).map
    (fun e => { id := e.1, relevance := e.2, rating := ratingOf s e.1 })

/-- The query token is the bare `-`, starts with `--`, or has a character with
code in `[0, 0x20)`. -/
def MalformedToken (t : Str) : Prop :=
  t = ['-'] ∨ (∃ r, t = '-' :: '-' :: r) ∨ HasControlChar t

/-- The query token without its leading `-`, if it has one. -/
def stripMinus (t : Str) : Str :=
  if t.headD (Char.ofNat 0) = '-' then t.drop 1 else t

/-- The query after a token that `ParseQueryWord` accepts. -/
def nextQuery {K : Type} [LinearOrderedField K] (s : SearchServer K) (q : Query) (t : Str) :
    Query :=
  if IsStopWord s (stripMinus t) then q
  else if t.headD (Char.ofNat 0) = '-' then
    { q with minus_words := StdSet.insert (stripMinus t) q.minus_words }
  else { q with plus_words := StdSet.insert (stripMinus t) q.plus_words }

/-- The sum, over the terms of the index, of the weight stored for a document. -/
def weightSum {K : Type} [LinearOrderedField K] (s : SearchServer K) (document_id : Int) : K :=
  (s.word_to_document_freqs_.map (fun e => (StdMap.lookup e.2 document_id).getD 0)).sum

/-- Two entries are tied: their relevances differ by less than `1e-6`. -/
def tied {K : Type} [LinearOrderedField K] (a b : Document K) : Prop :=
  |a.relevance - b.relevance| < 1 / 1000000

/-- The order that a sorted result puts between an entry and a later one: tied
entries by rating descending, others by relevance descending. -/
def SortedBefore {K : Type} [LinearOrderedField K] (a b : Document K) : Prop :=
  (tied a b ∧ a.rating ≥ b.rating) ∨ (¬ tied a b ∧ a.relevance > b.relevance)

/-! ## A server with near-ties -/

/-- A server without stop words. -/
def cexStart (K : Type) [LinearOrderedField K] : SearchServer K :=
  { stop_words_ := [], word_to_document_freqs_ := [], documents_ := [], document_ids_ := [] }

/-- The text `w x x ... x` with `n` words `x`. -/
def cexText (n : Nat) : Str := 'w' :: (List.replicate n [' ', 'x']).flatten

/-- Three documents with the word `w` once among 1000, 1001 and 1002 words, and
three empty documents. -/
def cexCalls : List AddCall :=
  [ ⟨0, cexText 999, .ACTUAL, [1]⟩,
    ⟨1, cexText 1000, .ACTUAL, [2]⟩,
    ⟨2, cexText 1001, .ACTUAL, [3]⟩,
    ⟨3, [], .ACTUAL, []⟩,
    ⟨4, [], .ACTUAL, []⟩,
    ⟨5, [], .ACTUAL, []⟩ ]

/-- The server with near-ties. -/
def cexServer (K : Type) [LinearOrderedField K] : SearchServer K :=
  afterCalls (cexStart K) cexCalls

/-- The query `"w"`, parsed. -/
def cexQuery : Query := { plus_words := [['w']], minus_words := [] }

/-! ## The server of `main` -/

/-- The server that `SearchServer search_server("и в на"s)` constructs. -/
def demoStart (K : Type) [LinearOrderedField K] : SearchServer K :=
  { stop_words_ := MakeUniqueNonEmptyStrings (SplitIntoWords "и в на".toList)
    word_to_document_freqs_ := []
    documents_ := []
    document_ids_ := [] }

/-- The five calls of `AddDocument` in `main`. -/
def demoCalls : List AddCall :=
  [ ⟨0, "белый кот и модный ошейник".toList, .ACTUAL, [8, -3]⟩,
    ⟨1, "пушистый кот пушистый хвост".toList, .ACTUAL, [7, 2, 7]⟩,
    ⟨2, "ухоженный пёс выразительные глаза".toList, .ACTUAL, [5, -12, 2, 1]⟩,
    ⟨3, "белый кот пушистый хвост".toList, .ACTUAL, [8, -3]⟩,
    ⟨4, "ухоженный скворец евгений".toList, .BANNED, [9]⟩ ]

/-- The query `"пушистый ухоженный -кот "` of `main`, parsed. -/
def demoQuery : Query :=
  { plus_words := ["пушистый".toList, "ухоженный".toList]
    minus_words := ["кот".toList] }

/-- The predicate of `FindTopDocuments(raw_query)`: the status is `ACTUAL`. -/
def isActual : DocumentPredicate :=
  fun _document_id status _rating => decide (status = DocumentStatus.ACTUAL)

/-- The three documents of the example of the specification: documents 0, 1
and 4 of `main`. -/
def specCalls : List AddCall :=
  [ ⟨0, "белый кот и модный ошейник".toList, .ACTUAL, [8, -3]⟩,
    ⟨1, "пушистый кот пушистый хвост".toList, .ACTUAL, [7, 2, 7]⟩,
    ⟨4, "ухоженный скворец евгений".toList, .BANNED, [9]⟩ ]

/-- The server of the example of the specification. -/
def specServer (K : Type) [LinearOrderedField K] : SearchServer K :=
  afterCalls (demoStart K) specCalls

/-- The query `"пушистый ухоженный кот"` of `main`, parsed. -/
def specQuery : Query :=
  { plus_words := ["кот".toList, "пушистый".toList, "ухоженный".toList]
    minus_words := [] }

/-- The server of `main` after its five documents were added. -/
def demoServer (K : Type) [LinearOrderedField K] : SearchServer K :=
  afterCalls (demoStart K) demoCalls


/-- The maximal non-empty runs of non-space characters of a text, in order, in
the words of the specification: the text split at every space character, the
empty fragments discarded. -/
def maximalRuns (text : Str) : List Str :=
  (text.splitOnP (fun c => decide (c = ' '))).filter (fun w => decide (w ≠ []))

/-- The end of `SplitIntoWords`: the pending word, if any, is pushed. -/
def SplitIntoWords.finish (st : List Str × Str) : List Str :=
  if st.2 ≠ [] then st.1 ++ [st.2] else st.1


/-! ## Servers for `MatchDocument` and for the inverse document frequency -/

/-- A document with `пушистый` and `кот`, and one with `пушистый` only. -/
def matchCalls : List AddCall :=
  [ ⟨1, "пушистый кот пушистый хвост".toList, .ACTUAL, [7, 2, 7]⟩,
    ⟨2, "пушистый пёс".toList, .BANNED, [5]⟩ ]

/-- The server with the two documents of `matchCalls`. -/
def matchServer (K : Type) [LinearOrderedField K] : SearchServer K :=
  afterCalls (demoStart K) matchCalls

/-- The query `"пушистый -кот"`, parsed. -/
def matchQuery : Query :=
  { plus_words := ["пушистый".toList], minus_words := ["кот".toList] }

/-- The server with the single document `"кот"`. -/
def soloServer (K : Type) [LinearOrderedField K] : SearchServer K :=
  afterCalls (demoStart K) [⟨0, "кот".toList, .ACTUAL, [9]⟩]

/-- The value fits a 32-bit signed `int`. -/
def InInt32 (x : Int) : Prop := -2147483648 ≤ x ∧ x < 2147483648

instance (x : Int) : Decidable (InInt32 x) := by
  unfold InInt32
  infer_instance

/-- No `int` that `ComputeAverageRating` computes leaves the 32-bit signed
range: the running sums of the ratings and their count. -/
def StaysInInt32 (ratings : List Int) : Prop :=
  (∀ k ≤ ratings.length, InInt32 (ratings.take k).sum) ∧ InInt32 (ratings.length : Int)

instance (ratings : List Int) : Decidable (StaysInInt32 ratings) := by
  unfold StaysInInt32
  infer_instance

/-- The calls of the error checks of `main`: a repeated id, a negative id and a
text with the character `\x12` are among them. -/
def faultyCalls : List AddCall :=
  [ ⟨0, "белый кот и модный ошейник".toList, .ACTUAL, [8, -3]⟩,
    ⟨1, "пушистый кот пушистый хвост".toList, .ACTUAL, [7, 2, 7]⟩,
    ⟨1, "ухоженный пёс пушистый хвост".toList, .ACTUAL, [7, 2, 7]⟩,
    ⟨2, "ухоженный пёс выразительные глаза".toList, .ACTUAL, [5, -12, 2, 1]⟩,
    ⟨-2, "ухоженный скворе и модный ошейник".toList, .ACTUAL, [8, -3]⟩,
    ⟨4, "белый кот скво".toList ++ Char.ofNat 18 :: "рец хвост".toList, .ACTUAL, [8, -3]⟩ ]

/-! ## Containers: basic facts -/

theorem StdMap.lookup_isSome_iff {κ ν : Type} [DecidableEq κ] (m : StdMap κ ν) (k : κ) :
    (StdMap.lookup m k).isSome ↔ k ∈ StdMap.keys m := by
  induction m with
  | nil => simp [StdMap.lookup, StdMap.keys]
  | cons e rest ih =>
    obtain ⟨x, v⟩ := e
    by_cases h : k = x
    · simp [StdMap.lookup, StdMap.keys, h]
    · simp only [StdMap.lookup, h, if_false, ih]
      simp [StdMap.keys, h]

theorem StdMap.count_pos_iff {κ ν : Type} [DecidableEq κ] (m : StdMap κ ν) (k : κ) :
    StdMap.count m k > 0 ↔ k ∈ StdMap.keys m := by
  rw [← StdMap.lookup_isSome_iff]
  unfold StdMap.count
  cases StdMap.lookup m k <;> simp

theorem StdMap.count_eq_zero_iff {κ ν : Type} [DecidableEq κ] (m : StdMap κ ν) (k : κ) :
    StdMap.count m k = 0 ↔ k ∉ StdMap.keys m := by
  rw [← StdMap.count_pos_iff]
  omega

section Containers

variable {κ ν : Type} [DecidableEq κ] [StdLess κ]

theorem StdSet.mem_insert (k x : κ) (l : StdSet κ) :
    x ∈ StdSet.insert k l ↔ x = k ∨ x ∈ l := by
  induction l with
  | nil => simp [StdSet.insert]
  | cons y rest ih =>
    unfold StdSet.insert
    by_cases h1 : k = y
    · subst h1
      simp only [if_true, List.mem_cons]
      tauto
    · by_cases h2 : StdLess.less k y = true
      · simp [h1, h2]
      · rw [Bool.not_eq_true] at h2
        simp only [h1, h2, if_false, Bool.false_eq_true, List.mem_cons, ih]
        tauto

theorem Ascending.nodup [LawfulStdLess κ] {l : List κ} (h : Ascending l) : l.Nodup := by
  unfold Ascending at h
  refine List.Pairwise.imp ?_ h
  intro a b hab heq
  subst heq
  rw [LawfulStdLess.irrefl a] at hab
  cases hab

theorem Ascending.insert [LawfulStdLess κ] (k : κ) {l : StdSet κ} (h : Ascending l) :
    Ascending (StdSet.insert k l) := by
  induction l with
  | nil => simp [StdSet.insert, Ascending]
  | cons y rest ih =>
    have hy := (List.pairwise_cons.1 h).1
    have hrest : Ascending rest := (List.pairwise_cons.1 h).2
    unfold StdSet.insert
    by_cases h1 : k = y
    · simpa [h1] using h
    · by_cases h2 : StdLess.less k y = true
      · simp only [h1, h2, if_false, if_true]
        refine List.pairwise_cons.2 ⟨?_, h⟩
        intro z hz
        rcases List.mem_cons.1 hz with hz | hz
        · rw [hz]; exact h2
        · exact LawfulStdLess.trans k y z h2 (hy z hz)
      · rw [Bool.not_eq_true] at h2
        simp only [h1, h2, if_false, Bool.false_eq_true]
        refine List.pairwise_cons.2 ⟨?_, ih hrest⟩
        intro z hz
        rcases (StdSet.mem_insert k z rest).1 hz with hz | hz
        · subst hz
          cases h3 : StdLess.less y z with
          | true => rfl
          | false =>
            exact absurd (LawfulStdLess.total z y h2 h3) h1
        · exact hy z hz

theorem StdMap.keys_update (k : κ) (init : ν) (f : ν → ν) (m : StdMap κ ν) :
    StdMap.keys (StdMap.update k init f m) = StdSet.insert k (StdMap.keys m) := by
  induction m with
  | nil => simp [StdMap.update, StdMap.keys, StdSet.insert]
  | cons e rest ih =>
    obtain ⟨x, v⟩ := e
    unfold StdMap.keys at ih ⊢
    unfold StdMap.update
    by_cases h1 : k = x
    · simp [h1, StdSet.insert]
    · by_cases h2 : StdLess.less k x = true
      · simp [h1, h2, StdSet.insert]
      · rw [Bool.not_eq_true] at h2
        simp only [h1, h2, if_false, Bool.false_eq_true, List.map_cons, StdSet.insert, ih]

theorem StdMap.mem_keys_update (k x : κ) (init : ν) (f : ν → ν) (m : StdMap κ ν) :
    x ∈ StdMap.keys (StdMap.update k init f m) ↔ x = k ∨ x ∈ StdMap.keys m := by
  rw [StdMap.keys_update, StdSet.mem_insert]

theorem StdMap.ascending_update [LawfulStdLess κ] (k : κ) (init : ν) (f : ν → ν)
    {m : StdMap κ ν} (h : Ascending (StdMap.keys m)) :
    Ascending (StdMap.keys (StdMap.update k init f m)) := by
  rw [StdMap.keys_update]
  exact Ascending.insert k h

theorem StdMap.lookup_eq_none_iff (m : StdMap κ ν) (k : κ) :
    StdMap.lookup m k = none ↔ k ∉ StdMap.keys m := by
  rw [← StdMap.lookup_isSome_iff]
  cases StdMap.lookup m k <;> simp

theorem StdMap.lookup_update_ne (k x : κ) (init : ν) (f : ν → ν) (m : StdMap κ ν)
    (hx : x ≠ k) : StdMap.lookup (StdMap.update k init f m) x = StdMap.lookup m x := by
  induction m with
  | nil => simp [StdMap.update, StdMap.lookup, hx]
  | cons e rest ih =>
    obtain ⟨y, v⟩ := e
    unfold StdMap.update
    by_cases h1 : k = y
    · subst h1
      simp [StdMap.lookup, hx]
    · by_cases h2 : StdLess.less k y = true
      · simp only [h1, h2, if_false, if_true]
        rw [StdMap.lookup.eq_def]
        simp only [hx, if_false]
      · rw [Bool.not_eq_true] at h2
        simp only [h1, h2, if_false, Bool.false_eq_true]
        by_cases h3 : x = y
        · simp [StdMap.lookup, h3]
        · simp only [StdMap.lookup, h3, if_false, ih]

theorem StdMap.lookup_update_self [LawfulStdLess κ] (k : κ) (init : ν) (f : ν → ν)
    {m : StdMap κ ν} (h : Ascending (StdMap.keys m)) :
    StdMap.lookup (StdMap.update k init f m) k
      = some (f ((StdMap.lookup m k).getD init)) := by
  induction m with
  | nil => simp [StdMap.update, StdMap.lookup]
  | cons e rest ih =>
    obtain ⟨y, v⟩ := e
    have hy : ∀ z ∈ StdMap.keys rest, StdLess.less y z = true :=
      (List.pairwise_cons.1 h).1
    have hrest : Ascending (StdMap.keys rest) := (List.pairwise_cons.1 h).2
    unfold StdMap.update
    by_cases h1 : k = y
    · subst h1
      simp [StdMap.lookup]
    · by_cases h2 : StdLess.less k y = true
      · have hk : k ∉ StdMap.keys rest := by
          intro hmem
          have h3 := LawfulStdLess.trans k y k h2 (hy k hmem)
          rw [LawfulStdLess.irrefl k] at h3
          cases h3
        have hnone : StdMap.lookup rest k = none := (StdMap.lookup_eq_none_iff rest k).2 hk
        simp [h1, h2, StdMap.lookup, hnone]
      · rw [Bool.not_eq_true] at h2
        simp only [h1, h2, if_false, Bool.false_eq_true, StdMap.lookup, ih hrest]

theorem StdMap.keys_erase (k : κ) (m : StdMap κ ν) :
    StdMap.keys (StdMap.erase k m) = (StdMap.keys m).filter (fun x => decide (x ≠ k)) := by
  induction m with
  | nil => rfl
  | cons e rest ih =>
    obtain ⟨y, v⟩ := e
    unfold StdMap.keys StdMap.erase at ih ⊢
    by_cases h : y = k
    · simp only [List.filter_cons, h, List.map_cons, ne_eq, not_true, decide_False,
        Bool.false_eq_true, if_false]
      exact ih
    · simp only [List.filter_cons, h, List.map_cons, ne_eq, not_false_eq_true, decide_True,
        if_true, List.cons.injEq, true_and]
      exact ih

theorem StdMap.mem_of_lookup {m : StdMap κ ν} {k : κ} {v : ν}
    (h : StdMap.lookup m k = some v) : (k, v) ∈ m := by
  induction m with
  | nil => simp [StdMap.lookup] at h
  | cons e rest ih =>
    obtain ⟨y, w⟩ := e
    by_cases h1 : k = y
    · simp only [StdMap.lookup, h1, if_true, Option.some.injEq] at h
      simp [h1, h]
    · simp only [StdMap.lookup, h1, if_false] at h
      exact List.mem_cons_of_mem _ (ih h)

theorem StdMap.lookup_of_mem [LawfulStdLess κ] {m : StdMap κ ν} {k : κ} {v : ν}
    (hasc : Ascending (StdMap.keys m)) (h : (k, v) ∈ m) : StdMap.lookup m k = some v := by
  induction m with
  | nil => cases h
  | cons e rest ih =>
    obtain ⟨y, w⟩ := e
    have hy : ∀ z ∈ StdMap.keys rest, StdLess.less y z = true :=
      (List.pairwise_cons.1 hasc).1
    have hrest : Ascending (StdMap.keys rest) := (List.pairwise_cons.1 hasc).2
    rcases List.mem_cons.1 h with h5 | h5
    · cases h5
      simp [StdMap.lookup]
    · by_cases h1 : k = y
      · subst h1
        have hk : k ∈ StdMap.keys rest := List.mem_map.2 ⟨(k, v), h5, rfl⟩
        have h3 := hy k hk
        rw [LawfulStdLess.irrefl k] at h3
        cases h3
      · simp only [StdMap.lookup, h1, if_false]
        exact ih hrest h5

theorem StdMap.mem_update {k : κ} {init : ν} {f : ν → ν} {m : StdMap κ ν} {e : κ × ν}
    (h : e ∈ StdMap.update k init f m) :
    e ∈ m ∨ e = (k, f init) ∨ ∃ v, (k, v) ∈ m ∧ e = (k, f v) := by
  induction m with
  | nil =>
    simp only [StdMap.update, List.mem_singleton] at h
    exact Or.inr (Or.inl h)
  | cons x rest ih =>
    obtain ⟨y, w⟩ := x
    unfold StdMap.update at h
    by_cases h1 : k = y
    · subst h1
      simp only [if_true, List.mem_cons] at h
      rcases h with h | h
      · exact Or.inr (Or.inr ⟨w, List.mem_cons_self _ _, h⟩)
      · exact Or.inl (List.mem_cons_of_mem _ h)
    · cases h2 : StdLess.less k y with
      | true =>
        simp only [h1, h2, if_false, if_true, List.mem_cons] at h
        rcases h with h | h | h
        · exact Or.inr (Or.inl h)
        · exact Or.inl (by rw [h]; exact List.mem_cons_self _ _)
        · exact Or.inl (List.mem_cons_of_mem _ h)
      | false =>
        simp only [h1, h2, if_false, Bool.false_eq_true, List.mem_cons] at h
        rcases h with h | h
        · exact Or.inl (by rw [h]; exact List.mem_cons_self _ _)
        · rcases ih h with h | h | ⟨v, hv, h⟩
          · exact Or.inl (List.mem_cons_of_mem _ h)
          · exact Or.inr (Or.inl h)
          · exact Or.inr (Or.inr ⟨v, List.mem_cons_of_mem _ hv, h⟩)

end Containers

instance : LawfulStdLess Int where
  irrefl a := by simp [StdLess.less]
  trans a b c := by
    simp only [StdLess.less, decide_eq_true_eq]
    omega
  total a b := by
    simp only [StdLess.less, decide_eq_false_iff_not]
    omega

theorem strLess_irrefl (a : Str) : strLess a a = false := by
  induction a with
  | nil => rfl
  | cons c cs ih => simp [strLess, ih]

theorem strLess_trans (a b c : Str) (hab : strLess a b = true) (hbc : strLess b c = true) :
    strLess a c = true := by
  induction a generalizing b c with
  | nil =>
    cases b with
    | nil => simp [strLess] at hab
    | cons y ys =>
      cases c with
      | nil => simp [strLess] at hbc
      | cons z zs => simp [strLess]
  | cons x xs ih =>
    cases b with
    | nil => simp [strLess] at hab
    | cons y ys =>
      cases c with
      | nil => simp [strLess] at hbc
      | cons z zs =>
        simp only [strLess] at hab hbc ⊢
        by_cases hxy : x < y
        · by_cases hyz : y < z
          · simp [lt_trans hxy hyz]
          · simp only [hyz, if_false] at hbc
            by_cases hzy : z < y
            · simp [hzy] at hbc
            · have : y = z := le_antisymm (not_lt.1 hzy) (not_lt.1 hyz)
              subst this
              simp [hxy]
        · simp only [hxy, if_false] at hab
          by_cases hyx : y < x
          · simp [hyx] at hab
          · simp only [hyx, if_false] at hab
            have hxy2 : x = y := le_antisymm (not_lt.1 hyx) (not_lt.1 hxy)
            subst hxy2
            by_cases hxz : x < z
            · simp [hxz]
            · simp only [hxz, if_false] at hbc ⊢
              by_cases hzx : z < x
              · simp [hzx] at hbc
              · simp only [hzx, if_false] at hbc ⊢
                exact ih ys zs hab hbc

theorem strLess_total (a b : Str) (hab : strLess a b = false) (hba : strLess b a = false) :
    a = b := by
  induction a generalizing b with
  | nil =>
    cases b with
    | nil => rfl
    | cons y ys => simp [strLess] at hab
  | cons x xs ih =>
    cases b with
    | nil => simp [strLess] at hba
    | cons y ys =>
      simp only [strLess] at hab hba
      by_cases hxy : x < y
      · simp [hxy] at hab
      · by_cases hyx : y < x
        · simp [hyx] at hba
        · simp only [hxy, hyx, if_false] at hab hba
          have hxy2 : x = y := le_antisymm (not_lt.1 hyx) (not_lt.1 hxy)
          rw [hxy2, ih ys hab hba]

instance : LawfulStdLess Str where
  irrefl := strLess_irrefl
  trans := strLess_trans
  total := strLess_total

theorem IsValidWord_eq_false_iff (text : Str) :
    IsValidWord text = false ↔ HasControlChar text := by
  simp [IsValidWord, HasControlChar]

theorem IsValidWord_eq_true_iff (text : Str) :
    IsValidWord text = true ↔ ¬ HasControlChar text := by
  rw [← IsValidWord_eq_false_iff]
  simp

/-! ## The inverted index under `AddDocument` -/

theorem termFreq_addWordFreq (d : Int) (inv : K) (freqs : StdMap Str (StdMap Int K))
    (ids : Int → Prop) (hok : IndexOk freqs ids) (w t : Str) (x : Int) :
    termFreq (addWordFreq d inv freqs w) t x
      = if t = w ∧ x = d then some ((termFreq freqs w d).getD 0 + inv)
        else termFreq freqs t x := by
  unfold termFreq addWordFreq
  by_cases ht : t = w
  · subst ht
    rw [StdMap.lookup_update_self t [] _ hok.outer]
    have hinner : Ascending (StdMap.keys ((StdMap.lookup freqs t).getD [])) := by
      cases hl : StdMap.lookup freqs t with
      | none => simp [Ascending, StdMap.keys]
      | some m => exact hok.inner _ (StdMap.mem_of_lookup hl)
    by_cases hx : x = d
    · subst hx
      simp only [true_and, if_true]
      rw [StdMap.lookup_update_self x 0 _ hinner]
      cases hl : StdMap.lookup freqs t <;> simp [StdMap.lookup]
    · simp only [hx, and_false, if_false]
      rw [StdMap.lookup_update_ne d x 0 _ _ hx]
      cases hl : StdMap.lookup freqs t <;> simp [StdMap.lookup]
  · simp only [ht, false_and, if_false]
    rw [StdMap.lookup_update_ne w t [] _ _ ht]

theorem IndexOk.add_word (d : Int) (inv : K) {freqs : StdMap Str (StdMap Int K)}
    {ids : Int → Prop} (hok : IndexOk freqs ids) (w : Str) :
    IndexOk (addWordFreq d inv freqs w) (fun x => ids x ∨ x = d) := by
  have key : ∀ e ∈ addWordFreq d inv freqs w,
      e ∈ freqs ∨ ∃ m, (m = [] ∨ (w, m) ∈ freqs) ∧
        e = (w, StdMap.update d 0 (fun tf => tf + inv) m) := by
    intro e he
    rcases StdMap.mem_update he with h | h | ⟨v, hv, h⟩
    · exact Or.inl h
    · exact Or.inr ⟨[], Or.inl rfl, h⟩
    · exact Or.inr ⟨v, Or.inr hv, h⟩
  have hm : ∀ m : StdMap Int K, (m = [] ∨ (w, m) ∈ freqs) → Ascending (StdMap.keys m) := by
    intro m hm
    rcases hm with hm | hm
    · subst hm; simp [Ascending, StdMap.keys]
    · exact hok.inner _ hm
  refine ⟨StdMap.ascending_update w [] _ hok.outer, ?_, ?_, ?_⟩
  · intro e he
    rcases key e he with h | ⟨m, hmem, h⟩
    · exact hok.inner e h
    · rw [h]
      exact StdMap.ascending_update d 0 _ (hm m hmem)
  · intro e he
    rcases key e he with h | ⟨m, hmem, h⟩
    · exact hok.nonempty e h
    · rw [h]
      intro hnil
      have h1 : d ∈ StdMap.keys (StdMap.update d 0 (fun tf => tf + inv) m) :=
        (StdMap.mem_keys_update d d 0 _ m).2 (Or.inl rfl)
      have hnil2 : StdMap.update d 0 (fun tf => tf + inv) m = [] := hnil
      rw [hnil2] at h1
      cases h1
  · intro e he x hx
    rcases key e he with h | ⟨m, hmem, h⟩
    · exact Or.inl (hok.stored e h x hx)
    · rw [h] at hx
      rcases (StdMap.mem_keys_update d x 0 _ m).1 hx with hx | hx
      · exact Or.inr hx
      · rcases hmem with hmem | hmem
        · subst hmem; cases hx
        · exact Or.inl (hok.stored _ hmem x hx)

theorem IndexOk.mono {freqs : StdMap Str (StdMap Int K)} {ids ids2 : Int → Prop}
    (hok : IndexOk freqs ids) (h : ∀ x, ids x → ids2 x) : IndexOk freqs ids2 :=
  ⟨hok.outer, hok.inner, hok.nonempty, fun e he d hd => h d (hok.stored e he d hd)⟩

theorem IndexOk.foldl_add_word (d : Int) (inv : K) (ws : List Str)
    {freqs : StdMap Str (StdMap Int K)} {ids : Int → Prop} (hok : IndexOk freqs ids) :
    IndexOk (ws.foldl (addWordFreq d inv) freqs) (fun x => ids x ∨ x = d) := by
  induction ws generalizing freqs ids with
  | nil => exact hok.mono (fun x hx => Or.inl hx)
  | cons w rest ih =>
    simp only [List.foldl_cons]
    refine (ih (hok.add_word d inv w)).mono ?_
    intro x hx
    tauto

theorem termFreq_foldl_addWordFreq (d : Int) (inv : K) (ws : List Str)
    (freqs : StdMap Str (StdMap Int K)) (ids : Int → Prop) (hok : IndexOk freqs ids)
    (t : Str) (x : Int) :
    termFreq (ws.foldl (addWordFreq d inv) freqs) t x
      = if x = d ∧ t ∈ ws then some ((termFreq freqs t d).getD 0 + (ws.count t : K) * inv)
        else termFreq freqs t x := by
  induction ws generalizing freqs ids with
  | nil => simp
  | cons w rest ih =>
    simp only [List.foldl_cons]
    rw [ih _ _ (hok.add_word d inv w)]
    rw [termFreq_addWordFreq d inv freqs ids hok w t x,
      termFreq_addWordFreq d inv freqs ids hok w t d]
    by_cases hx : x = d
    · subst hx
      by_cases htw : t = w
      · subst htw
        by_cases htr : t ∈ rest
        · simp only [htr, and_self, if_true, Option.getD_some, List.mem_cons, true_or,
            List.count_cons_self, Nat.cast_add, Nat.cast_one]
          congr 1
          ring
        · simp only [htr, and_false, if_false, and_self, if_true, List.mem_cons, true_or,
            List.count_cons_self, Nat.cast_add, Nat.cast_one, List.count_eq_zero_of_not_mem htr]
          congr 1
          simp
      · have hwt : ¬ w = t := fun h => htw h.symm
        by_cases htr : t ∈ rest
        · simp [htr, htw, hwt, List.count_cons]
        · simp [htr, htw, hwt, List.count_cons]
    · simp [hx]

theorem termFreq_stored {freqs : StdMap Str (StdMap Int K)} {ids : Int → Prop}
    (hok : IndexOk freqs ids) {t : Str} {d : Int} {v : K}
    (h : termFreq freqs t d = some v) : ids d := by
  unfold termFreq at h
  cases hl : StdMap.lookup freqs t with
  | none => simp [hl] at h
  | some m =>
    simp only [hl] at h
    have hmem := StdMap.mem_of_lookup hl
    have hd : d ∈ StdMap.keys m := by
      rw [← StdMap.lookup_isSome_iff, h]
      rfl
    exact hok.stored _ hmem d hd

theorem foldl_append_if {α : Type} (p : α → Bool) (l init : List α) :
    l.foldl (fun words word => if p word then words ++ [word] else words) init
      = init ++ l.filter p := by
  induction l generalizing init with
  | nil => simp
  | cons x rest ih =>
    simp only [List.foldl_cons, List.filter_cons]
    rw [ih]
    cases p x <;> simp

theorem SplitIntoWordsNoStop_eq (s : SearchServer K) (text : Str) (words : List Str)
    (h : SplitIntoWordsNoStop s text = .ok words) : words = nonStopWords s text := by
  unfold SplitIntoWordsNoStop at h
  cases hv : IsValidWord text with
  | false => simp [hv] at h
  | true =>
    simp only [hv, Bool.not_true, Bool.false_eq_true, if_false, Except.ok.injEq] at h
    rw [← h, foldl_append_if (fun word => !IsStopWord s word)]
    simp [nonStopWords]

/-! ## `AddDocument`: rejection -/

theorem AddDocument_of_bad_id (s : SearchServer K) (id : Int) (text : Str)
    (status : DocumentStatus) (ratings : List Int)
    (h : id < 0 ∨ StdMap.count s.documents_ id > 0) :
    AddDocument s id text status ratings
      = (.error (.invalid_argument "Invalid document ID"), s) := by
  unfold AddDocument
  rw [if_pos h]

theorem AddDocument_of_bad_text (s : SearchServer K) (id : Int) (text : Str)
    (status : DocumentStatus) (ratings : List Int)
    (h : ¬ (id < 0 ∨ StdMap.count s.documents_ id > 0)) (ht : IsValidWord text = false) :
    AddDocument s id text status ratings
      = (.error (.invalid_argument "one of several words contains forbidden symbols: "), s) := by
  unfold AddDocument
  rw [if_neg h]
  simp [SplitIntoWordsNoStop, ht]

theorem AddDocument_of_good (s : SearchServer K) (id : Int) (text : Str)
    (status : DocumentStatus) (ratings : List Int)
    (h : ¬ (id < 0 ∨ StdMap.count s.documents_ id > 0)) (ht : IsValidWord text = true) :
    ∃ words, SplitIntoWordsNoStop s text = .ok words ∧
      AddDocument s id text status ratings =
        (.ok (),
          { s with
            word_to_document_freqs_ :=
              words.foldl (addWordFreq id (1 / (words.length : K))) s.word_to_document_freqs_
            documents_ := StdMap.emplace id
              { rating := ComputeAverageRating ratings, status := status } s.documents_
            document_ids_ := s.document_ids_ ++ [id] }) := by
  unfold AddDocument
  rw [if_neg h]
  simp [SplitIntoWordsNoStop, ht]

theorem AddDocument_state_of_error (s : SearchServer K) (id : Int) (text : Str)
    (status : DocumentStatus) (ratings : List Int) (e : Exception)
    (hfail : (AddDocument s id text status ratings).1 = .error e) :
    (AddDocument s id text status ratings).2 = s := by
  by_cases h : id < 0 ∨ StdMap.count s.documents_ id > 0
  · rw [AddDocument_of_bad_id s id text status ratings h]
  · cases ht : IsValidWord text with
    | false => rw [AddDocument_of_bad_text s id text status ratings h ht]
    | true =>
      obtain ⟨words, -, hadd⟩ := AddDocument_of_good s id text status ratings h ht
      rw [hadd] at hfail
      cases hfail

theorem AddDocument_outcome (s : SearchServer K) (id : Int) (text : Str)
    (status : DocumentStatus) (ratings : List Int) :
    ((∃ e, (AddDocument s id text status ratings).1 = .error e) ↔
      (id < 0 ∨ id ∈ StdMap.keys s.documents_ ∨ HasControlChar text)) ∧
    ((AddDocument s id text status ratings).1 = .ok () ↔
      ¬ (id < 0 ∨ id ∈ StdMap.keys s.documents_ ∨ HasControlChar text)) := by
  by_cases h : id < 0 ∨ StdMap.count s.documents_ id > 0
  · have h2 : id < 0 ∨ id ∈ StdMap.keys s.documents_ ∨ HasControlChar text := by
      rcases h with h | h
      · exact Or.inl h
      · exact Or.inr (Or.inl ((StdMap.count_pos_iff _ _).1 h))
    rw [AddDocument_of_bad_id s id text status ratings h]
    simp [h2]
  · have hid : ¬ id < 0 := fun h1 => h (Or.inl h1)
    have hkey : id ∉ StdMap.keys s.documents_ :=
      fun h1 => h (Or.inr ((StdMap.count_pos_iff _ _).2 h1))
    cases ht : IsValidWord text with
    | false =>
      have hc : HasControlChar text := (IsValidWord_eq_false_iff text).1 ht
      rw [AddDocument_of_bad_text s id text status ratings h ht]
      simp [hc]
    | true =>
      have hc : ¬ HasControlChar text := (IsValidWord_eq_true_iff text).1 ht
      obtain ⟨words, -, hadd⟩ := AddDocument_of_good s id text status ratings h ht
      rw [hadd]
      simp [hid, hkey, hc]

/-! ## The invariant of reachable states -/

theorem nonStopWords_congr (s s2 : SearchServer K) (h : s2.stop_words_ = s.stop_words_)
    (text : Str) : nonStopWords s2 text = nonStopWords s text := by
  unfold nonStopWords IsStopWord
  rw [h]

theorem ServerInv.of_create (stop_words : List Str) (s0 : SearchServer K)
    (h : SearchServer.create stop_words = .ok s0) : ServerInv s0 [] := by
  unfold SearchServer.create at h
  split at h
  · cases h
    refine ⟨⟨?_, ?_, ?_, ?_⟩, ?_, rfl, ?_, ?_, ?_, ?_, ?_⟩ <;>
      simp [Ascending, StdMap.keys]
  · cases h

theorem ServerInv.step {s : SearchServer K} {acc : List AddCall} (hinv : ServerInv s acc)
    (c : AddCall)
    (hok : (AddDocument s c.document_id c.document c.status c.ratings).1 = .ok ()) :
    ServerInv (afterCall s c) (acc ++ [c]) := by
  obtain ⟨hpos, hnew, hctl⟩ :
      ¬ c.document_id < 0 ∧ c.document_id ∉ StdMap.keys s.documents_ ∧
        ¬ HasControlChar c.document := by
    have h := ((AddDocument_outcome s c.document_id c.document c.status c.ratings).2).1 hok
    tauto
  have hcond : ¬ (c.document_id < 0 ∨ StdMap.count s.documents_ c.document_id > 0) := by
    rw [StdMap.count_pos_iff]
    tauto
  obtain ⟨words, hwords, hadd⟩ := AddDocument_of_good s c.document_id c.document c.status
    c.ratings hcond ((IsValidWord_eq_true_iff _).2 hctl)
  have hW := SplitIntoWordsNoStop_eq s c.document words hwords
  subst hW
  have hstop : (afterCall s c).stop_words_ = s.stop_words_ := by
    unfold afterCall
    rw [hadd]
  have hfresh : ∀ t, termFreq s.word_to_document_freqs_ t c.document_id = none := by
    intro t
    cases h : termFreq s.word_to_document_freqs_ t c.document_id with
    | none => rfl
    | some v => exact absurd (termFreq_stored hinv.index h) hnew
  have hnotin : c.document_id ∉ acc.map (fun c => c.document_id) :=
    fun h => hnew ((hinv.keys _).2 h)
  have hstate : afterCall s c =
      { s with
        word_to_document_freqs_ :=
          (nonStopWords s c.document).foldl
            (addWordFreq c.document_id (1 / ((nonStopWords s c.document).length : K)))
            s.word_to_document_freqs_
        documents_ := StdMap.emplace c.document_id
          { rating := ComputeAverageRating c.ratings, status := c.status } s.documents_
        document_ids_ := s.document_ids_ ++ [c.document_id] } := by
    unfold afterCall
    rw [hadd]
  have hkeys : ∀ d, d ∈ StdMap.keys (afterCall s c).documents_ ↔
      d ∈ StdMap.keys s.documents_ ∨ d = c.document_id := by
    intro d
    rw [hstate]
    simp only [StdMap.emplace, StdMap.mem_keys_update]
    tauto
  refine ⟨?_, ?_, ?_, ?_, ?_, ?_, ?_, ?_⟩
  · have h1 := IndexOk.foldl_add_word c.document_id
      (1 / ((nonStopWords s c.document).length : K)) (nonStopWords s c.document) hinv.index
    have h2 : (afterCall s c).word_to_document_freqs_ =
        (nonStopWords s c.document).foldl
          (addWordFreq c.document_id (1 / ((nonStopWords s c.document).length : K)))
          s.word_to_document_freqs_ := by rw [hstate]
    rw [h2]
    exact h1.mono (fun x hx => (hkeys x).2 hx)
  · rw [hstate]
    exact StdMap.ascending_update _ _ _ hinv.docs_asc
  · rw [hstate]
    simp [hinv.ids]
  · intro d
    rw [hkeys d, hinv.keys d]
    simp
  · rw [List.map_append, List.nodup_append]
    refine ⟨hinv.nodup, by simp, ?_⟩
    intro a ha hb
    simp only [List.map_cons, List.map_nil, List.mem_singleton] at hb
    rw [hb] at ha
    exact hnotin ha
  · intro c2 hc2
    rw [hstate]
    simp only [StdMap.emplace]
    rcases List.mem_append.1 hc2 with hc2 | hc2
    · have hne : c2.document_id ≠ c.document_id := by
        intro heq
        exact hnotin (heq ▸ List.mem_map.2 ⟨c2, hc2, rfl⟩)
      rw [StdMap.lookup_update_ne _ _ _ _ _ hne]
      exact hinv.data c2 hc2
    · simp only [List.mem_singleton] at hc2
      subst hc2
      rw [StdMap.lookup_update_self _ _ _ hinv.docs_asc,
        (StdMap.lookup_eq_none_iff _ _).2 hnew]
      rfl
  · intro c2 hc2
    rcases List.mem_append.1 hc2 with hc2 | hc2
    · exact hinv.valid c2 hc2
    · simp only [List.mem_singleton] at hc2
      subst hc2
      exact ⟨not_lt.1 hpos, hctl⟩
  · intro c2 hc2 t
    rw [nonStopWords_congr s (afterCall s c) hstop]
    have h2 : (afterCall s c).word_to_document_freqs_ =
        (nonStopWords s c.document).foldl
          (addWordFreq c.document_id (1 / ((nonStopWords s c.document).length : K)))
          s.word_to_document_freqs_ := by rw [hstate]
    rw [h2, termFreq_foldl_addWordFreq _ _ _ _ _ hinv.index]
    rcases List.mem_append.1 hc2 with hc2 | hc2
    · have hne : c2.document_id ≠ c.document_id := by
        intro heq
        exact hnotin (heq ▸ List.mem_map.2 ⟨c2, hc2, rfl⟩)
      simp only [hne, false_and, if_false]
      exact hinv.freq c2 hc2 t
    · simp only [List.mem_singleton] at hc2
      subst hc2
      simp only [true_and, hfresh, Option.getD_none, zero_add]
      by_cases ht : t ∈ nonStopWords s c2.document
      · simp only [ht, if_true]
        congr 1
        rw [mul_one_div]
      · simp only [ht, if_false]

theorem afterCall_of_error (s : SearchServer K) (c : AddCall) (e : Exception)
    (h : (AddDocument s c.document_id c.document c.status c.ratings).1 = .error e) :
    afterCall s c = s :=
  AddDocument_state_of_error s _ _ _ _ e h

theorem ServerInv.after_calls {s : SearchServer K} {acc : List AddCall}
    (hinv : ServerInv s acc) (calls : List AddCall) :
    ServerInv (afterCalls s calls) (acc ++ acceptedCalls s calls) := by
  induction calls generalizing s acc with
  | nil => simpa [afterCalls, acceptedCalls] using hinv
  | cons c rest ih =>
    unfold afterCalls acceptedCalls
    simp only [List.foldl_cons]
    cases hres : (AddDocument s c.document_id c.document c.status c.ratings).1 with
    | error e =>
      simp only
      rw [afterCall_of_error s c e hres]
      exact ih hinv
    | ok u =>
      simp only
      have h := ih (hinv.step c hres)
      rw [List.append_assoc] at h
      exact h

theorem Reachable.inv {s : SearchServer K} (h : Reachable s) : ∃ acc, ServerInv s acc := by
  obtain ⟨stop_words, s0, calls, h0, rfl⟩ := h
  exact ⟨_, (ServerInv.of_create stop_words s0 h0).after_calls calls⟩

/-! ## `FindAllDocuments`, loop by loop -/

theorem StdMap.at_of_lookup {κ ν : Type} [DecidableEq κ] {m : StdMap κ ν} {k : κ} {v : ν}
    (h : StdMap.lookup m k = some v) : StdMap.at m k = .ok v := by
  unfold StdMap.at
  rw [h]

theorem StdMap.exists_lookup_of_mem_keys {κ ν : Type} [DecidableEq κ] {m : StdMap κ ν} {k : κ}
    (h : k ∈ StdMap.keys m) : ∃ v, StdMap.lookup m k = some v := by
  have h1 := (StdMap.lookup_isSome_iff m k).2 h
  cases hl : StdMap.lookup m k with
  | none => rw [hl] at h1; cases h1
  | some v => exact ⟨v, rfl⟩

theorem accumulate_append (rel : StdMap Int K) (cs cs2 : List (Int × K)) :
    accumulate rel (cs ++ cs2) = accumulate (accumulate rel cs) cs2 := by
  simp [accumulate, List.foldl_append]

theorem plusInner_eq (s : SearchServer K) (p : DocumentPredicate) (idf : K)
    (rel : StdMap Int K) (e : Int × K) (hd : e.1 ∈ StdMap.keys s.documents_) :
    FindAllDocuments.plusInner s p idf rel e
      = .ok (accumulate rel (if admits s p e.1 then [(e.1, e.2 * idf)] else [])) := by
  obtain ⟨data, hdata⟩ := StdMap.exists_lookup_of_mem_keys hd
  unfold FindAllDocuments.plusInner admits
  rw [StdMap.at_of_lookup hdata, hdata]
  cases hp : p e.1 data.status data.rating <;> simp [accumulate, hp]

theorem plusInner_foldlM (s : SearchServer K) (p : DocumentPredicate) (idf : K)
    (freqs : StdMap Int K) (rel : StdMap Int K)
    (hsub : ∀ d ∈ StdMap.keys freqs, d ∈ StdMap.keys s.documents_) :
    freqs.foldlM (FindAllDocuments.plusInner s p idf) rel
      = .ok (accumulate rel
          ((freqs.filter (fun e => admits s p e.1)).map (fun e => (e.1, e.2 * idf)))) := by
  induction freqs generalizing rel with
  | nil => rfl
  | cons e rest ih =>
    have hrest : ∀ d ∈ StdMap.keys rest, d ∈ StdMap.keys s.documents_ :=
      fun d hd => hsub d (List.mem_cons_of_mem _ hd)
    rw [List.foldlM_cons, plusInner_eq s p idf rel e (hsub e.1 (List.mem_cons_self _ _))]
    show List.foldlM _ _ rest = _
    rw [ih _ hrest, ← accumulate_append]
    cases hp : admits s p e.1 <;> simp [List.filter_cons, hp]

theorem plusStep_eq (log : K → K) (s : SearchServer K) (p : DocumentPredicate)
    (hok : IndexOk s.word_to_document_freqs_ (fun d => d ∈ StdMap.keys s.documents_))
    (rel : StdMap Int K) (word : Str) :
    FindAllDocuments.plusStep log s p rel word
      = .ok (accumulate rel (plusContribs log s p word)) := by
  unfold FindAllDocuments.plusStep plusContribs ComputeWordInverseDocumentFreq StdMap.count
  cases hl : StdMap.lookup s.word_to_document_freqs_ word with
  | none => simp [accumulate]
  | some freqs =>
    simp only [StdMap.at_of_lookup hl, one_ne_zero, if_false]
    exact plusInner_foldlM s p _ freqs rel (hok.stored _ (StdMap.mem_of_lookup hl))

theorem plus_foldlM (log : K → K) (s : SearchServer K) (p : DocumentPredicate)
    (hok : IndexOk s.word_to_document_freqs_ (fun d => d ∈ StdMap.keys s.documents_))
    (words : List Str) (rel : StdMap Int K) :
    words.foldlM (FindAllDocuments.plusStep log s p) rel
      = .ok (accumulate rel (words.flatMap (plusContribs log s p))) := by
  induction words generalizing rel with
  | nil => rfl
  | cons w rest ih =>
    rw [List.foldlM_cons, plusStep_eq log s p hok]
    show List.foldlM _ _ rest = _
    rw [ih, List.flatMap_cons, accumulate_append]

theorem erase_foldl (freqs : StdMap Int K) (rel : StdMap Int K) :
    freqs.foldl (fun rel elem => StdMap.erase elem.1 rel) rel
      = rel.filter (fun e => decide (e.1 ∉ StdMap.keys freqs)) := by
  induction freqs generalizing rel with
  | nil => simp [StdMap.keys]
  | cons x rest ih =>
    simp only [List.foldl_cons]
    rw [ih]
    unfold StdMap.erase
    rw [List.filter_filter]
    congr 1
    funext e
    simp only [StdMap.keys, List.map_cons, List.mem_cons, not_or, Bool.decide_and, ne_eq]
    rw [Bool.and_comm]

theorem minusStep_eq (s : SearchServer K) (rel : StdMap Int K) (word : Str) :
    FindAllDocuments.minusStep s rel word
      = .ok (rel.filter (fun e => !indexedUnder s word e.1)) := by
  unfold FindAllDocuments.minusStep indexedUnder StdMap.count
  cases hl : StdMap.lookup s.word_to_document_freqs_ word with
  | none => simp
  | some freqs =>
    simp only [StdMap.at_of_lookup hl, one_ne_zero, if_false]
    rw [erase_foldl]
    congr 2
    funext e
    simp

theorem minus_foldlM (s : SearchServer K) (words : List Str) (rel : StdMap Int K) :
    words.foldlM (FindAllDocuments.minusStep s) rel
      = .ok (rel.filter (fun e => !words.any (fun t => indexedUnder s t e.1))) := by
  induction words generalizing rel with
  | nil => simp [pure, Except.pure]
  | cons w rest ih =>
    rw [List.foldlM_cons, minusStep_eq]
    show List.foldlM _ _ rest = _
    rw [ih, List.filter_filter]
    congr 2
    funext e
    simp only [List.any_cons, Bool.not_or]
    rw [Bool.and_comm]

theorem collect_eq (s : SearchServer K) (e : Int × K)
    (hd : e.1 ∈ StdMap.keys s.documents_) :
    FindAllDocuments.collect s e
      = .ok { id := e.1, relevance := e.2, rating := ratingOf s e.1 } := by
  obtain ⟨data, hdata⟩ := StdMap.exists_lookup_of_mem_keys hd
  unfold FindAllDocuments.collect ratingOf
  rw [StdMap.at_of_lookup hdata, hdata]

theorem collect_mapM (s : SearchServer K) (rel : StdMap Int K)
    (hsub : ∀ d ∈ StdMap.keys rel, d ∈ StdMap.keys s.documents_) :
    rel.mapM (FindAllDocuments.collect s)
      = .ok (rel.map (fun e => { id := e.1, relevance := e.2, rating := ratingOf s e.1 })) := by
  induction rel with
  | nil => rfl
  | cons e rest ih =>
    have hrest : ∀ d ∈ StdMap.keys rest, d ∈ StdMap.keys s.documents_ :=
      fun d hd => hsub d (List.mem_cons_of_mem _ hd)
    rw [List.mapM_cons, ih hrest, collect_eq s e (hsub e.1 (List.mem_cons_self _ _))]
    rfl

/-! ## The relevance map -/

theorem accumulate_cons (rel : StdMap Int K) (c : Int × K) (cs : List (Int × K)) :
    accumulate rel (c :: cs)
      = accumulate (StdMap.update c.1 0 (fun x => x + c.2) rel) cs := rfl

theorem mem_keys_accumulate (rel : StdMap Int K) (cs : List (Int × K)) (d : Int) :
    d ∈ StdMap.keys (accumulate rel cs) ↔ d ∈ StdMap.keys rel ∨ d ∈ cs.map Prod.fst := by
  induction cs generalizing rel with
  | nil => simp [accumulate]
  | cons c rest ih =>
    rw [accumulate_cons, ih, StdMap.mem_keys_update]
    simp only [List.map_cons, List.mem_cons]
    tauto

theorem ascending_accumulate {rel : StdMap Int K} (h : Ascending (StdMap.keys rel))
    (cs : List (Int × K)) : Ascending (StdMap.keys (accumulate rel cs)) := by
  induction cs generalizing rel with
  | nil => exact h
  | cons c rest ih =>
    rw [accumulate_cons]
    exact ih (StdMap.ascending_update _ _ _ h)

theorem lookup_accumulate {rel : StdMap Int K} (h : Ascending (StdMap.keys rel))
    (cs : List (Int × K)) (d : Int) :
    (StdMap.lookup (accumulate rel cs) d).getD 0
      = (StdMap.lookup rel d).getD 0
        + ((cs.filter (fun e => decide (e.1 = d))).map Prod.snd).sum := by
  induction cs generalizing rel with
  | nil => simp [accumulate]
  | cons c rest ih =>
    rw [accumulate_cons, ih (StdMap.ascending_update _ _ _ h)]
    by_cases hc : c.1 = d
    · subst hc
      rw [StdMap.lookup_update_self _ _ _ h]
      simp only [Option.getD_some, List.filter_cons, decide_True, if_true, List.map_cons,
        List.sum_cons]
      ring
    · have hd : d ≠ c.1 := fun h2 => hc h2.symm
      rw [StdMap.lookup_update_ne _ _ _ _ _ hd]
      simp [List.filter_cons, hc]

theorem filter_key_eq {m : StdMap Int K} (h : Ascending (StdMap.keys m)) (d : Int) :
    m.filter (fun e => decide (e.1 = d))
      = match StdMap.lookup m d with
        | none => []
        | some v => [(d, v)] := by
  induction m with
  | nil => rfl
  | cons e rest ih =>
    obtain ⟨y, v⟩ := e
    have hy : ∀ z ∈ StdMap.keys rest, StdLess.less y z = true := (List.pairwise_cons.1 h).1
    have hrest : Ascending (StdMap.keys rest) := (List.pairwise_cons.1 h).2
    by_cases hyd : y = d
    · subst hyd
      have hnot : y ∉ StdMap.keys rest := by
        intro hmem
        have h3 := hy y hmem
        rw [LawfulStdLess.irrefl y] at h3
        cases h3
      have hnone := (StdMap.lookup_eq_none_iff rest y).2 hnot
      rw [List.filter_cons, ih hrest, hnone]
      simp [StdMap.lookup]
    · have hdy : ¬ d = y := fun h2 => hyd h2.symm
      rw [List.filter_cons, ih hrest]
      simp [StdMap.lookup, hyd, hdy]

theorem indexedUnder_iff_termFreq (s : SearchServer K) (t : Str) (d : Int) :
    indexedUnder s t d = true ↔ (termFreq s.word_to_document_freqs_ t d).isSome = true := by
  unfold indexedUnder termFreq
  cases hl : StdMap.lookup s.word_to_document_freqs_ t with
  | none => simp
  | some m => simp [StdMap.lookup_isSome_iff]

theorem mem_plusContribs_fst (log : K → K) (s : SearchServer K) (p : DocumentPredicate)
    (t : Str) (d : Int) :
    d ∈ (plusContribs log s p t).map Prod.fst
      ↔ indexedUnder s t d = true ∧ admits s p d = true := by
  unfold plusContribs indexedUnder
  cases hl : StdMap.lookup s.word_to_document_freqs_ t with
  | none => simp
  | some m =>
    simp only [List.map_map, List.mem_map, List.mem_filter, Function.comp, decide_eq_true_eq,
      StdMap.keys]
    constructor
    · rintro ⟨e, ⟨he, hadm⟩, rfl⟩
      exact ⟨⟨e, he, rfl⟩, hadm⟩
    · rintro ⟨⟨e, he, rfl⟩, hadm⟩
      exact ⟨e, ⟨he, hadm⟩, rfl⟩

theorem sum_plusContribs (log : K → K) (s : SearchServer K) (p : DocumentPredicate)
    (hok : IndexOk s.word_to_document_freqs_ (fun d => d ∈ StdMap.keys s.documents_))
    (t : Str) (d : Int) (hadm : admits s p d = true) :
    (((plusContribs log s p t).filter (fun e => decide (e.1 = d))).map Prod.snd).sum
      = termWeight log s t d := by
  unfold plusContribs termWeight termFreq idfOf
  cases hl : StdMap.lookup s.word_to_document_freqs_ t with
  | none => simp
  | some m =>
    have hasc := hok.inner _ (StdMap.mem_of_lookup hl)
    have h1 : ((m.filter (fun e => admits s p e.1)).map
        (fun e => (e.1, e.2 * log ((GetDocumentCount s : K) * 1 / (StdMap.size m : K))))).filter
          (fun e => decide (e.1 = d))
        = ((m.filter (fun e => decide (e.1 = d))).map
            (fun e => (e.1, e.2 * log ((GetDocumentCount s : K) * 1 / (StdMap.size m : K))))) := by
      rw [List.filter_map, List.filter_filter]
      congr 1
      apply List.filter_congr
      intro e he
      simp only [Function.comp]
      by_cases hed : e.1 = d
      · rw [hed, hadm]
        simp
      · simp [hed]
    simp only [Option.getD_some]
    rw [h1, filter_key_eq hasc d]
    cases StdMap.lookup m d <;> simp

theorem sum_flatMap_plusContribs (log : K → K) (s : SearchServer K) (p : DocumentPredicate)
    (hok : IndexOk s.word_to_document_freqs_ (fun d => d ∈ StdMap.keys s.documents_))
    (words : List Str) (d : Int) (hadm : admits s p d = true) :
    (((words.flatMap (plusContribs log s p)).filter (fun e => decide (e.1 = d))).map
        Prod.snd).sum
      = (words.map (fun t => termWeight log s t d)).sum := by
  induction words with
  | nil => simp
  | cons w rest ih =>
    rw [List.flatMap_cons, List.filter_append, List.map_append, List.sum_append, ih,
      sum_plusContribs log s p hok w d hadm]
    simp

/-! ## `FindAllDocuments` and `FindTopDocuments` in closed form -/

theorem mem_flatMap_plusContribs_fst (log : K → K) (s : SearchServer K)
    (p : DocumentPredicate) (words : List Str) (d : Int) :
    d ∈ (words.flatMap (plusContribs log s p)).map Prod.fst
      ↔ (∃ t ∈ words, indexedUnder s t d = true) ∧ admits s p d = true := by
  rw [List.map_flatMap, List.mem_flatMap]
  constructor
  · rintro ⟨t, ht, hd⟩
    have h := (mem_plusContribs_fst log s p t d).1 hd
    exact ⟨⟨t, ht, h.1⟩, h.2⟩
  · rintro ⟨⟨t, ht, hi⟩, hadm⟩
    exact ⟨t, ht, (mem_plusContribs_fst log s p t d).2 ⟨hi, hadm⟩⟩

theorem admits_mem_keys (s : SearchServer K) (p : DocumentPredicate) (d : Int)
    (h : admits s p d = true) : d ∈ StdMap.keys s.documents_ := by
  unfold admits at h
  cases hl : StdMap.lookup s.documents_ d with
  | none => simp [hl] at h
  | some data =>
    rw [← StdMap.lookup_isSome_iff, hl]
    rfl

theorem FindAllDocuments_eq (log : K → K) (s : SearchServer K)
    (hok : IndexOk s.word_to_document_freqs_ (fun d => d ∈ StdMap.keys s.documents_))
    (query : Query) (p : DocumentPredicate) :
    FindAllDocuments log s query p = .ok (evaluate log s query p) := by
  unfold FindAllDocuments evaluate
  rw [plus_foldlM log s p hok]
  simp only
  rw [minus_foldlM]
  simp only
  apply collect_mapM
  intro d hd
  unfold StdMap.keys at hd
  obtain ⟨e, he, rfl⟩ := List.mem_map.1 hd
  have he2 := (List.mem_filter.1 he).1
  have hk : e.1 ∈ StdMap.keys (accumulate []
      (query.plus_words.flatMap (plusContribs log s p))) := List.mem_map.2 ⟨e, he2, rfl⟩
  rw [mem_keys_accumulate] at hk
  rcases hk with hk | hk
  · cases hk
  · exact admits_mem_keys s p _ ((mem_flatMap_plusContribs_fst log s p _ _).1 hk).2

theorem mem_evaluate_id (log : K → K) (s : SearchServer K) (query : Query)
    (p : DocumentPredicate) (d : Int) :
    d ∈ (evaluate log s query p).map (fun doc => doc.id)
      ↔ (∃ t ∈ query.plus_words, indexedUnder s t d = true) ∧ admits s p d = true ∧
        ∀ t ∈ query.minus_words, indexedUnder s t d = false := by
  unfold evaluate
  rw [List.map_map]
  simp only [List.mem_map, List.mem_filter, Function.comp, Bool.not_eq_true_eq_eq_false,
    List.any_eq_false, Bool.not_eq_true]
  constructor
  · rintro ⟨e, ⟨he, hminus⟩, rfl⟩
    have hk : e.1 ∈ StdMap.keys (accumulate []
        (query.plus_words.flatMap (plusContribs log s p))) := List.mem_map.2 ⟨e, he, rfl⟩
    rw [mem_keys_accumulate] at hk
    rcases hk with hk | hk
    · cases hk
    · have h := (mem_flatMap_plusContribs_fst log s p _ _).1 hk
      exact ⟨h.1, h.2, hminus⟩
  · rintro ⟨hplus, hadm, hminus⟩
    have hk : d ∈ StdMap.keys (accumulate []
        (query.plus_words.flatMap (plusContribs log s p))) := by
      rw [mem_keys_accumulate]
      exact Or.inr ((mem_flatMap_plusContribs_fst log s p _ _).2 ⟨hplus, hadm⟩)
    obtain ⟨e, he, rfl⟩ := List.mem_map.1 hk
    exact ⟨e, ⟨he, hminus⟩, rfl⟩

theorem nodup_evaluate_id (log : K → K) (s : SearchServer K) (query : Query)
    (p : DocumentPredicate) : ((evaluate log s query p).map (fun doc => doc.id)).Nodup := by
  unfold evaluate
  rw [List.map_map]
  have hasc : Ascending (StdMap.keys (accumulate ([] : StdMap Int K)
      (query.plus_words.flatMap (plusContribs log s p)))) :=
    ascending_accumulate (by simp [Ascending, StdMap.keys]) _
  have hnd := hasc.nodup
  unfold StdMap.keys at hnd
  have hsub : (List.map ((fun doc : Document K => doc.id) ∘
        fun e : Int × K => { id := e.1, relevance := e.2, rating := ratingOf s e.1 })
      (List.filter (fun e => !query.minus_words.any (fun t => indexedUnder s t e.1))
        (accumulate [] (query.plus_words.flatMap (plusContribs log s p))))).Sublist
      (List.map Prod.fst (accumulate [] (query.plus_words.flatMap (plusContribs log s p)))) :=
    List.Sublist.map _ (List.filter_sublist _)
  exact hnd.sublist hsub

theorem ascending_evaluate_id (log : K → K) (s : SearchServer K) (query : Query)
    (p : DocumentPredicate) : Ascending ((evaluate log s query p).map (fun doc => doc.id)) := by
  unfold evaluate
  rw [List.map_map]
  have hasc : Ascending (StdMap.keys (accumulate ([] : StdMap Int K)
      (query.plus_words.flatMap (plusContribs log s p)))) :=
    ascending_accumulate (by simp [Ascending, StdMap.keys]) _
  unfold StdMap.keys Ascending at hasc
  have hsub : (List.map ((fun doc : Document K => doc.id) ∘
        fun e : Int × K => { id := e.1, relevance := e.2, rating := ratingOf s e.1 })
      (List.filter (fun e => !query.minus_words.any (fun t => indexedUnder s t e.1))
        (accumulate [] (query.plus_words.flatMap (plusContribs log s p))))).Sublist
      (List.map Prod.fst (accumulate [] (query.plus_words.flatMap (plusContribs log s p)))) :=
    List.Sublist.map _ (List.filter_sublist _)
  exact hasc.sublist hsub

theorem evaluate_rating (log : K → K) (s : SearchServer K) (query : Query)
    (p : DocumentPredicate) (doc : Document K) (h : doc ∈ evaluate log s query p) :
    doc.rating = ratingOf s doc.id := by
  unfold evaluate at h
  obtain ⟨e, -, rfl⟩ := List.mem_map.1 h
  rfl

theorem evaluate_relevance (log : K → K) (s : SearchServer K)
    (hok : IndexOk s.word_to_document_freqs_ (fun d => d ∈ StdMap.keys s.documents_))
    (query : Query) (p : DocumentPredicate) (doc : Document K)
    (h : doc ∈ evaluate log s query p) :
    doc.relevance = (query.plus_words.map (fun t => termWeight log s t doc.id)).sum := by
  have hid : doc.id ∈ (evaluate log s query p).map (fun doc => doc.id) :=
    List.mem_map.2 ⟨doc, h, rfl⟩
  have hadm := ((mem_evaluate_id log s query p doc.id).1 hid).2.1
  unfold evaluate at h
  obtain ⟨e, he, rfl⟩ := List.mem_map.1 h
  have he2 := (List.mem_filter.1 he).1
  have hasc : Ascending (StdMap.keys (accumulate ([] : StdMap Int K)
      (query.plus_words.flatMap (plusContribs log s p)))) :=
    ascending_accumulate (by simp [Ascending, StdMap.keys]) _
  have hl := StdMap.lookup_of_mem hasc (show (e.1, e.2) ∈ _ from he2)
  have hnil : Ascending (StdMap.keys ([] : StdMap Int K)) := by simp [Ascending, StdMap.keys]
  have hsum := lookup_accumulate hnil (query.plus_words.flatMap (plusContribs log s p)) e.1
  rw [hl] at hsum
  simp only [Option.getD_some, StdMap.lookup, Option.getD_none, zero_add] at hsum
  show e.2 = _
  rw [hsum]
  exact sum_flatMap_plusContribs log s p hok _ _ hadm

/-! ## `std::sort` -/

theorem stdSort.insert_perm {α : Type} (comp : α → α → Bool) (x : α) (l : List α) :
    (stdSort.insert comp x l).Perm (x :: l) := by
  induction l with
  | nil => exact List.Perm.refl _
  | cons y ys ih =>
    unfold stdSort.insert
    cases comp x y with
    | true => exact List.Perm.refl _
    | false =>
      simp only [Bool.false_eq_true, if_false]
      exact (List.Perm.cons y ih).trans (List.Perm.swap x y ys)

theorem stdSort.foldl_perm {α : Type} (comp : α → α → Bool) (l sorted : List α) :
    (l.foldl (fun sorted x => stdSort.insert comp x sorted) sorted).Perm (sorted ++ l) := by
  induction l generalizing sorted with
  | nil => simp
  | cons x rest ih =>
    simp only [List.foldl_cons]
    refine (ih _).trans ?_
    refine (List.Perm.append_right rest (stdSort.insert_perm comp x sorted)).trans ?_
    simp only [List.cons_append]
    exact (List.perm_middle).symm

theorem stdSort_perm {α : Type} (comp : α → α → Bool) (l : List α) :
    (stdSort comp l).Perm l := by
  have h := stdSort.foldl_perm comp l []
  simpa [stdSort] using h

theorem FindTopDocuments_eq (log : K → K) (s : SearchServer K)
    (hok : IndexOk s.word_to_document_freqs_ (fun d => d ∈ StdMap.keys s.documents_))
    (raw_query : Str) (query : Query) (p : DocumentPredicate)
    (hq : ParseQuery s raw_query = .ok query) :
    FindTopDocuments log s raw_query p
      = .ok ((stdSort relevanceComp (evaluate log s query p)).take
          MAX_RESULT_DOCUMENT_COUNT) := by
  unfold FindTopDocuments
  rw [hq]
  simp only
  rw [FindAllDocuments_eq log s hok]
  simp only
  split
  · rfl
  · rename_i h
    rw [List.take_of_length_le (not_lt.1 h)]

theorem FindTopDocuments_error (log : K → K) (s : SearchServer K) (raw_query : Str)
    (p : DocumentPredicate) (e : Exception) (hq : ParseQuery s raw_query = .error e) :
    FindTopDocuments log s raw_query p = .error e := by
  unfold FindTopDocuments
  rw [hq]

theorem demo_create (K : Type) [LinearOrderedField K] :
    SearchServer.create (SplitIntoWords "и в на".toList) = .ok (demoStart K) := rfl

theorem demo_reachable (K : Type) [LinearOrderedField K] : Reachable (demoServer K) :=
  ⟨_, demoStart K, demoCalls, demo_create K, rfl⟩

theorem Reachable.indexOk {s : SearchServer K} (h : Reachable s) :
    IndexOk s.word_to_document_freqs_ (fun d => d ∈ StdMap.keys s.documents_) := by
  obtain ⟨acc, hinv⟩ := h.inv
  exact hinv.index

theorem admits_iff (s : SearchServer K) (p : DocumentPredicate) (d : Int) :
    admits s p d = true ↔
      ∃ data, StdMap.lookup s.documents_ d = some data ∧ p d data.status data.rating = true := by
  unfold admits
  cases StdMap.lookup s.documents_ d <;> simp

theorem ratingOf_stored (s : SearchServer K) (d : Int) (h : d ∈ StdMap.keys s.documents_) :
    ∃ data, StdMap.lookup s.documents_ d = some data ∧ ratingOf s d = data.rating := by
  obtain ⟨data, hdata⟩ := StdMap.exists_lookup_of_mem_keys h
  exact ⟨data, hdata, by simp [ratingOf, hdata]⟩

theorem mem_top_of_evaluate (log : K → K) (s : SearchServer K) (query : Query)
    (p : DocumentPredicate) (doc : Document K)
    (h : doc ∈ (stdSort relevanceComp (evaluate log s query p)).take
      MAX_RESULT_DOCUMENT_COUNT) : doc ∈ evaluate log s query p :=
  (stdSort_perm relevanceComp _).mem_iff.1 (List.mem_of_mem_take h)

/-! ## `SplitIntoWords`: tokens are not empty -/

theorem SplitIntoWords.foldl_nonempty (text : Str) (st : List Str × Str)
    (h : ∀ w ∈ st.1, w ≠ []) : ∀ w ∈ (text.foldl SplitIntoWords.step st).1, w ≠ [] := by
  induction text generalizing st with
  | nil => exact h
  | cons c rest ih =>
    simp only [List.foldl_cons]
    apply ih
    unfold SplitIntoWords.step
    by_cases hc : c = ' '
    · by_cases hw : st.2 = []
      · simpa [hc, hw] using h
      · simp only [hc, if_true, ne_eq, hw, not_false_eq_true, List.mem_append,
          List.mem_singleton]
        rintro w (hw1 | hw1)
        · exact h w hw1
        · rw [hw1]; exact hw
    · simpa [hc] using h

theorem SplitIntoWords_nonempty (text : Str) : ∀ w ∈ SplitIntoWords text, w ≠ [] := by
  have h := SplitIntoWords.foldl_nonempty text ([], []) (by simp)
  unfold SplitIntoWords
  simp only
  by_cases hw : (text.foldl SplitIntoWords.step ([], [])).2 = []
  · simpa [hw] using h
  · simp only [ne_eq, hw, not_false_eq_true, if_true, List.mem_append, List.mem_singleton]
    rintro w (hw1 | hw1)
    · exact h w hw1
    · rw [hw1]; exact hw

/-! ## `ParseQuery` -/

theorem HasControlChar_cons_minus (r : Str) : HasControlChar ('-' :: r) ↔ HasControlChar r := by
  unfold HasControlChar
  simp only [List.mem_cons, exists_eq_or_imp]
  constructor
  · rintro (h | h)
    · exact absurd h (by decide)
    · exact h
  · exact fun h => Or.inr h

theorem ParseQueryWord_error (s : SearchServer K) (t : Str) (h : t = [] ∨ MalformedToken t) :
    ParseQueryWord s t
      = .error (.invalid_argument ("Query word " ++ String.mk t ++ " is invalid")) := by
  unfold ParseQueryWord
  simp only
  rw [if_pos]
  rcases h with h | h | ⟨r, h⟩ | h
  · subst h
    left
    simp
  · subst h
    left
    simp
  · subst h
    right; left
    simp
  · right; right
    cases t with
    | nil => obtain ⟨c, hc, -⟩ := h; cases hc
    | cons c r =>
      by_cases hc : c = '-'
      · subst hc
        have h2 := (HasControlChar_cons_minus r).1 h
        simp only [List.headD_cons, decide_True, if_true, List.drop_succ_cons, List.drop_zero,
          Bool.not_eq_true', IsValidWord_eq_false_iff]
        exact h2
      · simp only [List.headD_cons, hc, decide_False, Bool.false_eq_true, if_false,
          Bool.not_eq_true', IsValidWord_eq_false_iff]
        exact h

theorem ParseQueryWord_ok (s : SearchServer K) (t : Str) (hne : t ≠ [])
    (h : ¬ MalformedToken t) :
    ParseQueryWord s t
      = .ok { data := stripMinus t
              is_minus := decide (t.headD (Char.ofNat 0) = '-')
              is_stop := IsStopWord s (stripMinus t) } ∧
    stripMinus t ≠ [] ∧ (stripMinus t).headD (Char.ofNat 0) ≠ '-' := by
  unfold MalformedToken at h
  simp only [not_or, not_exists] at h
  obtain ⟨h1, h2, h3⟩ := h
  cases t with
  | nil => exact absurd rfl hne
  | cons c r =>
    by_cases hc : c = '-'
    · subst hc
      have hr : r ≠ [] := fun hr => h1 (by rw [hr])
      have hhead : r.headD (Char.ofNat 0) ≠ '-' := by
        cases r with
        | nil => exact absurd rfl hr
        | cons c2 r2 =>
          intro hc2
          simp only [List.headD_cons] at hc2
          exact h2 r2 (by rw [hc2])
      have hvalid : IsValidWord r = true :=
        (IsValidWord_eq_true_iff r).2 (fun hcc => h3 ((HasControlChar_cons_minus r).2 hcc))
      have hhead2 : ¬ r.head?.getD (Char.ofNat 0) = '-' := by simpa using hhead
      unfold ParseQueryWord stripMinus
      simp [hr, hhead2, hvalid]
    · have hvalid : IsValidWord (c :: r) = true := (IsValidWord_eq_true_iff _).2 h3
      unfold ParseQueryWord stripMinus
      simp [hc, hvalid]

theorem ParseQuery.step_ok (s : SearchServer K) (q : Query) (t : Str) (hne : t ≠ [])
    (h : ¬ MalformedToken t) : ParseQuery.step s q t = .ok (nextQuery s q t) := by
  unfold ParseQuery.step nextQuery
  rw [(ParseQueryWord_ok s t hne h).1]
  simp only
  cases IsStopWord s (stripMinus t) with
  | true => simp
  | false =>
    simp only [Bool.not_false, if_true, Bool.false_eq_true, if_false, decide_eq_true_eq]
    split <;> rfl

theorem ParseQuery.step_error (s : SearchServer K) (q : Query) (t : Str)
    (h : t = [] ∨ MalformedToken t) :
    ParseQuery.step s q t
      = .error (.invalid_argument ("Query word " ++ String.mk t ++ " is invalid")) := by
  unfold ParseQuery.step
  rw [ParseQueryWord_error s t h]

theorem ParseQuery.foldlM_error_iff (s : SearchServer K) (ws : List Str) (q : Query) :
    (∃ e, ws.foldlM (ParseQuery.step s) q = .error e) ↔ ∃ t ∈ ws, t = [] ∨ MalformedToken t := by
  induction ws generalizing q with
  | nil => simp [pure, Except.pure]
  | cons t rest ih =>
    rw [List.foldlM_cons]
    by_cases h : t = [] ∨ MalformedToken t
    · rw [ParseQuery.step_error s q t h]
      constructor
      · intro _
        exact ⟨t, List.mem_cons_self _ _, h⟩
      · intro _
        exact ⟨_, rfl⟩
    · have hne : t ≠ [] := fun h1 => h (Or.inl h1)
      have hmal : ¬ MalformedToken t := fun h1 => h (Or.inr h1)
      rw [ParseQuery.step_ok s q t hne hmal]
      show (∃ e, List.foldlM _ _ rest = Except.error e) ↔ _
      rw [ih]
      constructor
      · rintro ⟨t2, ht2, hbad⟩
        exact ⟨t2, List.mem_cons_of_mem _ ht2, hbad⟩
      · rintro ⟨t2, ht2, hbad⟩
        rcases List.mem_cons.1 ht2 with ht2 | ht2
        · rw [ht2] at hbad; exact absurd hbad h
        · exact ⟨t2, ht2, hbad⟩

theorem stripMinus_of_minus (t : Str) (h : t.headD (Char.ofNat 0) = '-') :
    t = '-' :: stripMinus t := by
  cases t with
  | nil => exact absurd h (by decide)
  | cons c r =>
    simp only [List.headD_cons] at h
    subst h
    simp [stripMinus]

theorem stripMinus_of_not_minus (t : Str) (h : t.headD (Char.ofNat 0) ≠ '-') :
    stripMinus t = t := by
  unfold stripMinus
  rw [if_neg h]

theorem mem_plus_nextQuery (s : SearchServer K) (q : Query) (t w : Str) :
    w ∈ (nextQuery s q t).plus_words ↔
      w ∈ q.plus_words ∨ (w = t ∧ t.headD (Char.ofNat 0) ≠ '-' ∧ IsStopWord s w = false) := by
  unfold nextQuery
  by_cases hm : t.headD (Char.ofNat 0) = '-'
  · have : (if IsStopWord s (stripMinus t) = true then q
        else if t.headD (Char.ofNat 0) = '-' then
          { q with minus_words := StdSet.insert (stripMinus t) q.minus_words }
        else { q with plus_words := StdSet.insert (stripMinus t) q.plus_words }).plus_words
        = q.plus_words := by
      split
      · rfl
      · rfl
    rw [this]
    constructor
    · exact fun h => Or.inl h
    · rintro (h | ⟨-, h2, -⟩)
      · exact h
      · exact absurd hm h2
  · rw [if_neg hm, stripMinus_of_not_minus t hm]
    cases hst : IsStopWord s t with
    | true =>
      simp only [if_true]
      constructor
      · exact fun h => Or.inl h
      · rintro (h | ⟨rfl, -, h⟩)
        · exact h
        · rw [hst] at h; cases h
    | false =>
      simp only [Bool.false_eq_true, if_false, StdSet.mem_insert]
      constructor
      · rintro (h | h)
        · exact Or.inr ⟨h, hm, by rw [h]; exact hst⟩
        · exact Or.inl h
      · rintro (h | ⟨h, -, -⟩)
        · exact Or.inr h
        · exact Or.inl h

theorem mem_minus_nextQuery (s : SearchServer K) (q : Query) (t w : Str) :
    w ∈ (nextQuery s q t).minus_words ↔
      w ∈ q.minus_words ∨ ('-' :: w = t ∧ IsStopWord s w = false) := by
  unfold nextQuery
  by_cases hm : t.headD (Char.ofNat 0) = '-'
  · have ht := stripMinus_of_minus t hm
    rw [if_pos hm]
    cases hst : IsStopWord s (stripMinus t) with
    | true =>
      simp only [if_true]
      constructor
      · exact fun h => Or.inl h
      · rintro (h | ⟨h1, h2⟩)
        · exact h
        · rw [ht] at h1
          rw [List.cons.injEq] at h1
          rw [h1.2, hst] at h2
          cases h2
    | false =>
      simp only [Bool.false_eq_true, if_false, StdSet.mem_insert]
      constructor
      · rintro (h | h)
        · exact Or.inr ⟨by rw [h]; exact ht.symm, by rw [h]; exact hst⟩
        · exact Or.inl h
      · rintro (h | ⟨h1, -⟩)
        · exact Or.inr h
        · rw [ht] at h1
          rw [List.cons.injEq] at h1
          exact Or.inl h1.2
  · have : (if IsStopWord s (stripMinus t) = true then q
        else if t.headD (Char.ofNat 0) = '-' then
          { q with minus_words := StdSet.insert (stripMinus t) q.minus_words }
        else { q with plus_words := StdSet.insert (stripMinus t) q.plus_words }).minus_words
        = q.minus_words := by
      split
      · rfl
      · rfl
    rw [this]
    constructor
    · exact fun h => Or.inl h
    · rintro (h | ⟨h1, -⟩)
      · exact h
      · rw [← h1] at hm
        exact absurd rfl hm

theorem ascending_nextQuery (s : SearchServer K) (q : Query) (t : Str)
    (hp : Ascending q.plus_words) (hm : Ascending q.minus_words) :
    Ascending (nextQuery s q t).plus_words ∧ Ascending (nextQuery s q t).minus_words := by
  unfold nextQuery
  split
  · exact ⟨hp, hm⟩
  · split
    · exact ⟨hp, Ascending.insert _ hm⟩
    · exact ⟨Ascending.insert _ hp, hm⟩

theorem ParseQuery.foldlM_ok (s : SearchServer K) (ws : List Str) (q0 q : Query)
    (h : ws.foldlM (ParseQuery.step s) q0 = .ok q) :
    (∀ w, w ∈ q.plus_words ↔
      w ∈ q0.plus_words ∨ (w ∈ ws ∧ w.headD (Char.ofNat 0) ≠ '-' ∧ IsStopWord s w = false)) ∧
    (∀ w, w ∈ q.minus_words ↔
      w ∈ q0.minus_words ∨ (('-' :: w) ∈ ws ∧ IsStopWord s w = false)) ∧
    (Ascending q0.plus_words → Ascending q0.minus_words →
      Ascending q.plus_words ∧ Ascending q.minus_words) ∧
    (∀ t ∈ ws, t ≠ [] ∧ ¬ MalformedToken t) := by
  induction ws generalizing q0 with
  | nil =>
    simp only [List.foldlM_nil, pure, Except.pure, Except.ok.injEq] at h
    subst h
    exact ⟨by simp, by simp, fun hp hm => ⟨hp, hm⟩, by simp⟩
  | cons t rest ih =>
    rw [List.foldlM_cons] at h
    by_cases hbad : t = [] ∨ MalformedToken t
    · rw [ParseQuery.step_error s q0 t hbad] at h
      cases h
    · have hne : t ≠ [] := fun h1 => hbad (Or.inl h1)
      have hmal : ¬ MalformedToken t := fun h1 => hbad (Or.inr h1)
      rw [ParseQuery.step_ok s q0 t hne hmal] at h
      obtain ⟨ih1, ih2, ih3, ih4⟩ := ih (nextQuery s q0 t) h
      refine ⟨?_, ?_, ?_, ?_⟩
      · intro w
        rw [ih1 w, mem_plus_nextQuery]
        simp only [List.mem_cons]
        constructor
        · rintro ((h1 | ⟨h1, h2, h3⟩) | ⟨h1, h2, h3⟩)
          · exact Or.inl h1
          · exact Or.inr ⟨Or.inl h1, by rw [h1]; exact h2, h3⟩
          · exact Or.inr ⟨Or.inr h1, h2, h3⟩
        · rintro (h1 | ⟨h1 | h1, h2, h3⟩)
          · exact Or.inl (Or.inl h1)
          · exact Or.inl (Or.inr ⟨h1, by rw [← h1]; exact h2, h3⟩)
          · exact Or.inr ⟨h1, h2, h3⟩
      · intro w
        rw [ih2 w, mem_minus_nextQuery]
        simp only [List.mem_cons]
        tauto
      · intro hp hm
        obtain ⟨hp1, hm1⟩ := ascending_nextQuery s q0 t hp hm
        exact ih3 hp1 hm1
      · intro t2 ht2
        rcases List.mem_cons.1 ht2 with ht2 | ht2
        · rw [ht2]; exact ⟨hne, hmal⟩
        · exact ih4 t2 ht2

theorem headD_ne_minus_iff (w : Str) :
    w.headD (Char.ofNat 0) ≠ '-' ↔ w.head? ≠ some '-' := by
  cases w with
  | nil => simp
  | cons c r => simp

theorem IsStopWord_eq_false_iff (s : SearchServer K) (w : Str) :
    IsStopWord s w = false ↔ w ∉ s.stop_words_ := by
  unfold IsStopWord StdSet.count
  by_cases h : w ∈ s.stop_words_ <;> simp [h]

theorem ParseQuery_error_iff (s : SearchServer K) (raw_query : Str)
    (hne : SplitIntoWords raw_query ≠ []) :
    (∃ e, ParseQuery s raw_query = .error e) ↔
      ∃ t ∈ SplitIntoWords raw_query, MalformedToken t := by
  have hraw : raw_query ≠ [] := by
    intro h
    apply hne
    rw [h]
    rfl
  unfold ParseQuery
  rw [if_neg hraw, ParseQuery.foldlM_error_iff]
  constructor
  · rintro ⟨t, ht, hbad⟩
    rcases hbad with hbad | hbad
    · exact absurd hbad (SplitIntoWords_nonempty raw_query t ht)
    · exact ⟨t, ht, hbad⟩
  · rintro ⟨t, ht, hbad⟩
    exact ⟨t, ht, Or.inr hbad⟩

theorem ParseQuery_ok_spec (s : SearchServer K) (raw_query : Str) (q : Query)
    (h : ParseQuery s raw_query = .ok q) :
    (∀ w, w ∈ q.plus_words ↔
      w ∈ SplitIntoWords raw_query ∧ w.head? ≠ some '-' ∧ w ∉ s.stop_words_) ∧
    (∀ w, w ∈ q.minus_words ↔ ('-' :: w) ∈ SplitIntoWords raw_query ∧ w ∉ s.stop_words_) ∧
    Ascending q.plus_words ∧ Ascending q.minus_words ∧
    (∀ t ∈ SplitIntoWords raw_query, t ≠ [] ∧ ¬ MalformedToken t) := by
  unfold ParseQuery at h
  split at h
  · cases h
  · obtain ⟨h1, h2, h3, h4⟩ := ParseQuery.foldlM_ok s _ _ q h
    have hnil : Ascending ([] : List Str) := by simp [Ascending]
    refine ⟨?_, ?_, (h3 hnil hnil).1, (h3 hnil hnil).2, h4⟩
    · intro w
      rw [h1 w, headD_ne_minus_iff, IsStopWord_eq_false_iff]
      simp
    · intro w
      rw [h2 w, IsStopWord_eq_false_iff]
      simp

/-! ## `MatchDocument`, loop by loop -/

theorem count_ne_zero_iff_indexedUnder (s : SearchServer K) (w : Str) (d : Int)
    (freqs : StdMap Int K) (hl : StdMap.lookup s.word_to_document_freqs_ w = some freqs) :
    StdMap.count freqs d ≠ 0 ↔ indexedUnder s w d = true := by
  unfold indexedUnder
  rw [hl]
  simp only [decide_eq_true_eq, ← StdMap.count_pos_iff]
  omega

theorem MatchDocument.plusStep_value (s : SearchServer K) (d : Int) (matched : List Str)
    (w : Str) :
    MatchDocument.plusStep s d matched w
      = .ok (matched ++ (if indexedUnder s w d then [w] else [])) := by
  unfold MatchDocument.plusStep
  cases hl : StdMap.lookup s.word_to_document_freqs_ w with
  | none => simp [StdMap.count, hl, indexedUnder]
  | some freqs =>
    have hc : ¬ StdMap.count s.word_to_document_freqs_ w = 0 := by
      simp [StdMap.count, hl]
    rw [if_neg hc, StdMap.at_of_lookup hl]
    simp only
    by_cases hi : indexedUnder s w d = true
    · rw [if_pos ((count_ne_zero_iff_indexedUnder s w d freqs hl).2 hi), if_pos hi]
    · rw [if_neg (fun h => hi ((count_ne_zero_iff_indexedUnder s w d freqs hl).1 h)), if_neg hi]
      simp

theorem MatchDocument.plusLoop_value (s : SearchServer K) (d : Int) (words matched : List Str) :
    words.foldlM (MatchDocument.plusStep s d) matched
      = .ok (matched ++ words.filter (fun w => indexedUnder s w d)) := by
  induction words generalizing matched with
  | nil => simp [pure, Except.pure]
  | cons w rest ih =>
    rw [List.foldlM_cons, MatchDocument.plusStep_value]
    show List.foldlM _ _ rest = _
    rw [ih, List.filter_cons]
    cases indexedUnder s w d <;> simp

theorem MatchDocument.minusLoop_eq (s : SearchServer K) (d : Int) (words matched : List Str) :
    MatchDocument.minusLoop s d words matched
      = .ok (if words.any (fun w => indexedUnder s w d) then [] else matched) := by
  induction words with
  | nil => simp [MatchDocument.minusLoop]
  | cons w rest ih =>
    unfold MatchDocument.minusLoop
    cases hl : StdMap.lookup s.word_to_document_freqs_ w with
    | none =>
      have hi : indexedUnder s w d = false := by simp [indexedUnder, hl]
      simp [StdMap.count, hl, ih, hi]
    | some freqs =>
      have hc : ¬ StdMap.count s.word_to_document_freqs_ w = 0 := by
        simp [StdMap.count, hl]
      rw [if_neg hc, StdMap.at_of_lookup hl]
      simp only
      by_cases hi : indexedUnder s w d = true
      · rw [if_pos ((count_ne_zero_iff_indexedUnder s w d freqs hl).2 hi)]
        simp [hi]
      · rw [if_neg (fun h => hi ((count_ne_zero_iff_indexedUnder s w d freqs hl).1 h)), ih]
        simp [hi]

theorem MatchDocument_eq (s : SearchServer K) (raw_query : Str) (q : Query) (d : Int)
    (data : DocumentData) (hq : ParseQuery s raw_query = .ok q)
    (hd : StdMap.lookup s.documents_ d = some data) :
    MatchDocument s raw_query d
      = .ok (if q.minus_words.any (fun w => indexedUnder s w d) then []
              else q.plus_words.filter (fun w => indexedUnder s w d), data.status) := by
  unfold MatchDocument
  rw [hq]
  simp only
  rw [MatchDocument.plusLoop_value]
  simp only
  rw [MatchDocument.minusLoop_eq]
  simp only
  rw [StdMap.at_of_lookup hd]
  simp

theorem MatchDocument_error (s : SearchServer K) (raw_query : Str) (d : Int) (e : Exception)
    (hq : ParseQuery s raw_query = .error e) : MatchDocument s raw_query d = .error e := by
  unfold MatchDocument
  rw [hq]

/-! ## The server and the calls it accepted -/

theorem afterCall_stop_words (s : SearchServer K) (c : AddCall) :
    (afterCall s c).stop_words_ = s.stop_words_ := by
  unfold afterCall
  by_cases hc : c.document_id < 0 ∨ StdMap.count s.documents_ c.document_id > 0
  · rw [AddDocument_of_bad_id s _ _ _ _ hc]
  · cases ht : IsValidWord c.document with
    | false => rw [AddDocument_of_bad_text s _ _ _ _ hc ht]
    | true =>
      obtain ⟨words, -, hadd⟩ := AddDocument_of_good s c.document_id c.document c.status
        c.ratings hc ht
      rw [hadd]

theorem afterCalls_stop_words (s : SearchServer K) (calls : List AddCall) :
    (afterCalls s calls).stop_words_ = s.stop_words_ := by
  induction calls generalizing s with
  | nil => rfl
  | cons c rest ih =>
    unfold afterCalls
    simp only [List.foldl_cons]
    exact (ih (afterCall s c)).trans (afterCall_stop_words s c)

theorem serverInv_of_calls (stop_words : List Str) (s0 : SearchServer K)
    (calls : List AddCall) (h0 : SearchServer.create stop_words = .ok s0) :
    ServerInv (afterCalls s0 calls) (acceptedCalls s0 calls) := by
  have h := (ServerInv.of_create stop_words s0 h0).after_calls calls
  simpa using h

theorem ServerInv.exists_call {s : SearchServer K} {acc : List AddCall} (hinv : ServerInv s acc)
    {d : Int} (hd : d ∈ StdMap.keys s.documents_) : ∃ c ∈ acc, c.document_id = d := by
  have h := (hinv.keys d).1 hd
  obtain ⟨c, hc, rfl⟩ := List.mem_map.1 h
  exact ⟨c, hc, rfl⟩

theorem ServerInv.call_unique {s : SearchServer K} {acc : List AddCall} (hinv : ServerInv s acc)
    {c c2 : AddCall} (hc : c ∈ acc) (hc2 : c2 ∈ acc) (h : c.document_id = c2.document_id) :
    c = c2 :=
  List.inj_on_of_nodup_map hinv.nodup hc hc2 h

theorem ServerInv.size_documents {s : SearchServer K} {acc : List AddCall}
    (hinv : ServerInv s acc) : GetDocumentCount s = acc.length := by
  have hperm : (StdMap.keys s.documents_).Perm (acc.map (fun c => c.document_id)) :=
    (List.perm_ext_iff_of_nodup hinv.docs_asc.nodup hinv.nodup).2 hinv.keys
  have h := hperm.length_eq
  simpa [StdMap.keys, GetDocumentCount, StdMap.size] using h

theorem ServerInv.indexedUnder_iff {s : SearchServer K} {acc : List AddCall}
    (hinv : ServerInv s acc) {c : AddCall} (hc : c ∈ acc) (t : Str) :
    indexedUnder s t c.document_id = true ↔ t ∈ nonStopWords s c.document := by
  rw [indexedUnder_iff_termFreq, hinv.freq c hc t]
  by_cases h : t ∈ nonStopWords s c.document <;> simp [h]

theorem ServerInv.size_inner {s : SearchServer K} {acc : List AddCall}
    (hinv : ServerInv s acc) {t : Str} {m : StdMap Int K}
    (hl : StdMap.lookup s.word_to_document_freqs_ t = some m) :
    StdMap.size m
      = (acc.filter (fun c => decide (t ∈ nonStopWords s c.document))).length := by
  have hmem := StdMap.mem_of_lookup hl
  have hnd1 : (StdMap.keys m).Nodup := (hinv.index.inner _ hmem).nodup
  have hnd2 : ((acc.filter (fun c => decide (t ∈ nonStopWords s c.document))).map
      (fun c => c.document_id)).Nodup :=
    hinv.nodup.sublist (List.Sublist.map _ (List.filter_sublist _))
  have hperm : (StdMap.keys m).Perm
      ((acc.filter (fun c => decide (t ∈ nonStopWords s c.document))).map
        (fun c => c.document_id)) := by
    rw [List.perm_ext_iff_of_nodup hnd1 hnd2]
    intro d
    have hiu : d ∈ StdMap.keys m ↔ indexedUnder s t d = true := by
      unfold indexedUnder
      rw [hl]
      simp
    rw [hiu]
    constructor
    · intro hd
      have hstored : d ∈ StdMap.keys s.documents_ := by
        have hd2 : d ∈ StdMap.keys m := hiu.2 hd
        exact hinv.index.stored _ hmem d hd2
      obtain ⟨c, hc, rfl⟩ := hinv.exists_call hstored
      refine List.mem_map.2 ⟨c, List.mem_filter.2 ⟨hc, ?_⟩, rfl⟩
      simpa using (hinv.indexedUnder_iff hc t).1 hd
    · intro hd
      obtain ⟨c, hc, rfl⟩ := List.mem_map.1 hd
      obtain ⟨hc1, hc2⟩ := List.mem_filter.1 hc
      exact (hinv.indexedUnder_iff hc1 t).2 (by simpa using hc2)
  have h := hperm.length_eq
  simpa [StdMap.keys, StdMap.size] using h

theorem ServerInv.termWeight_eq (log : K → K) {s : SearchServer K} {acc : List AddCall}
    (hinv : ServerInv s acc) {c : AddCall} (hc : c ∈ acc) (t : Str) :
    termWeight log s t c.document_id
      = if t ∈ nonStopWords s c.document then
          ((nonStopWords s c.document).count t : K) / ((nonStopWords s c.document).length : K)
            * log ((acc.length : K)
              / ((acc.filter (fun c2 => decide (t ∈ nonStopWords s c2.document))).length : K))
        else 0 := by
  unfold termWeight
  rw [hinv.freq c hc t]
  by_cases h : t ∈ nonStopWords s c.document
  · simp only [h, if_true]
    have hsome : (termFreq s.word_to_document_freqs_ t c.document_id).isSome = true := by
      rw [hinv.freq c hc t]
      simp [h]
    unfold termFreq at hsome
    cases hl : StdMap.lookup s.word_to_document_freqs_ t with
    | none => simp [hl] at hsome
    | some m =>
      unfold idfOf
      rw [hl, hinv.size_documents, Option.getD_some, hinv.size_inner hl, mul_one]
  · simp only [h, if_false]

theorem count_beq_irrel {α : Type} (i1 i2 : BEq α) [h1 : @LawfulBEq α i1]
    [h2 : @LawfulBEq α i2] (a : α) (l : List α) :
    @List.count α i1 a l = @List.count α i2 a l := by
  unfold List.count
  apply List.countP_congr
  intro x _
  rw [@beq_iff_eq α i1 h1, @beq_iff_eq α i2 h2]

theorem sum_map_ite_zero {α : Type} (p : α → Prop) [DecidablePred p] (f : α → K)
    (l : List α) :
    (l.map (fun a => if p a then f a else 0)).sum
      = ((l.filter (fun a => decide (p a))).map f).sum := by
  induction l with
  | nil => rfl
  | cons x rest ih =>
    by_cases h : p x
    · simp [List.filter_cons, h, ih]
    · simp [List.filter_cons, h, ih]

theorem ServerInv.weightSum_eq {s : SearchServer K} {acc : List AddCall}
    (hinv : ServerInv s acc) {c : AddCall} (hc : c ∈ acc) :
    weightSum s c.document_id = if nonStopWords s c.document = [] then 0 else 1 := by
  have hW : ∀ t, termFreq s.word_to_document_freqs_ t c.document_id
      = if t ∈ nonStopWords s c.document then
          some (((nonStopWords s c.document).count t : K)
            / ((nonStopWords s c.document).length : K))
        else none := hinv.freq c hc
  generalize nonStopWords s c.document = W at hW ⊢
  have h1 : weightSum s c.document_id
      = ((StdMap.keys s.word_to_document_freqs_).map
          (fun t => if t ∈ W then (W.count t : K) / (W.length : K) else 0)).sum := by
    unfold weightSum StdMap.keys
    rw [List.map_map]
    congr 1
    apply List.map_congr_left
    intro e he
    have hl : StdMap.lookup s.word_to_document_freqs_ e.1 = some e.2 :=
      StdMap.lookup_of_mem hinv.index.outer he
    have h2 := hW e.1
    unfold termFreq at h2
    rw [hl] at h2
    have h3 : StdMap.lookup e.2 c.document_id
        = if e.1 ∈ W then some ((W.count e.1 : K) / (W.length : K)) else none := h2
    simp only [Function.comp, h3]
    by_cases ht : e.1 ∈ W <;> simp [ht]
  rw [h1, ← List.sum_toFinset _ hinv.index.outer.nodup]
  have hsub : W.toFinset ⊆ (StdMap.keys s.word_to_document_freqs_).toFinset := by
    intro t ht
    rw [List.mem_toFinset] at ht ⊢
    have h2 := hW t
    rw [if_pos ht] at h2
    unfold termFreq at h2
    cases hl : StdMap.lookup s.word_to_document_freqs_ t with
    | none => simp [hl] at h2
    | some m =>
      rw [← StdMap.lookup_isSome_iff, hl]
      rfl
  rw [← Finset.sum_subset hsub]
  · have h3 : ∀ t ∈ W.toFinset,
        (if t ∈ W then (W.count t : K) / (W.length : K) else 0)
          = (W.count t : K) / (W.length : K) := by
      intro t ht
      rw [if_pos (List.mem_toFinset.1 ht)]
    rw [Finset.sum_congr rfl h3, ← Finset.sum_div, ← Nat.cast_sum]
    have h4 : ∑ t ∈ W.toFinset, W.count t = W.length := by
      rw [← List.sum_toFinset_count_eq_length W]
      apply Finset.sum_congr rfl
      intro t _
      exact count_beq_irrel List.instBEq instBEqOfDecidableEq t W
    rw [h4]
    by_cases hnil : W = []
    · simp [hnil]
    · rw [if_neg hnil]
      have hpos : (W.length : K) ≠ 0 := by
        have : W.length ≠ 0 := fun h => hnil (List.length_eq_zero.1 h)
        exact_mod_cast this
      exact div_self hpos
  · intro t _ ht
    rw [List.mem_toFinset] at ht
    rw [if_neg ht]

theorem relevance_formula (log : K → K) {s : SearchServer K} {acc : List AddCall}
    (hinv : ServerInv s acc) (query : Query) (p : DocumentPredicate) (doc : Document K)
    (hdoc : doc ∈ evaluate log s query p) :
    ∃ c ∈ acc, c.document_id = doc.id ∧
      doc.relevance
        = ((query.plus_words.filter (fun t => decide (t ∈ nonStopWords s c.document))).map
            (fun t =>
              ((nonStopWords s c.document).count t : K)
                  / ((nonStopWords s c.document).length : K)
                * log ((acc.length : K)
                  / ((acc.filter
                      (fun c2 => decide (t ∈ nonStopWords s c2.document))).length : K)))).sum := by
  have hid : doc.id ∈ (evaluate log s query p).map (fun doc => doc.id) :=
    List.mem_map.2 ⟨doc, hdoc, rfl⟩
  have hadm := ((mem_evaluate_id log s query p doc.id).1 hid).2.1
  obtain ⟨c, hc, hcd⟩ := hinv.exists_call (admits_mem_keys s p _ hadm)
  refine ⟨c, hc, hcd, ?_⟩
  rw [evaluate_relevance log s hinv.index query p doc hdoc, ← hcd, ← sum_map_ite_zero]
  congr 1
  apply List.map_congr_left
  intro t _
  exact hinv.termWeight_eq log hc t

/-! ## The example of the specification -/

theorem spec_inv : ServerInv (specServer ℝ) specCalls :=
  serverInv_of_calls _ (demoStart ℝ) specCalls (demo_create ℝ)

theorem spec_evaluate_shape :
    (evaluate Real.log (specServer ℝ) specQuery isActual).map
      (fun doc => (doc.id, doc.rating)) = [(0, 2), (1, 5)] := rfl

theorem spec_relevance (doc : Document ℝ)
    (hdoc : doc ∈ evaluate Real.log (specServer ℝ) specQuery isActual) :
    (doc.id = 0 → doc.relevance
      = ((1 : ℕ) : ℝ) / ((4 : ℕ) : ℝ) * Real.log (((3 : ℕ) : ℝ) / ((2 : ℕ) : ℝ)) + 0) ∧
    (doc.id = 1 → doc.relevance
      = ((1 : ℕ) : ℝ) / ((4 : ℕ) : ℝ) * Real.log (((3 : ℕ) : ℝ) / ((2 : ℕ) : ℝ))
        + (((2 : ℕ) : ℝ) / ((4 : ℕ) : ℝ) * Real.log (((3 : ℕ) : ℝ) / ((1 : ℕ) : ℝ)) + 0)) := by
  obtain ⟨c, hc, hcd, hrel⟩ := relevance_formula Real.log spec_inv specQuery isActual doc hdoc
  simp only [specCalls, List.mem_cons, List.mem_singleton, List.not_mem_nil, or_false] at hc
  rcases hc with rfl | rfl | rfl
  · refine ⟨fun _ => ?_, fun h => ?_⟩
    · rw [hrel]; rfl
    · rw [h] at hcd; cases hcd
  · refine ⟨fun h => ?_, fun _ => ?_⟩
    · rw [h] at hcd; cases hcd
    · rw [hrel]; rfl
  · refine ⟨fun h => ?_, fun h => ?_⟩
    · rw [h] at hcd; cases hcd
    · rw [h] at hcd; cases hcd

theorem spec_example_ranking :
    ∃ docs, FindTopDocumentsDefault Real.log (specServer ℝ) "пушистый ухоженный кот".toList
        = .ok docs ∧
      docs.map (fun doc => (doc.id, doc.rating)) = [(1, 5), (0, 2)] := by
  have hq : ParseQuery (specServer ℝ) "пушистый ухоженный кот".toList = .ok specQuery := rfl
  have htop := FindTopDocuments_eq Real.log (specServer ℝ) spec_inv.index
    "пушистый ухоженный кот".toList specQuery isActual hq
  refine ⟨_, htop, ?_⟩
  have hshape := spec_evaluate_shape
  have hrel := spec_relevance
  generalize evaluate Real.log (specServer ℝ) specQuery isActual = found at hshape hrel
  rcases found with _ | ⟨d0, _ | ⟨d1, _ | ⟨d2, rest⟩⟩⟩
  · simp at hshape
  · simp at hshape
  · simp only [List.map_cons, List.map_nil, List.cons.injEq, Prod.mk.injEq, and_true] at hshape
    obtain ⟨⟨hid0, hr0⟩, hid1, hr1⟩ := hshape
    have h0 := (hrel d0 (by simp)).1 hid0
    have h1 := (hrel d1 (by simp)).2 hid1
    have hlog : 0 < Real.log (((3 : ℕ) : ℝ) / ((1 : ℕ) : ℝ)) :=
      Real.log_pos (by norm_num)
    have hgt : d1.relevance > d0.relevance := by
      rw [h0, h1]
      have : (0 : ℝ) < ((2 : ℕ) : ℝ) / ((4 : ℕ) : ℝ)
          * Real.log (((3 : ℕ) : ℝ) / ((1 : ℕ) : ℝ)) :=
        mul_pos (by norm_num) hlog
      linarith
    have hcomp : relevanceComp d1 d0 = true := by
      unfold relevanceComp
      split
      · rw [hr0, hr1]
        decide
      · exact decide_eq_true hgt
    simp [stdSort, stdSort.insert, hcomp, MAX_RESULT_DOCUMENT_COUNT, hid0, hid1, hr0, hr1]
  · simp at hshape

/-! ## The server with near-ties -/

theorem SplitIntoWords.foldl_space_x (n : Nat) (ws : List Str) (cur : Str) (hcur : cur ≠ []) :
    (List.replicate (n + 1) [' ', 'x']).flatten.foldl SplitIntoWords.step (ws, cur)
      = (ws ++ cur :: List.replicate n ['x'], ['x']) := by
  induction n generalizing ws cur with
  | zero => simp [SplitIntoWords.step, hcur]
  | succ n ih =>
    rw [List.replicate_succ, List.flatten_cons, List.foldl_append]
    have h1 : List.foldl SplitIntoWords.step (ws, cur) [' ', 'x'] = (ws ++ [cur], ['x']) := by
      simp [SplitIntoWords.step, hcur]
    rw [h1, ih (ws ++ [cur]) ['x'] (by simp)]
    simp [List.replicate_succ]

theorem SplitIntoWords_cexText (n : Nat) :
    SplitIntoWords (cexText n) = ['w'] :: List.replicate n ['x'] := by
  cases n with
  | zero => rfl
  | succ n =>
    unfold SplitIntoWords cexText
    have h1 : List.foldl SplitIntoWords.step ([], [])
        ('w' :: (List.replicate (n + 1) [' ', 'x']).flatten)
        = (['w'] :: List.replicate n ['x'], ['x']) := by
      rw [List.foldl_cons]
      have h2 : SplitIntoWords.step ([], []) 'w' = ([], ['w']) := by
        simp [SplitIntoWords.step]
      rw [h2, SplitIntoWords.foldl_space_x n [] ['w'] (by simp)]
      simp
    simp only [h1]
    simp [List.replicate_succ']

theorem not_HasControlChar_cexText (n : Nat) : ¬ HasControlChar (cexText n) := by
  rintro ⟨c, hc, hlt⟩
  unfold cexText at hc
  simp only [List.mem_cons, List.mem_flatten, List.mem_replicate] at hc
  rcases hc with rfl | ⟨l, ⟨-, rfl⟩, hc⟩
  · exact absurd hlt (by decide)
  · simp only [List.mem_cons, List.mem_singleton, List.not_mem_nil, or_false] at hc
    rcases hc with rfl | rfl
    · exact absurd hlt (by decide)
    · exact absurd hlt (by decide)

theorem nonStopWords_of_no_stop_words (s : SearchServer K) (h : s.stop_words_ = [])
    (text : Str) : nonStopWords s text = SplitIntoWords text := by
  unfold nonStopWords IsStopWord StdSet.count
  rw [h]
  simp

theorem mem_keys_afterCall (s : SearchServer K) (c : AddCall)
    (hok : (AddDocument s c.document_id c.document c.status c.ratings).1 = .ok ()) (d : Int) :
    d ∈ StdMap.keys (afterCall s c).documents_ ↔
      d ∈ StdMap.keys s.documents_ ∨ d = c.document_id := by
  have h := ((AddDocument_outcome s c.document_id c.document c.status c.ratings).2).1 hok
  have hcond : ¬ (c.document_id < 0 ∨ StdMap.count s.documents_ c.document_id > 0) := by
    rw [StdMap.count_pos_iff]
    tauto
  have hctl : ¬ HasControlChar c.document := by tauto
  obtain ⟨words, -, hadd⟩ := AddDocument_of_good s c.document_id c.document c.status
    c.ratings hcond ((IsValidWord_eq_true_iff _).2 hctl)
  unfold afterCall
  rw [hadd]
  simp only [StdMap.emplace, StdMap.mem_keys_update]
  tauto

theorem acceptedCalls_eq_self (s : SearchServer K) (calls : List AddCall)
    (hvalid : ∀ c ∈ calls, 0 ≤ c.document_id ∧ ¬ HasControlChar c.document)
    (hfresh : ∀ c ∈ calls, c.document_id ∉ StdMap.keys s.documents_)
    (hnodup : (calls.map (fun c => c.document_id)).Nodup) :
    acceptedCalls s calls = calls := by
  induction calls generalizing s with
  | nil => rfl
  | cons c rest ih =>
    have hc := hvalid c (List.mem_cons_self _ _)
    have hok : (AddDocument s c.document_id c.document c.status c.ratings).1 = .ok () := by
      rw [(AddDocument_outcome s c.document_id c.document c.status c.ratings).2]
      have h1 := hfresh c (List.mem_cons_self _ _)
      have h2 := hc.1
      have h3 := hc.2
      intro h
      rcases h with h | h | h
      · omega
      · exact h1 h
      · exact h3 h
    unfold acceptedCalls
    rw [hok]
    simp only
    rw [ih (afterCall s c)]
    · intro c2 hc2
      exact hvalid c2 (List.mem_cons_of_mem _ hc2)
    · intro c2 hc2
      rw [mem_keys_afterCall s c hok]
      rintro (h | h)
      · exact hfresh c2 (List.mem_cons_of_mem _ hc2) h
      · rw [List.map_cons, List.nodup_cons] at hnodup
        exact hnodup.1 (h ▸ List.mem_map.2 ⟨c2, hc2, rfl⟩)
    · rw [List.map_cons, List.nodup_cons] at hnodup
      exact hnodup.2

theorem cex_accepted (K : Type) [LinearOrderedField K] :
    acceptedCalls (cexStart K) cexCalls = cexCalls := by
  apply acceptedCalls_eq_self
  · intro c hc
    simp only [cexCalls, List.mem_cons, List.mem_singleton, List.not_mem_nil, or_false] at hc
    rcases hc with rfl | rfl | rfl | rfl | rfl | rfl
    · exact ⟨by decide, not_HasControlChar_cexText 999⟩
    · exact ⟨by decide, not_HasControlChar_cexText 1000⟩
    · exact ⟨by decide, not_HasControlChar_cexText 1001⟩
    · exact ⟨by decide, by simp [HasControlChar]⟩
    · exact ⟨by decide, by simp [HasControlChar]⟩
    · exact ⟨by decide, by simp [HasControlChar]⟩
  · intro c _
    simp [cexStart, StdMap.keys]
  · decide

theorem cex_inv (K : Type) [LinearOrderedField K] : ServerInv (cexServer K) cexCalls := by
  have h := serverInv_of_calls [] (cexStart K) cexCalls rfl
  rw [cex_accepted K] at h
  exact h

theorem cex_reachable (K : Type) [LinearOrderedField K] : Reachable (cexServer K) :=
  ⟨[], cexStart K, cexCalls, rfl, rfl⟩

theorem cex_stop_words (K : Type) [LinearOrderedField K] : (cexServer K).stop_words_ = [] :=
  afterCalls_stop_words (cexStart K) cexCalls

theorem cex_nonStopWords (K : Type) [LinearOrderedField K] (n : Nat) :
    nonStopWords (cexServer K) (cexText n) = ['w'] :: List.replicate n ['x'] := by
  rw [nonStopWords_of_no_stop_words _ (cex_stop_words K), SplitIntoWords_cexText]

theorem cex_nonStopWords_nil (K : Type) [LinearOrderedField K] :
    nonStopWords (cexServer K) [] = [] := by
  rw [nonStopWords_of_no_stop_words _ (cex_stop_words K)]
  rfl

theorem ParseQuery_congr (s s2 : SearchServer K) (h : s2.stop_words_ = s.stop_words_)
    (raw_query : Str) : ParseQuery s2 raw_query = ParseQuery s raw_query := by
  have hstep : ParseQuery.step s2 = ParseQuery.step s := by
    funext q w
    unfold ParseQuery.step ParseQueryWord IsStopWord
    rw [h]
  unfold ParseQuery
  rw [hstep]

theorem cex_parse (K : Type) [LinearOrderedField K] :
    ParseQuery (cexServer K) ['w'] = .ok cexQuery := by
  rw [ParseQuery_congr (cexStart K) (cexServer K) (cex_stop_words K)]
  rfl

theorem ascending_ext {κ : Type} [DecidableEq κ] [StdLess κ] [LawfulStdLess κ]
    {l1 l2 : List κ}
    (h1 : Ascending l1) (h2 : Ascending l2) (h : ∀ d, d ∈ l1 ↔ d ∈ l2) : l1 = l2 := by
  haveI : IsAntisymm κ (fun a b => StdLess.less a b = true) :=
    ⟨fun a b hab hba => by
      have h3 := LawfulStdLess.trans a b a hab hba
      rw [LawfulStdLess.irrefl a] at h3
      cases h3⟩
  exact List.eq_of_perm_of_sorted ((List.perm_ext_iff_of_nodup h1.nodup h2.nodup).2 h) h1 h2

theorem cex_call_mem (c : AddCall) (hc : c ∈ cexCalls) :
    (c.document_id = 0 ∧ c.document = cexText 999 ∧ c.ratings = [1]) ∨
    (c.document_id = 1 ∧ c.document = cexText 1000 ∧ c.ratings = [2]) ∨
    (c.document_id = 2 ∧ c.document = cexText 1001 ∧ c.ratings = [3]) ∨
    (c.document = [] ∧ 3 ≤ c.document_id) := by
  simp only [cexCalls, List.mem_cons, List.mem_singleton, List.not_mem_nil, or_false] at hc
  rcases hc with rfl | rfl | rfl | rfl | rfl | rfl
  · exact Or.inl ⟨rfl, rfl, rfl⟩
  · exact Or.inr (Or.inl ⟨rfl, rfl, rfl⟩)
  · exact Or.inr (Or.inr (Or.inl ⟨rfl, rfl, rfl⟩))
  · exact Or.inr (Or.inr (Or.inr ⟨rfl, by decide⟩))
  · exact Or.inr (Or.inr (Or.inr ⟨rfl, by decide⟩))
  · exact Or.inr (Or.inr (Or.inr ⟨rfl, by decide⟩))

theorem cex_w_mem_iff (K : Type) [LinearOrderedField K] (c : AddCall) (hc : c ∈ cexCalls) :
    ['w'] ∈ nonStopWords (cexServer K) c.document ↔ c.document_id < 3 := by
  rcases cex_call_mem c hc with ⟨h1, h2, -⟩ | ⟨h1, h2, -⟩ | ⟨h1, h2, -⟩ | ⟨h2, h1⟩
  · rw [h2, cex_nonStopWords, h1]
    exact ⟨fun _ => by decide, fun _ => List.mem_cons_self _ _⟩
  · rw [h2, cex_nonStopWords, h1]
    exact ⟨fun _ => by decide, fun _ => List.mem_cons_self _ _⟩
  · rw [h2, cex_nonStopWords, h1]
    exact ⟨fun _ => by decide, fun _ => List.mem_cons_self _ _⟩
  · rw [h2, cex_nonStopWords_nil]
    simp only [List.not_mem_nil, false_iff]
    omega

theorem cex_df (K : Type) [LinearOrderedField K] :
    (cexCalls.filter
      (fun c2 => decide (['w'] ∈ nonStopWords (cexServer K) c2.document))).length = 3 := by
  have h : cexCalls.filter
      (fun c2 => decide (['w'] ∈ nonStopWords (cexServer K) c2.document))
      = cexCalls.filter (fun c2 => decide (c2.document_id < 3)) := by
    apply List.filter_congr
    intro c hc
    rw [decide_eq_decide]
    exact cex_w_mem_iff K c hc
  rw [h]
  rfl

theorem cex_mem_ids (log : K → K) (d : Int) :
    d ∈ (evaluate log (cexServer K) cexQuery isActual).map (fun doc => doc.id)
      ↔ d ∈ [(0 : Int), 1, 2] := by
  have hinv := cex_inv K
  rw [mem_evaluate_id]
  constructor
  · rintro ⟨⟨t, ht, hi⟩, hadm, -⟩
    simp only [cexQuery, List.mem_singleton] at ht
    subst ht
    obtain ⟨c, hc, rfl⟩ := hinv.exists_call (admits_mem_keys _ _ _ hadm)
    have hw := (cex_w_mem_iff K c hc).1 ((hinv.indexedUnder_iff hc _).1 hi)
    rcases cex_call_mem c hc with ⟨h1, -, -⟩ | ⟨h1, -, -⟩ | ⟨h1, -, -⟩ | ⟨-, h1⟩
    · rw [h1]; simp
    · rw [h1]; simp
    · rw [h1]; simp
    · omega
  · intro hd
    have hex : ∃ c ∈ cexCalls, c.document_id = d ∧ c.status = DocumentStatus.ACTUAL := by
      simp only [List.mem_cons, List.mem_singleton, List.not_mem_nil, or_false] at hd
      rcases hd with rfl | rfl | rfl
      · exact ⟨⟨0, cexText 999, .ACTUAL, [1]⟩, by simp [cexCalls], rfl, rfl⟩
      · exact ⟨⟨1, cexText 1000, .ACTUAL, [2]⟩, by simp [cexCalls], rfl, rfl⟩
      · exact ⟨⟨2, cexText 1001, .ACTUAL, [3]⟩, by simp [cexCalls], rfl, rfl⟩
    obtain ⟨c, hc, rfl, hst⟩ := hex
    have hlt : c.document_id < 3 := by
      simp only [List.mem_cons, List.mem_singleton, List.not_mem_nil, or_false] at hd
      omega
    refine ⟨⟨['w'], by simp [cexQuery], ?_⟩, ?_, by simp [cexQuery]⟩
    · exact (hinv.indexedUnder_iff hc _).2 ((cex_w_mem_iff K c hc).2 hlt)
    · rw [admits_iff]
      exact ⟨_, hinv.data c hc, by simp [isActual, hst]⟩

theorem cex_ids (log : K → K) :
    (evaluate log (cexServer K) cexQuery isActual).map (fun doc => doc.id)
      = [(0 : Int), 1, 2] :=
  ascending_ext (ascending_evaluate_id log _ _ _) (by simp [Ascending, StdLess.less])
    (cex_mem_ids log)

theorem cex_doc (log : K → K) (doc : Document K)
    (hdoc : doc ∈ evaluate log (cexServer K) cexQuery isActual) :
    ∃ n : Nat, ∃ r : Int,
      ((doc.id = 0 ∧ n = 999 ∧ r = 1) ∨ (doc.id = 1 ∧ n = 1000 ∧ r = 2) ∨
        (doc.id = 2 ∧ n = 1001 ∧ r = 3)) ∧
      doc.rating = r ∧
      doc.relevance = (1 : K) / ((n : K) + 1) * log (6 / 3) := by
  have hinv := cex_inv K
  obtain ⟨c, hc, hcd, hrel⟩ := relevance_formula log hinv cexQuery isActual doc hdoc
  have hid : doc.id ∈ (evaluate log (cexServer K) cexQuery isActual).map (fun doc => doc.id) :=
    List.mem_map.2 ⟨doc, hdoc, rfl⟩
  rw [cex_ids log] at hid
  have hrating : doc.rating = ComputeAverageRating c.ratings := by
    rw [evaluate_rating log _ _ _ doc hdoc]
    unfold ratingOf
    rw [← hcd, hinv.data c hc]
  have key : ∀ n : Nat, c.document = cexText n →
      doc.relevance = (1 : K) / ((n : K) + 1) * log (6 / 3) := by
    intro n hn
    rw [hrel, hn, cex_nonStopWords]
    have hcount : List.count ['w'] (['w'] :: List.replicate n ['x']) = 1 := by
      rw [List.count_cons_self, List.count_replicate]
      simp
    simp only [cexQuery, List.filter_cons, List.mem_cons, true_or, decide_True, if_true,
      List.filter_nil, List.map_cons, List.map_nil, List.sum_cons, List.sum_nil, add_zero,
      hcount, List.length_cons, List.length_replicate, cex_df K]
    have hlen : ((cexCalls.length : ℕ) : K) = 6 := by
      have : cexCalls.length = 6 := rfl
      rw [this]
      norm_num
    rw [hlen]
    push_cast
    ring_nf
  rcases cex_call_mem c hc with ⟨h1, h2, h3⟩ | ⟨h1, h2, h3⟩ | ⟨h1, h2, h3⟩ | ⟨-, h1⟩
  · refine ⟨999, 1, Or.inl ⟨by rw [← hcd, h1], rfl, rfl⟩, ?_, key 999 h2⟩
    rw [hrating, h3]; rfl
  · refine ⟨1000, 2, Or.inr (Or.inl ⟨by rw [← hcd, h1], rfl, rfl⟩), ?_, key 1000 h2⟩
    rw [hrating, h3]; rfl
  · refine ⟨1001, 3, Or.inr (Or.inr ⟨by rw [← hcd, h1], rfl, rfl⟩), ?_, key 1001 h2⟩
    rw [hrating, h3]; rfl
  · simp only [List.mem_cons, List.mem_singleton, List.not_mem_nil, or_false] at hid
    omega

/-! ## The comparator and the order of the result -/

theorem tied_comm (a b : Document K) : tied a b ↔ tied b a := by
  unfold tied
  rw [abs_sub_comm]

theorem tied_refl (a : Document K) : tied a a := by
  unfold tied
  rw [sub_self, abs_zero]
  norm_num

theorem relevanceComp_eq_false_iff (a b : Document K) :
    relevanceComp b a = false ↔ SortedBefore a b := by
  unfold relevanceComp SortedBefore
  by_cases ht : tied a b
  · have ht2 : |b.relevance - a.relevance| < 1 / 1000000 := (tied_comm a b).1 ht
    rw [if_pos ht2]
    simp only [ht, true_and, not_true, false_and, or_false, decide_eq_false_iff_not]
    omega
  · have ht2 : ¬ |b.relevance - a.relevance| < 1 / 1000000 :=
      fun h => ht ((tied_comm a b).2 h)
    rw [if_neg ht2]
    simp only [ht, false_and, not_false_eq_true, true_and, false_or, decide_eq_false_iff_not,
      gt_iff_lt, not_lt]
    constructor
    · intro hle
      rcases lt_or_eq_of_le hle with h | h
      · exact h
      · exfalso
        apply ht
        unfold tied
        rw [h, sub_self, abs_zero]
        norm_num
    · exact le_of_lt

theorem relevanceComp_asymm (a b : Document K) (h : relevanceComp a b = true) :
    relevanceComp b a = false := by
  unfold relevanceComp at h ⊢
  by_cases ht : |a.relevance - b.relevance| < 1 / 1000000
  · have ht2 : |b.relevance - a.relevance| < 1 / 1000000 := by rwa [abs_sub_comm]
    rw [if_pos ht] at h
    rw [if_pos ht2]
    simp only [decide_eq_true_eq, decide_eq_false_iff_not] at h ⊢
    omega
  · have ht2 : ¬ |b.relevance - a.relevance| < 1 / 1000000 := by rwa [abs_sub_comm]
    rw [if_neg ht] at h
    rw [if_neg ht2]
    simp only [decide_eq_true_eq, decide_eq_false_iff_not, gt_iff_lt, not_lt] at h ⊢
    exact le_of_lt h

theorem relevanceComp_trans (a b c : Document K)
    (h1 : tied a b → tied b c → tied a c) (h2 : tied b a → tied a c → tied b c)
    (h3 : tied a c → tied c b → tied a b)
    (hab : relevanceComp a b = true) (hbc : relevanceComp b c = true) :
    relevanceComp a c = true := by
  have hba : tied b a ↔ tied a b := tied_comm b a
  have hcb : tied c b ↔ tied b c := tied_comm c b
  unfold relevanceComp at hab hbc ⊢
  unfold tied at h1 h2 h3 hba hcb
  by_cases tab : |a.relevance - b.relevance| < 1 / 1000000
  · rw [if_pos tab] at hab
    by_cases tbc : |b.relevance - c.relevance| < 1 / 1000000
    · rw [if_pos tbc] at hbc
      rw [if_pos (h1 tab tbc)]
      simp only [decide_eq_true_eq] at hab hbc ⊢
      omega
    · rw [if_neg tbc] at hbc
      have tac : ¬ |a.relevance - c.relevance| < 1 / 1000000 :=
        fun h => tbc (h2 (hba.2 tab) h)
      rw [if_neg tac]
      simp only [decide_eq_true_eq, gt_iff_lt] at hbc ⊢
      have hge : 1 / 1000000 ≤ b.relevance - c.relevance := by
        have := not_lt.1 tbc
        rwa [abs_of_pos (sub_pos.2 hbc)] at this
      have hlt := (abs_lt.1 tab).1
      linarith
  · rw [if_neg tab] at hab
    simp only [decide_eq_true_eq, gt_iff_lt] at hab
    have hge : 1 / 1000000 ≤ a.relevance - b.relevance := by
      have := not_lt.1 tab
      rwa [abs_of_pos (sub_pos.2 hab)] at this
    by_cases tbc : |b.relevance - c.relevance| < 1 / 1000000
    · rw [if_pos tbc] at hbc
      have tac : ¬ |a.relevance - c.relevance| < 1 / 1000000 :=
        fun h => tab (h3 h (hcb.2 tbc))
      rw [if_neg tac]
      simp only [decide_eq_true_eq, gt_iff_lt]
      have hlt := (abs_lt.1 tbc).1
      linarith
    · rw [if_neg tbc] at hbc
      simp only [decide_eq_true_eq, gt_iff_lt] at hbc
      have tac : ¬ |a.relevance - c.relevance| < 1 / 1000000 := by
        intro h
        have := (abs_lt.1 h).2
        have hge2 : 1 / 1000000 ≤ b.relevance - c.relevance := by
          have := not_lt.1 tbc
          rwa [abs_of_pos (sub_pos.2 hbc)] at this
        linarith
      rw [if_neg tac]
      simp only [decide_eq_true_eq, gt_iff_lt]
      linarith

theorem stdSort.mem_insert_iff {α : Type} (comp : α → α → Bool) (x w : α) (l : List α) :
    w ∈ stdSort.insert comp x l ↔ w = x ∨ w ∈ l := by
  rw [(stdSort.insert_perm comp x l).mem_iff, List.mem_cons]

theorem stdSort.insert_sorted {α : Type} (comp : α → α → Bool) (x : α) (l : List α)
    (hasym : ∀ a b, comp a b = true → comp b a = false)
    (htr : ∀ z ∈ l, ∀ y ∈ l, comp z x = true → comp x y = true → comp z y = true)
    (hl : l.Pairwise (fun a b => comp b a = false)) :
    (stdSort.insert comp x l).Pairwise (fun a b => comp b a = false) := by
  induction l with
  | nil => simp [stdSort.insert]
  | cons y ys ih =>
    obtain ⟨hy, hys⟩ := List.pairwise_cons.1 hl
    unfold stdSort.insert
    cases hxy : comp x y with
    | true =>
      simp only [if_true]
      refine List.pairwise_cons.2 ⟨?_, hl⟩
      intro z hz
      rcases List.mem_cons.1 hz with rfl | hz
      · exact hasym x z hxy
      · cases hzx : comp z x with
        | false => rfl
        | true =>
          have h1 := htr z (List.mem_cons_of_mem _ hz) y (List.mem_cons_self _ _) hzx hxy
          rw [hy z hz] at h1
          cases h1
    | false =>
      simp only [Bool.false_eq_true, if_false]
      refine List.pairwise_cons.2 ⟨?_, ?_⟩
      · intro w hw
        rcases (stdSort.mem_insert_iff comp x w ys).1 hw with rfl | hw
        · exact hxy
        · exact hy w hw
      · exact ih (fun z hz y2 hy2 => htr z (List.mem_cons_of_mem _ hz) y2
          (List.mem_cons_of_mem _ hy2)) hys

theorem stdSort.foldl_sorted {α : Type} (comp : α → α → Bool) (all : List α)
    (hasym : ∀ a b, comp a b = true → comp b a = false)
    (htr : ∀ a ∈ all, ∀ b ∈ all, ∀ c ∈ all,
      comp a b = true → comp b c = true → comp a c = true)
    (l sorted : List α) (hl : ∀ x ∈ l, x ∈ all) (hs : ∀ x ∈ sorted, x ∈ all)
    (hsorted : sorted.Pairwise (fun a b => comp b a = false)) :
    (l.foldl (fun sorted x => stdSort.insert comp x sorted) sorted).Pairwise
      (fun a b => comp b a = false) := by
  induction l generalizing sorted with
  | nil => exact hsorted
  | cons x rest ih =>
    simp only [List.foldl_cons]
    have hx := hl x (List.mem_cons_self _ _)
    apply ih
    · exact fun y hy => hl y (List.mem_cons_of_mem _ hy)
    · intro w hw
      rcases (stdSort.mem_insert_iff comp x w sorted).1 hw with rfl | hw
      · exact hx
      · exact hs w hw
    · exact stdSort.insert_sorted comp x sorted hasym
        (fun z hz y hy => htr z (hs z hz) x hx y (hs y hy)) hsorted

theorem stdSort_sorted {α : Type} (comp : α → α → Bool) (l : List α)
    (hasym : ∀ a b, comp a b = true → comp b a = false)
    (htr : ∀ a ∈ l, ∀ b ∈ l, ∀ c ∈ l, comp a b = true → comp b c = true → comp a c = true) :
    (stdSort comp l).Pairwise (fun a b => comp b a = false) :=
  stdSort.foldl_sorted comp l hasym htr l [] (fun _ h => h) (by simp) List.Pairwise.nil

theorem top_sorted_of_transitive_ties (found : List (Document K))
    (htrans : ∀ a ∈ found, ∀ b ∈ found, ∀ c ∈ found, tied a b → tied b c → tied a c) :
    ((stdSort relevanceComp found).take MAX_RESULT_DOCUMENT_COUNT).Pairwise SortedBefore := by
  have h := stdSort_sorted relevanceComp found relevanceComp_asymm
    (fun a ha b hb c hc => relevanceComp_trans a b c (htrans a ha b hb c hc)
      (htrans b hb a ha c hc) (htrans a ha c hc b hb))
  have h2 : (stdSort relevanceComp found).Pairwise SortedBefore :=
    h.imp (fun {a b} hab => (relevanceComp_eq_false_iff a b).1 hab)
  exact h2.sublist (List.take_sublist _ _)

theorem perm_pair {α : Type} {l : List α} {a b : α} (h : l.Perm [a, b]) :
    l = [a, b] ∨ l = [b, a] := by
  have hlen := h.length_eq
  rcases l with _ | ⟨x, _ | ⟨y, _ | ⟨z, rest⟩⟩⟩
  · cases hlen
  · cases hlen
  · have hx : x ∈ [a, b] := h.mem_iff.1 (List.mem_cons_self _ _)
    simp only [List.mem_cons, List.mem_singleton, List.not_mem_nil, or_false] at hx
    rcases hx with rfl | rfl
    · have h2 := List.perm_singleton.1 ((List.perm_cons x).1 h)
      rw [h2]
      exact Or.inl rfl
    · have h2 := List.perm_singleton.1
        ((List.perm_cons x).1 (h.trans (List.Perm.swap x a [])))
      rw [h2]
      exact Or.inr rfl
  · simp at hlen

theorem perm_triple {α : Type} {l : List α} {a b c : α} (h : l.Perm [a, b, c]) :
    l = [a, b, c] ∨ l = [a, c, b] ∨ l = [b, a, c] ∨ l = [b, c, a] ∨ l = [c, a, b] ∨
      l = [c, b, a] := by
  have hlen := h.length_eq
  rcases l with _ | ⟨x, rest⟩
  · cases hlen
  · have hx : x ∈ [a, b, c] := h.mem_iff.1 (List.mem_cons_self _ _)
    simp only [List.mem_cons, List.mem_singleton, List.not_mem_nil, or_false] at hx
    rcases hx with rfl | rfl | rfl
    · rcases perm_pair ((List.perm_cons x).1 h) with h2 | h2 <;> rw [h2] <;> simp
    · have h3 : (x :: rest).Perm [x, a, c] := h.trans (List.Perm.swap x a [c])
      rcases perm_pair ((List.perm_cons x).1 h3) with h2 | h2 <;> rw [h2] <;> simp
    · have h3 : (x :: rest).Perm [x, a, b] :=
        h.trans ((List.Perm.cons a (List.Perm.swap x b [])).trans (List.Perm.swap x a [b]))
      rcases perm_pair ((List.perm_cons x).1 h3) with h2 | h2 <;> rw [h2] <;> simp

theorem not_pairwise_of_cycle {α : Type} (R : α → α → Prop) (a b c : α)
    (hab : ¬ R a b) (hbc : ¬ R b c) (hca : ¬ R c a) (l : List α) (h : l.Perm [a, b, c]) :
    ¬ l.Pairwise R := by
  intro hp
  rcases perm_triple h with rfl | rfl | rfl | rfl | rfl | rfl <;>
    simp only [List.pairwise_cons, List.mem_cons, List.mem_singleton, List.not_mem_nil,
      or_false, forall_eq_or_imp, forall_eq, List.Pairwise.nil, and_true,
      IsEmpty.forall_iff, implies_true] at hp <;>
    tauto

theorem cex_cycle :
    ∃ d0 d1 d2 : Document ℝ,
      evaluate Real.log (cexServer ℝ) cexQuery isActual = [d0, d1, d2] ∧
      ¬ SortedBefore d0 d1 ∧ ¬ SortedBefore d1 d2 ∧ ¬ SortedBefore d2 d0 := by
  have hids := cex_ids (K := ℝ) Real.log
  have hdoc := cex_doc (K := ℝ) Real.log
  generalize evaluate Real.log (cexServer ℝ) cexQuery isActual = found at hids hdoc
  rcases found with _ | ⟨d0, _ | ⟨d1, _ | ⟨d2, _ | ⟨d3, rest⟩⟩⟩⟩
  · simp at hids
  · simp at hids
  · simp at hids
  · simp only [List.map_cons, List.map_nil, List.cons.injEq, and_true] at hids
    obtain ⟨hid0, hid1, hid2⟩ := hids
    have hlog : Real.log (6 / 3) = Real.log 2 := by norm_num
    have hlo := Real.log_two_gt_d9
    have hhi := Real.log_two_lt_d9
    obtain ⟨n0, r0, hc0, hr0, hrel0⟩ := hdoc d0 (by simp)
    obtain ⟨n1, r1, hc1, hr1, hrel1⟩ := hdoc d1 (by simp)
    obtain ⟨n2, r2, hc2, hr2, hrel2⟩ := hdoc d2 (by simp)
    have e0 : n0 = 999 ∧ r0 = 1 := by
      rcases hc0 with ⟨-, h1, h2⟩ | ⟨h, -, -⟩ | ⟨h, -, -⟩
      · exact ⟨h1, h2⟩
      · omega
      · omega
    have e1 : n1 = 1000 ∧ r1 = 2 := by
      rcases hc1 with ⟨h, -, -⟩ | ⟨-, h1, h2⟩ | ⟨h, -, -⟩
      · omega
      · exact ⟨h1, h2⟩
      · omega
    have e2 : n2 = 1001 ∧ r2 = 3 := by
      rcases hc2 with ⟨h, -, -⟩ | ⟨h, -, -⟩ | ⟨-, h1, h2⟩
      · omega
      · omega
      · exact ⟨h1, h2⟩
    rw [e0.1, hlog] at hrel0
    rw [e1.1, hlog] at hrel1
    rw [e2.1, hlog] at hrel2
    rw [e0.2] at hr0
    rw [e1.2] at hr1
    rw [e2.2] at hr2
    norm_num at hrel0 hrel1 hrel2
    have t01 : tied d0 d1 := by
      unfold tied
      rw [hrel0, hrel1, abs_lt]
      constructor <;> linarith
    have t12 : tied d1 d2 := by
      unfold tied
      rw [hrel1, hrel2, abs_lt]
      constructor <;> linarith
    have t20 : ¬ tied d2 d0 := by
      unfold tied
      rw [hrel2, hrel0, abs_lt]
      intro h
      linarith [h.1]
    refine ⟨d0, d1, d2, rfl, ?_, ?_, ?_⟩
    · unfold SortedBefore
      rw [hr0, hr1]
      simp [t01]
    · unfold SortedBefore
      rw [hr1, hr2]
      simp [t12]
    · unfold SortedBefore
      simp only [t20, false_and, not_false_eq_true, true_and, false_or, gt_iff_lt, not_lt]
      rw [hrel2, hrel0]
      linarith
  · simp at hids

/-! ## The tokenizer -/

theorem SplitIntoWords_eq_finish (text : Str) :
    SplitIntoWords text = SplitIntoWords.finish (text.foldl SplitIntoWords.step ([], [])) := rfl

theorem modifyHead_append_nil (l : List Str) : l.modifyHead (fun w => [] ++ w) = l := by
  cases l <;> simp

theorem modifyHead_modifyHead_cons (cur : Str) (c : Char) (l : List Str) :
    (l.modifyHead (List.cons c)).modifyHead (fun w => cur ++ w)
      = l.modifyHead (fun w => (cur ++ [c]) ++ w) := by
  cases l <;> simp

theorem SplitIntoWords.finish_foldl (text : Str) (ws : List Str) (cur : Str) :
    SplitIntoWords.finish (text.foldl SplitIntoWords.step (ws, cur))
      = ws ++ ((text.splitOnP (fun c => decide (c = ' '))).modifyHead
          (fun w => cur ++ w)).filter (fun w => decide (w ≠ [])) := by
  induction text generalizing ws cur with
  | nil =>
    simp only [List.foldl_nil, List.splitOnP_nil, List.modifyHead_cons, List.append_nil]
    unfold SplitIntoWords.finish
    by_cases h : cur = [] <;> simp [h]
  | cons c rest ih =>
    rw [List.foldl_cons, List.splitOnP_cons]
    by_cases hc : c = ' '
    · simp only [hc, if_true, decide_True, List.modifyHead_cons, List.append_nil]
      by_cases hcur : cur = []
      · have hstep : SplitIntoWords.step (ws, cur) ' ' = (ws, []) := by
          simp [SplitIntoWords.step, hcur]
        rw [hstep, ih, modifyHead_append_nil]
        simp [hcur]
      · have hstep : SplitIntoWords.step (ws, cur) ' ' = (ws ++ [cur], []) := by
          simp [SplitIntoWords.step, hcur]
        rw [hstep, ih, modifyHead_append_nil]
        simp [hcur]
    · have hstep : SplitIntoWords.step (ws, cur) c = (ws, cur ++ [c]) := by
        simp [SplitIntoWords.step, hc]
      simp only [hc, if_false, decide_False, Bool.false_eq_true]
      rw [hstep, ih, modifyHead_modifyHead_cons]

theorem SplitIntoWords_eq_maximalRuns (text : Str) : SplitIntoWords text = maximalRuns text := by
  rw [SplitIntoWords_eq_finish, SplitIntoWords.finish_foldl, modifyHead_append_nil]
  rfl

theorem SplitIntoWords.foldl_no_space (text : Str) (st : List Str × Str)
    (h1 : ∀ w ∈ st.1, ' ' ∉ w) (h2 : ' ' ∉ st.2) :
    (∀ w ∈ (text.foldl SplitIntoWords.step st).1, ' ' ∉ w) ∧
      ' ' ∉ (text.foldl SplitIntoWords.step st).2 := by
  induction text generalizing st with
  | nil => exact ⟨h1, h2⟩
  | cons c rest ih =>
    rw [List.foldl_cons]
    apply ih
    · unfold SplitIntoWords.step
      by_cases hc : c = ' '
      · by_cases hw : st.2 = []
        · simpa [hc, hw] using h1
        · simp only [hc, if_true, ne_eq, hw, not_false_eq_true, List.mem_append,
            List.mem_singleton]
          rintro w (hw1 | hw1)
          · exact h1 w hw1
          · rw [hw1]; exact h2
      · simpa [hc] using h1
    · unfold SplitIntoWords.step
      by_cases hc : c = ' '
      · by_cases hw : st.2 = []
        · simp [hc, hw]
        · simp [hc, hw]
      · simp only [hc, if_false, List.mem_append, List.mem_singleton, not_or]
        exact ⟨h2, fun h => hc h.symm⟩

theorem SplitIntoWords_no_space (text : Str) : ∀ w ∈ SplitIntoWords text, ' ' ∉ w := by
  obtain ⟨h1, h2⟩ := SplitIntoWords.foldl_no_space text ([], []) (by simp) (by simp)
  rw [SplitIntoWords_eq_finish]
  unfold SplitIntoWords.finish
  split
  · intro w hw
    rcases List.mem_append.1 hw with hw | hw
    · exact h1 w hw
    · rw [List.mem_singleton.1 hw]; exact h2
  · exact h1

theorem SplitIntoWords.foldl_flatten (text : Str) (st : List Str × Str) :
    (text.foldl SplitIntoWords.step st).1.flatten ++ (text.foldl SplitIntoWords.step st).2
      = st.1.flatten ++ st.2 ++ text.filter (fun c => decide (c ≠ ' ')) := by
  induction text generalizing st with
  | nil => simp
  | cons c rest ih =>
    rw [List.foldl_cons, ih]
    unfold SplitIntoWords.step
    by_cases hc : c = ' '
    · by_cases hw : st.2 = []
      · simp [hc, hw]
      · simp [hc, hw]
    · simp [hc]

theorem SplitIntoWords_flatten (text : Str) :
    (SplitIntoWords text).flatten = text.filter (fun c => decide (c ≠ ' ')) := by
  have h := SplitIntoWords.foldl_flatten text ([], [])
  simp only [List.flatten_nil, List.append_nil, List.nil_append] at h
  rw [SplitIntoWords_eq_finish]
  unfold SplitIntoWords.finish
  split
  · rw [List.flatten_append, ← h]
    simp
  · rename_i hnil
    have hnil2 : (text.foldl SplitIntoWords.step ([], [])).2 = [] := by
      simpa using hnil
    rw [← h, hnil2, List.append_nil]

theorem SplitIntoWords.foldl_word (w : Str) (hw : ' ' ∉ w) (acc : List Str) (cur : Str) :
    w.foldl SplitIntoWords.step (acc, cur) = (acc, cur ++ w) := by
  induction w generalizing cur with
  | nil => simp
  | cons c rest ih =>
    have hc : c ≠ ' ' := fun h => hw (by rw [h]; exact List.mem_cons_self _ _)
    have hrest : ' ' ∉ rest := fun h => hw (List.mem_cons_of_mem _ h)
    rw [List.foldl_cons]
    have hstep : SplitIntoWords.step (acc, cur) c = (acc, cur ++ [c]) := by
      simp [SplitIntoWords.step, hc]
    rw [hstep, ih hrest]
    simp

theorem SplitIntoWords.finish_foldl_intercalate (ws : List Str)
    (hws : ∀ w ∈ ws, w ≠ [] ∧ ' ' ∉ w) (acc : List Str) :
    SplitIntoWords.finish ((List.intercalate [' '] ws).foldl SplitIntoWords.step (acc, []))
      = acc ++ ws := by
  induction ws generalizing acc with
  | nil => simp [List.intercalate, SplitIntoWords.finish]
  | cons w rest ih =>
    obtain ⟨hne, hsp⟩ := hws w (List.mem_cons_self _ _)
    have hrest : ∀ w2 ∈ rest, w2 ≠ [] ∧ ' ' ∉ w2 :=
      fun w2 h => hws w2 (List.mem_cons_of_mem _ h)
    cases rest with
    | nil =>
      have h1 : List.intercalate [' '] [w] = w := by simp [List.intercalate]
      rw [h1, SplitIntoWords.foldl_word w hsp]
      simp [SplitIntoWords.finish, hne]
    | cons w2 rest2 =>
      have h1 : List.intercalate [' '] (w :: w2 :: rest2)
          = w ++ ' ' :: List.intercalate [' '] (w2 :: rest2) := by
        simp [List.intercalate]
      rw [h1, List.foldl_append, SplitIntoWords.foldl_word w hsp, List.foldl_cons]
      have hstep : SplitIntoWords.step (acc, [] ++ w) ' ' = (acc ++ [w], []) := by
        simp [SplitIntoWords.step, hne]
      rw [hstep, ih hrest]
      simp

theorem SplitIntoWords_intercalate (ws : List Str) (hws : ∀ w ∈ ws, w ≠ [] ∧ ' ' ∉ w) :
    SplitIntoWords (List.intercalate [' '] ws) = ws := by
  rw [SplitIntoWords_eq_finish, SplitIntoWords.finish_foldl_intercalate ws hws]
  simp

theorem SplitIntoWords_eq_nil_iff (text : Str) :
    SplitIntoWords text = [] ↔ ∀ c ∈ text, c = ' ' := by
  have hflat := SplitIntoWords_flatten text
  constructor
  · intro h
    rw [h] at hflat
    have h2 : text.filter (fun c => decide (c ≠ ' ')) = [] := hflat.symm
    rw [List.filter_eq_nil_iff] at h2
    intro c hc
    have := h2 c hc
    simpa using this
  · intro h
    have h2 : text.filter (fun c => decide (c ≠ ' ')) = [] := by
      rw [List.filter_eq_nil_iff]
      intro c hc
      simp [h c hc]
    rw [h2] at hflat
    cases hw : SplitIntoWords text with
    | nil => rfl
    | cons w rest =>
      exfalso
      have hne := SplitIntoWords_nonempty text w (by rw [hw]; exact List.mem_cons_self _ _)
      rw [hw] at hflat
      simp only [List.flatten_cons, List.append_eq_nil] at hflat
      exact hne hflat.1

theorem ParseQuery_nil (s : SearchServer K) :
    ParseQuery s [] = .error (.invalid_argument "Query is empty") := rfl

theorem ParseQuery_of_no_tokens (s : SearchServer K) (raw_query : Str) (hne : raw_query ≠ [])
    (hsp : ∀ c ∈ raw_query, c = ' ') :
    ParseQuery s raw_query = .ok { plus_words := [], minus_words := [] } := by
  unfold ParseQuery
  rw [if_neg hne, (SplitIntoWords_eq_nil_iff raw_query).2 hsp]
  rfl

theorem ParseQuery_both_iff (s : SearchServer K) (raw_query : Str) (q : Query)
    (h : ParseQuery s raw_query = .ok q) (w : Str) :
    (w ∈ q.plus_words ∧ w ∈ q.minus_words) ↔
      (w ∈ SplitIntoWords raw_query ∧ ('-' :: w) ∈ SplitIntoWords raw_query ∧
        w ∉ s.stop_words_) := by
  obtain ⟨h1, h2, -, -, h5⟩ := ParseQuery_ok_spec s raw_query q h
  rw [h1 w, h2 w]
  constructor
  · rintro ⟨⟨ht, -, hstop⟩, htm, -⟩
    exact ⟨ht, htm, hstop⟩
  · rintro ⟨ht, htm, hstop⟩
    refine ⟨⟨ht, ?_, hstop⟩, htm, hstop⟩
    intro hhead
    have hmal := (h5 _ htm).2
    cases w with
    | nil => cases hhead
    | cons c r =>
      simp only [List.head?_cons, Option.some.injEq] at hhead
      exact hmal (Or.inr (Or.inl ⟨r, by rw [hhead]⟩))

/-! ## `ComputeAverageRating` -/

theorem wrapInt32_of_range (x : Int) (h : InInt32 x) : wrapInt32 x = x := by
  unfold InInt32 at h
  unfold wrapInt32
  omega

theorem foldl_wrapInt32 (l : List Int) (init : Int)
    (h : ∀ k ≤ l.length, InInt32 (init + (l.take k).sum)) :
    l.foldl (fun rating_sum rating => wrapInt32 (rating_sum + rating)) init = init + l.sum := by
  induction l generalizing init with
  | nil => simp
  | cons r rest ih =>
    have h1 : InInt32 (init + r) := by
      have := h 1 (by simp)
      simpa using this
    rw [List.foldl_cons, wrapInt32_of_range _ h1, ih]
    · simp only [List.sum_cons]
      ring
    · intro k hk
      have := h (k + 1) (by simpa using hk)
      simp only [List.take_succ_cons, List.sum_cons] at this
      rw [add_assoc]
      exact this

theorem ComputeAverageRating_eq (ratings : List Int) (hne : ratings ≠ [])
    (h : StaysInInt32 ratings) :
    ComputeAverageRating ratings = Int.tdiv ratings.sum (ratings.length : Int) := by
  unfold ComputeAverageRating
  rw [if_neg hne]
  simp only
  rw [foldl_wrapInt32 ratings 0 (by simpa using h.1), wrapInt32_of_range _ h.2, zero_add]

theorem tdiv_of_nonneg (a : Int) (n : Nat) (ha : 0 ≤ a) : Int.tdiv a n = a / n :=
  Int.tdiv_eq_ediv ha (Int.ofNat_nonneg n)

theorem tdiv_of_neg (a : Int) (n : Nat) (ha : a < 0) : Int.tdiv a n = -((-a) / n) := by
  have h1 : a = -(-a) := by omega
  rw [h1, Int.neg_tdiv, Int.tdiv_eq_ediv (by omega) (Int.ofNat_nonneg n)]
  simp

theorem stored_rating (stop_words : List Str) (s0 : SearchServer K) (calls : List AddCall)
    (h0 : SearchServer.create stop_words = .ok s0) (c : AddCall)
    (hc : c ∈ acceptedCalls s0 calls) :
    StdMap.lookup (afterCalls s0 calls).documents_ c.document_id
        = some { rating := ComputeAverageRating c.ratings, status := c.status } ∧
    ∀ (log : K → K) raw_query p docs,
      FindTopDocuments log (afterCalls s0 calls) raw_query p = .ok docs →
      ∀ doc ∈ docs, doc.id = c.document_id → doc.rating = ComputeAverageRating c.ratings := by
  have hinv := serverInv_of_calls stop_words s0 calls h0
  refine ⟨hinv.data c hc, ?_⟩
  intro log raw_query p docs hdocs doc hdoc hid
  cases hq : ParseQuery (afterCalls s0 calls) raw_query with
  | error e =>
    rw [FindTopDocuments_error log _ raw_query p e hq] at hdocs
    cases hdocs
  | ok q =>
    rw [FindTopDocuments_eq log _ hinv.index raw_query q p hq] at hdocs
    cases hdocs
    have hmem := mem_top_of_evaluate log _ q p doc hdoc
    rw [evaluate_rating log _ q p doc hmem, hid]
    unfold ratingOf
    rw [hinv.data c hc]

/-! ## Positional lookup and the index invariant -/

theorem GetDocumentId_of_get (s : SearchServer K) (k : Nat) (i : Int)
    (h : s.document_ids_.get? k = some i) : GetDocumentId s (k : Int) = .ok i := by
  unfold GetDocumentId
  rw [if_neg (by omega)]
  simp only [Int.toNat_ofNat, h]

theorem GetDocumentId_out_of_range (s : SearchServer K) (k : Int)
    (h : k < 0 ∨ (s.document_ids_.length : Int) ≤ k) :
    GetDocumentId s k = .error .out_of_range := by
  unfold GetDocumentId
  by_cases hk : k < 0
  · rw [if_pos hk]
  · rw [if_neg hk]
    have hlen : s.document_ids_.length ≤ k.toNat := by omega
    rw [List.get?_eq_none.2 hlen]

theorem ServerInv.mem_keys_index_iff {s : SearchServer K} {acc : List AddCall}
    (hinv : ServerInv s acc) (t : Str) :
    t ∈ StdMap.keys s.word_to_document_freqs_ ↔
      ∃ c ∈ acc, t ∈ nonStopWords s c.document := by
  constructor
  · intro ht
    obtain ⟨freqs, hl⟩ := StdMap.exists_lookup_of_mem_keys ht
    have hmem := StdMap.mem_of_lookup hl
    have hne := hinv.index.nonempty _ hmem
    obtain ⟨⟨d, v⟩, rest, hfreqs⟩ : ∃ e rest, freqs = e :: rest := by
      cases freqs with
      | nil => exact absurd rfl hne
      | cons e rest => exact ⟨e, rest, rfl⟩
    have hd : d ∈ StdMap.keys freqs := by
      rw [hfreqs]
      simp [StdMap.keys]
    obtain ⟨c, hc, hcd⟩ := hinv.exists_call (hinv.index.stored _ hmem d hd)
    refine ⟨c, hc, (hinv.indexedUnder_iff hc t).1 ?_⟩
    unfold indexedUnder
    rw [hl, hcd]
    simpa using hd
  · rintro ⟨c, hc, ht⟩
    have hi := (hinv.indexedUnder_iff hc t).2 ht
    unfold indexedUnder at hi
    cases hl : StdMap.lookup s.word_to_document_freqs_ t with
    | none => simp [hl] at hi
    | some freqs =>
      rw [← StdMap.lookup_isSome_iff, hl]
      rfl

theorem ServerInv.mem_inner_iff {s : SearchServer K} {acc : List AddCall}
    (hinv : ServerInv s acc) {t : Str} {freqs : StdMap Int K}
    (hl : StdMap.lookup s.word_to_document_freqs_ t = some freqs) {c : AddCall}
    (hc : c ∈ acc) :
    c.document_id ∈ StdMap.keys freqs ↔ t ∈ nonStopWords s c.document := by
  rw [← hinv.indexedUnder_iff hc t]
  unfold indexedUnder
  rw [hl]
  simp

theorem mem_nonStopWords (s : SearchServer K) (text : Str) (t : Str)
    (h : t ∈ nonStopWords s text) : t ∈ SplitIntoWords text ∧ t ∉ s.stop_words_ ∧ t ≠ [] := by
  unfold nonStopWords at h
  obtain ⟨h1, h2⟩ := List.mem_filter.1 h
  refine ⟨h1, ?_, SplitIntoWords_nonempty text t h1⟩
  rw [← IsStopWord_eq_false_iff]
  simpa using h2

theorem nonStopWords_eq_nil (s : SearchServer K) (text : Str)
    (h : ∀ w ∈ SplitIntoWords text, w ∈ s.stop_words_) : nonStopWords s text = [] := by
  unfold nonStopWords
  rw [List.filter_eq_nil_iff]
  intro w hw
  have h2 : IsStopWord s w = true := by
    cases hst : IsStopWord s w with
    | true => rfl
    | false => exact absurd (h w hw) ((IsStopWord_eq_false_iff s w).1 hst)
  simp [h2]

theorem ServerInv.size_inner_bounds {s : SearchServer K} {acc : List AddCall}
    (hinv : ServerInv s acc) {t : Str} {freqs : StdMap Int K}
    (hl : StdMap.lookup s.word_to_document_freqs_ t = some freqs) :
    1 ≤ StdMap.size freqs ∧ StdMap.size freqs ≤ GetDocumentCount s := by
  constructor
  · have hne := hinv.index.nonempty _ (StdMap.mem_of_lookup hl)
    unfold StdMap.size
    cases freqs with
    | nil => exact absurd rfl hne
    | cons e rest => simp
  · rw [hinv.size_inner hl, hinv.size_documents]
    exact List.length_filter_le _ _

theorem FindTopDocuments_error_iff (log : K → K) (s : SearchServer K) (hs : Reachable s)
    (raw_query : Str) (p : DocumentPredicate) (e : Exception) :
    FindTopDocuments log s raw_query p = .error e ↔ ParseQuery s raw_query = .error e := by
  cases hq : ParseQuery s raw_query with
  | error e2 =>
    rw [FindTopDocuments_error log s raw_query p e2 hq]
    constructor <;> intro h <;> cases h <;> rfl
  | ok q =>
    rw [FindTopDocuments_eq log s hs.indexOk raw_query q p hq]
    constructor <;> intro h <;> cases h

/-! ## The inverse document frequency -/

theorem ComputeWordInverseDocumentFreq_eq (log : K → K) (s : SearchServer K) (t : Str)
    (freqs : StdMap Int K) (hl : StdMap.lookup s.word_to_document_freqs_ t = some freqs) :
    ComputeWordInverseDocumentFreq log s t
      = .ok (log ((GetDocumentCount s : K) * 1 / (StdMap.size freqs : K))) := by
  unfold ComputeWordInverseDocumentFreq
  rw [StdMap.at_of_lookup hl]

theorem log_ratio_nonneg (n d : Nat) (hd : 1 ≤ d) (hdn : d ≤ n) :
    0 ≤ Real.log ((n : ℝ) * 1 / (d : ℝ)) ∧
      (0 < Real.log ((n : ℝ) * 1 / (d : ℝ)) ↔ d < n) := by
  have hdpos : (0 : ℝ) < (d : ℝ) := by exact_mod_cast hd
  have hle : (d : ℝ) ≤ (n : ℝ) := by exact_mod_cast hdn
  have hone : (1 : ℝ) ≤ (n : ℝ) * 1 / (d : ℝ) := by
    rw [mul_one, le_div_iff₀ hdpos, one_mul]
    exact hle
  refine ⟨Real.log_nonneg hone, ?_⟩
  rw [Real.log_pos_iff (lt_of_lt_of_le one_pos hone), mul_one, lt_div_iff₀ hdpos, one_mul]
  exact_mod_cast Iff.rfl

theorem StdMap.at_of_not_mem_keys {κ ν : Type} [DecidableEq κ] {m : StdMap κ ν} {k : κ}
    (h : k ∉ StdMap.keys m) : StdMap.at m k = .error .out_of_range := by
  unfold StdMap.at
  cases hl : StdMap.lookup m k with
  | none => rfl
  | some v =>
    exact absurd ((StdMap.lookup_isSome_iff m k).1 (by rw [hl]; rfl)) h

theorem MatchDocument_of_unknown_id (s : SearchServer K) (raw_query : Str) (q : Query) (d : Int)
    (hq : ParseQuery s raw_query = .ok q) (hd : d ∉ StdMap.keys s.documents_) :
    MatchDocument s raw_query d = .error .out_of_range := by
  unfold MatchDocument
  rw [hq]
  simp only
  rw [MatchDocument.plusLoop_value]
  simp only
  rw [MatchDocument.minusLoop_eq]
  simp only
  rw [StdMap.at_of_not_mem_keys hd]

theorem MatchDocument_error_iff (s : SearchServer K) (raw_query : Str) (d : Int) :
    (∃ e, MatchDocument s raw_query d = .error e) ↔
      (∃ e, ParseQuery s raw_query = .error e) ∨ d ∉ StdMap.keys s.documents_ := by
  cases hq : ParseQuery s raw_query with
  | error e =>
    rw [MatchDocument_error s raw_query d e hq]
    simp
  | ok q =>
    by_cases hd : d ∈ StdMap.keys s.documents_
    · obtain ⟨data, hdata⟩ := StdMap.exists_lookup_of_mem_keys hd
      rw [MatchDocument_eq s raw_query q d data hq hdata]
      simp [hd]
    · rw [MatchDocument_of_unknown_id s raw_query q d hq hd]
      simp [hd]

/-! ## The claims -/

/-- C1. A call of `AddDocument` that fails leaves the server exactly as it was:
the inverted index, the document store, the ordered id list and hence
`GetDocumentCount()` are unchanged. -/
theorem AddDocument_atomic_on_rejection (s : SearchServer K) (id : Int) (text : Str)
    (status : DocumentStatus) (ratings : List Int) (e : Exception)
    (hfail : (AddDocument s id text status ratings).1 = .error e) :
    (AddDocument s id text status ratings).2 = s ∧
    (AddDocument s id text status ratings).2.word_to_document_freqs_
      = s.word_to_document_freqs_ ∧
    (AddDocument s id text status ratings).2.documents_ = s.documents_ ∧
    (AddDocument s id text status ratings).2.document_ids_ = s.document_ids_ ∧
    GetDocumentCount (AddDocument s id text status ratings).2 = GetDocumentCount s := by
  rw [AddDocument_state_of_error s id text status ratings e hfail]
  exact ⟨rfl, rfl, rfl, rfl, rfl⟩

/-- C2. `AddDocument` fails exactly when the id is negative, the id is already a
key of the document store, or the text has a character with code in `[0, 0x20)`;
otherwise it succeeds, whatever the ratings, the status and the tokens are. -/
theorem AddDocument_fails_iff (s : SearchServer K) (id : Int) (text : Str)
    (status : DocumentStatus) (ratings : List Int) :
    ((∃ e, (AddDocument s id text status ratings).1 = .error e) ↔
      (id < 0 ∨ id ∈ StdMap.keys s.documents_ ∨ HasControlChar text)) ∧
    ((AddDocument s id text status ratings).1 = .ok () ↔
      ¬ (id < 0 ∨ id ∈ StdMap.keys s.documents_ ∨ HasControlChar text)) :=
  AddDocument_outcome s id text status ratings

/-- C3. On a reachable server and for a raw query that parses, `FindTopDocuments`
returns a list, and no returned document is indexed under a minus-word of the
parsed query, for every predicate; in particular under a word that is both a
plus-word and a minus-word. -/
theorem FindTopDocuments_excludes_minus_words (log : K → K) (s : SearchServer K)
    (hs : Reachable s) (raw_query : Str) (query : Query) (p : DocumentPredicate)
    (hq : ParseQuery s raw_query = .ok query) :
    ∃ docs, FindTopDocuments log s raw_query p = .ok docs ∧
      (∀ doc ∈ docs, ∀ t ∈ query.minus_words, indexedUnder s t doc.id = false) ∧
      (∀ doc ∈ docs, ∀ t, t ∈ query.plus_words → t ∈ query.minus_words →
        indexedUnder s t doc.id = false) := by
  refine ⟨_, FindTopDocuments_eq log s hs.indexOk raw_query query p hq, ?_⟩
  have key : ∀ doc ∈ (stdSort relevanceComp (evaluate log s query p)).take
      MAX_RESULT_DOCUMENT_COUNT, ∀ t ∈ query.minus_words, indexedUnder s t doc.id = false := by
    intro doc hdoc
    have hmem := mem_top_of_evaluate log s query p doc hdoc
    have hid : doc.id ∈ (evaluate log s query p).map (fun doc => doc.id) :=
      List.mem_map.2 ⟨doc, hmem, rfl⟩
    exact ((mem_evaluate_id log s query p doc.id).1 hid).2.2
  exact ⟨key, fun doc hdoc t _ ht => key doc hdoc t ht⟩

/-- C4. On a reachable server `FindAllDocuments` returns a list in which a
document id occurs exactly when the document is indexed under a plus-word, the
predicate holds of its id, stored status and stored rating, and it is indexed
under no minus-word; no id occurs twice and every entry carries the stored
rating, whatever its relevance. Hence `FindTopDocuments` with a status returns
only documents stored with that status, and without a status it is the call
with `ACTUAL`. -/
theorem FindAllDocuments_characterisation (log : K → K) (s : SearchServer K)
    (hs : Reachable s) (query : Query) (p : DocumentPredicate) :
    (∃ docs, FindAllDocuments log s query p = .ok docs ∧
      (∀ d, d ∈ docs.map (fun doc => doc.id) ↔
        (∃ t ∈ query.plus_words, indexedUnder s t d = true) ∧
        (∃ data, StdMap.lookup s.documents_ d = some data ∧
          p d data.status data.rating = true) ∧
        (∀ t ∈ query.minus_words, indexedUnder s t d = false)) ∧
      (docs.map (fun doc => doc.id)).Nodup ∧
      (∀ doc ∈ docs, ∃ data, StdMap.lookup s.documents_ doc.id = some data ∧
        doc.rating = data.rating)) ∧
    (∀ raw_query status docs, FindTopDocumentsByStatus log s raw_query status = .ok docs →
      ∀ doc ∈ docs, ∃ data, StdMap.lookup s.documents_ doc.id = some data ∧
        data.status = status) ∧
    (∀ raw_query, FindTopDocumentsDefault log s raw_query
      = FindTopDocumentsByStatus log s raw_query DocumentStatus.ACTUAL) := by
  refine ⟨⟨_, FindAllDocuments_eq log s hs.indexOk query p, ?_, ?_, ?_⟩, ?_, ?_⟩
  · intro d
    rw [mem_evaluate_id, admits_iff]
  · exact nodup_evaluate_id log s query p
  · intro doc hdoc
    have hid : doc.id ∈ (evaluate log s query p).map (fun doc => doc.id) :=
      List.mem_map.2 ⟨doc, hdoc, rfl⟩
    have hadm := ((mem_evaluate_id log s query p doc.id).1 hid).2.1
    obtain ⟨data, hdata, hr⟩ := ratingOf_stored s doc.id (admits_mem_keys s p _ hadm)
    exact ⟨data, hdata, (evaluate_rating log s query p doc hdoc).trans hr⟩
  · intro raw_query status docs hdocs doc hdoc
    unfold FindTopDocumentsByStatus at hdocs
    cases hq : ParseQuery s raw_query with
    | error e =>
      rw [FindTopDocuments_error log s raw_query _ e hq] at hdocs
      cases hdocs
    | ok q =>
      rw [FindTopDocuments_eq log s hs.indexOk raw_query q _ hq] at hdocs
      cases hdocs
      have hmem := mem_top_of_evaluate log s q _ doc hdoc
      have hid : doc.id ∈ (evaluate log s q
          (fun _document_id st _rating => decide (st = status))).map (fun doc => doc.id) :=
        List.mem_map.2 ⟨doc, hmem, rfl⟩
      have hadm := ((mem_evaluate_id log s q _ doc.id).1 hid).2.1
      obtain ⟨data, hdata, hp⟩ := (admits_iff s _ doc.id).1 hadm
      exact ⟨data, hdata, by simpa using hp⟩
  · intro raw_query
    rfl

/-- C6. On a reachable server and for a raw query that parses, the list that
`FindTopDocuments` returns has length `min(5, n)`, where `n` is the length of the
list that `FindAllDocuments` returns for the same query and predicate; it has at
most `MAX_RESULT_DOCUMENT_COUNT = 5` entries, each an entry of that list. -/
theorem FindTopDocuments_length (log : K → K) (s : SearchServer K) (hs : Reachable s)
    (raw_query : Str) (query : Query) (p : DocumentPredicate)
    (hq : ParseQuery s raw_query = .ok query) :
    ∃ found top, FindAllDocuments log s query p = .ok found ∧
      FindTopDocuments log s raw_query p = .ok top ∧
      top.length = min 5 found.length ∧
      top.length ≤ MAX_RESULT_DOCUMENT_COUNT ∧ MAX_RESULT_DOCUMENT_COUNT = 5 ∧
      ∀ doc ∈ top, doc ∈ found := by
  refine ⟨_, _, FindAllDocuments_eq log s hs.indexOk query p,
    FindTopDocuments_eq log s hs.indexOk raw_query query p hq, ?_, ?_, rfl, ?_⟩
  · rw [List.length_take, (stdSort_perm relevanceComp _).length_eq]
    rfl
  · rw [List.length_take]
    exact Nat.min_le_left _ _
  · intro doc hdoc
    exact mem_top_of_evaluate log s query p doc hdoc

/-- C9. When `ParseQuery` succeeds, `plus_words` is exactly the set of tokens of
`SplitIntoWords(raw_query)` that do not start with `-` and are not stop words,
and `minus_words` is exactly the set of words `w` such that `-w` is a token and
`w` is not a stop word; both are duplicate-free, and neither holds a stop
word, an empty string or a word starting with `-`. -/
theorem ParseQuery_result (s : SearchServer K) (raw_query : Str) (q : Query)
    (h : ParseQuery s raw_query = .ok q) :
    (∀ w, w ∈ q.plus_words ↔
      w ∈ SplitIntoWords raw_query ∧ w.head? ≠ some '-' ∧ w ∉ s.stop_words_) ∧
    (∀ w, w ∈ q.minus_words ↔ ('-' :: w) ∈ SplitIntoWords raw_query ∧ w ∉ s.stop_words_) ∧
    q.plus_words.Nodup ∧ q.minus_words.Nodup ∧
    (∀ w, w ∈ q.plus_words ∨ w ∈ q.minus_words →
      w ∉ s.stop_words_ ∧ w ≠ [] ∧ w.head? ≠ some '-') := by
  obtain ⟨h1, h2, h3, h4, h5⟩ := ParseQuery_ok_spec s raw_query q h
  refine ⟨h1, h2, h3.nodup, h4.nodup, ?_⟩
  rintro w (hw | hw)
  · obtain ⟨ht, hhead, hstop⟩ := (h1 w).1 hw
    exact ⟨hstop, (h5 w ht).1, hhead⟩
  · obtain ⟨ht, hstop⟩ := (h2 w).1 hw
    have hmal := (h5 _ ht).2
    refine ⟨hstop, ?_, ?_⟩
    · intro hnil
      exact hmal (Or.inl (by rw [hnil]))
    · intro hhead
      cases w with
      | nil => cases hhead
      | cons c r =>
        simp only [List.head?_cons, Option.some.injEq] at hhead
        exact hmal (Or.inr (Or.inl ⟨r, by rw [hhead]⟩))

/-- C10, amended. For a raw query with at least one token, `ParseQuery` fails
exactly when some token is the bare `-`, starts with `--` or has a character
with code in `[0, 0x20)`, whether or not tokens are stop words; the exception
passes through `FindTopDocuments` and `MatchDocument`. On a reachable server
`FindTopDocuments` fails in no other case, and neither does `MatchDocument`
called with the id of a stored document. `MatchDocument` called with an id that
is not stored fails in every case: with the exception of `ParseQuery` when a
token is malformed, with `out_of_range` when the query parses. The queries
`a --b`, `a - ` and `-` fail. -/
theorem ParseQuery_fails_iff (log : K → K) (s : SearchServer K) (raw_query : Str)
    (hne : SplitIntoWords raw_query ≠ []) :
    ((∃ e, ParseQuery s raw_query = .error e) ↔
      ∃ t ∈ SplitIntoWords raw_query,
        t = ['-'] ∨ (∃ r, t = '-' :: '-' :: r) ∨ ∃ c ∈ t, c.toNat < 32) ∧
    (∀ e, ParseQuery s raw_query = .error e →
      (∀ p, FindTopDocuments log s raw_query p = .error e) ∧
      (∀ d, MatchDocument s raw_query d = .error e)) ∧
    (Reachable s → ∀ p, ((∃ e, FindTopDocuments log s raw_query p = .error e) ↔
      ∃ t ∈ SplitIntoWords raw_query, MalformedToken t)) ∧
    (∀ d ∈ StdMap.keys s.documents_, ((∃ e, MatchDocument s raw_query d = .error e) ↔
      ∃ t ∈ SplitIntoWords raw_query, MalformedToken t)) ∧
    (∀ d, d ∉ StdMap.keys s.documents_ → ∀ q, ParseQuery s raw_query = .ok q →
      MatchDocument s raw_query d = .error .out_of_range) ∧
    (∀ d, ((∃ e, MatchDocument s raw_query d = .error e) ↔
      (∃ t ∈ SplitIntoWords raw_query, MalformedToken t) ∨
        d ∉ StdMap.keys s.documents_)) ∧
    (∃ e, ParseQuery s "a --b".toList = .error e) ∧
    (∃ e, ParseQuery s "a - ".toList = .error e) ∧
    (∃ e, ParseQuery s "-".toList = .error e) := by
  have hiff := ParseQuery_error_iff s raw_query hne
  refine ⟨hiff, ?_, ?_, ?_, ?_, ?_, ?_, ?_, ?_⟩
  · intro e he
    exact ⟨fun p => FindTopDocuments_error log s raw_query p e he,
      fun d => MatchDocument_error s raw_query d e he⟩
  · intro hs p
    rw [← hiff]
    cases hq : ParseQuery s raw_query with
    | error e =>
      rw [FindTopDocuments_error log s raw_query p e hq]
      simp
    | ok q =>
      rw [FindTopDocuments_eq log s hs.indexOk raw_query q p hq]
      simp
  · intro d hd
    rw [← hiff]
    obtain ⟨data, hdata⟩ := StdMap.exists_lookup_of_mem_keys hd
    cases hq : ParseQuery s raw_query with
    | error e =>
      rw [MatchDocument_error s raw_query d e hq]
      simp
    | ok q =>
      rw [MatchDocument_eq s raw_query q d data hq hdata]
      simp
  · intro d hd q hq
    exact MatchDocument_of_unknown_id s raw_query q d hq hd
  · intro d
    rw [MatchDocument_error_iff s raw_query d, hiff]
  · refine (ParseQuery_error_iff s "a --b".toList (by decide)).2
      ⟨"--b".toList, by decide, Or.inr (Or.inl ⟨"b".toList, rfl⟩)⟩
  · refine (ParseQuery_error_iff s "a - ".toList (by decide)).2
      ⟨"-".toList, by decide, Or.inl rfl⟩
  · refine (ParseQuery_error_iff s "-".toList (by decide)).2
      ⟨"-".toList, by decide, Or.inl rfl⟩

/-- C8. In a reachable server every stored document `d` was added by an accepted
call with text of non-stop tokens `W`; the weight stored for `(t, d)` is the
sum of one increment `1/|W|` per occurrence of `t` in `W` (and there is no
entry when `t` does not occur); the weights of `d` over all terms of the index
sum to 1 when `W` is not empty, and to 0, with no entry at all, when it is.
The arithmetic is that of any ordered field, in particular of `ℚ`. -/
theorem term_frequencies_sum_to_one (stop_words : List Str) (s0 : SearchServer K)
    (calls : List AddCall) (h0 : SearchServer.create stop_words = .ok s0) (d : Int)
    (hd : d ∈ StdMap.keys (afterCalls s0 calls).documents_) :
    ∃ c ∈ acceptedCalls s0 calls, c.document_id = d ∧
      (∀ t, termFreq (afterCalls s0 calls).word_to_document_freqs_ t d
        = if t ∈ nonStopWords s0 c.document then
            some (((nonStopWords s0 c.document).count t : K)
              * (1 / ((nonStopWords s0 c.document).length : K)))
          else none) ∧
      (nonStopWords s0 c.document ≠ [] → weightSum (afterCalls s0 calls) d = 1) ∧
      (nonStopWords s0 c.document = [] → weightSum (afterCalls s0 calls) d = 0 ∧
        ∀ t, indexedUnder (afterCalls s0 calls) t d = false) := by
  have hinv := serverInv_of_calls stop_words s0 calls h0
  obtain ⟨c, hc, rfl⟩ := hinv.exists_call hd
  have hW := nonStopWords_congr s0 (afterCalls s0 calls) (afterCalls_stop_words s0 calls)
    c.document
  have hsum := hinv.weightSum_eq hc
  rw [hW] at hsum
  refine ⟨c, hc, rfl, ?_, ?_, ?_⟩
  · intro t
    rw [hinv.freq c hc t, hW]
    by_cases ht : t ∈ nonStopWords s0 c.document
    · simp only [ht, if_true, mul_one_div]
    · simp only [ht, if_false]
  · intro hne
    rw [hsum, if_neg hne]
  · intro hnil
    refine ⟨by rw [hsum, if_pos hnil], ?_⟩
    intro t
    cases hi : indexedUnder (afterCalls s0 calls) t c.document_id with
    | false => rfl
    | true =>
      have h1 := (hinv.indexedUnder_iff hc t).1 hi
      rw [hW, hnil] at h1
      cases h1

/-- C7. In a reachable server with `N` stored documents, the relevance of every
document that `FindAllDocuments` returns is the sum, over the plus-words `t`
among the non-stop tokens `W` of the document (the plus-words it is indexed
under), of `(count of t in W / |W|) * log (N / df t)`, where `df t`, the
number of accepted documents with `t` among their non-stop tokens, is the size
of the per-term map of `t`. For the example of the specification (stop words
`и в на`, documents 0, 1 and 4), in real arithmetic, the query
`"пушистый ухоженный кот"` returns document 1, then document 0. -/
theorem relevance_is_tf_idf (log : K → K) (stop_words : List Str) (s0 : SearchServer K)
    (calls : List AddCall) (h0 : SearchServer.create stop_words = .ok s0) (query : Query)
    (p : DocumentPredicate) :
    (∃ docs, FindAllDocuments log (afterCalls s0 calls) query p = .ok docs ∧
      ∀ doc ∈ docs, ∃ c ∈ acceptedCalls s0 calls, c.document_id = doc.id ∧
        (∀ t, indexedUnder (afterCalls s0 calls) t doc.id = true
          ↔ t ∈ nonStopWords s0 c.document) ∧
        doc.relevance
          = ((query.plus_words.filter
                (fun t => decide (t ∈ nonStopWords s0 c.document))).map
              (fun t =>
                ((nonStopWords s0 c.document).count t : K)
                    / ((nonStopWords s0 c.document).length : K)
                  * log (((acceptedCalls s0 calls).length : K)
                    / (((acceptedCalls s0 calls).filter
                        (fun c2 => decide (t ∈ nonStopWords s0 c2.document))).length : K)))).sum) ∧
    GetDocumentCount (afterCalls s0 calls) = (acceptedCalls s0 calls).length ∧
    (∀ t freqs, StdMap.lookup (afterCalls s0 calls).word_to_document_freqs_ t = some freqs →
      StdMap.size freqs = ((acceptedCalls s0 calls).filter
        (fun c2 => decide (t ∈ nonStopWords s0 c2.document))).length) ∧
    (∃ docs, FindTopDocumentsDefault Real.log (specServer ℝ)
        "пушистый ухоженный кот".toList = .ok docs ∧
      docs.map (fun doc => (doc.id, doc.rating)) = [(1, 5), (0, 2)]) := by
  have hinv := serverInv_of_calls stop_words s0 calls h0
  have hW : ∀ text, nonStopWords (afterCalls s0 calls) text = nonStopWords s0 text :=
    nonStopWords_congr s0 (afterCalls s0 calls) (afterCalls_stop_words s0 calls)
  refine ⟨⟨_, FindAllDocuments_eq log _ hinv.index query p, ?_⟩, hinv.size_documents, ?_,
    spec_example_ranking⟩
  · intro doc hdoc
    obtain ⟨c, hc, hcd, hrel⟩ := relevance_formula log hinv query p doc hdoc
    refine ⟨c, hc, hcd, ?_, ?_⟩
    · intro t
      rw [← hcd, hinv.indexedUnder_iff hc t, hW]
    · simp only [hW] at hrel
      exact hrel
  · intro t freqs hl
    have h := hinv.size_inner hl
    simp only [hW] at h
    exact h

/-- C5, amended. On a reachable server and for a raw query that parses, if ties
are transitive among the entries that `FindAllDocuments` returns (two
relevances that each differ from a third by less than `1e-6` differ from one
another by less than `1e-6`), then `FindTopDocuments` returns a list in which
every entry `a` placed before an entry `b` is tied with it and has
`a.rating >= b.rating`, or is not tied with it and has
`a.relevance > b.relevance`. -/
theorem FindTopDocuments_sorted_of_transitive_ties (log : K → K) (s : SearchServer K)
    (hs : Reachable s) (raw_query : Str) (query : Query) (p : DocumentPredicate)
    (hq : ParseQuery s raw_query = .ok query) (found : List (Document K))
    (hfound : FindAllDocuments log s query p = .ok found)
    (htrans : ∀ a ∈ found, ∀ b ∈ found, ∀ c ∈ found,
      |a.relevance - b.relevance| < 1 / 1000000 → |b.relevance - c.relevance| < 1 / 1000000 →
        |a.relevance - c.relevance| < 1 / 1000000) :
    ∃ docs, FindTopDocuments log s raw_query p = .ok docs ∧
      docs.Pairwise (fun a b =>
        (|a.relevance - b.relevance| < 1 / 1000000 ∧ a.rating ≥ b.rating) ∨
        (¬ |a.relevance - b.relevance| < 1 / 1000000 ∧ a.relevance > b.relevance)) := by
  rw [FindAllDocuments_eq log s hs.indexOk query p] at hfound
  cases hfound
  exact ⟨_, FindTopDocuments_eq log s hs.indexOk raw_query query p hq,
    top_sorted_of_transitive_ties _ htrans⟩

/-- C11, amended. The empty string is rejected: `ParseQuery` fails with the
empty-query error, and so do `FindTopDocuments` and `MatchDocument`. A raw
query that is not empty and consists of space characters only is not
rejected: `ParseQuery` returns the query without plus-words and minus-words,
and on a reachable server `FindTopDocuments` returns the empty list. -/
theorem empty_query_rejected (log : K → K) (s : SearchServer K) :
    ParseQuery s [] = .error (.invalid_argument "Query is empty") ∧
    (∀ p, FindTopDocuments log s [] p = .error (.invalid_argument "Query is empty")) ∧
    (∀ d, MatchDocument s [] d = .error (.invalid_argument "Query is empty")) ∧
    (∀ raw_query : Str, raw_query ≠ [] → (∀ c ∈ raw_query, c = ' ') →
      SplitIntoWords raw_query = [] ∧
      ParseQuery s raw_query = .ok { plus_words := [], minus_words := [] } ∧
      (Reachable s → ∀ p, FindTopDocuments log s raw_query p = .ok [])) := by
  refine ⟨rfl, fun p => FindTopDocuments_error log s [] p _ rfl,
    fun d => MatchDocument_error s [] d _ rfl, ?_⟩
  intro raw_query hne hsp
  have hq := ParseQuery_of_no_tokens s raw_query hne hsp
  refine ⟨(SplitIntoWords_eq_nil_iff raw_query).2 hsp, hq, ?_⟩
  intro hs p
  rw [FindTopDocuments_eq log s hs.indexOk raw_query _ p hq]
  rfl

/-- C12, amended. When `ParseQuery` succeeds, a term belongs to both
`plus_words` and `minus_words` exactly when the raw query has it both as a
token `w` and as a token `-w` and it is not a stop word; the two sets are
disjoint when no token occurs both bare and with a leading `-`. -/
theorem plus_minus_overlap (s : SearchServer K) (raw_query : Str) (q : Query)
    (h : ParseQuery s raw_query = .ok q) :
    (∀ w, (w ∈ q.plus_words ∧ w ∈ q.minus_words) ↔
      (w ∈ SplitIntoWords raw_query ∧ ('-' :: w) ∈ SplitIntoWords raw_query ∧
        w ∉ s.stop_words_)) ∧
    ((∀ w ∈ SplitIntoWords raw_query, ('-' :: w) ∉ SplitIntoWords raw_query) →
      ∀ w, ¬ (w ∈ q.plus_words ∧ w ∈ q.minus_words)) := by
  refine ⟨ParseQuery_both_iff s raw_query q h, ?_⟩
  intro hno w hw
  obtain ⟨h1, h2, -⟩ := (ParseQuery_both_iff s raw_query q h w).1 hw
  exact hno w h1 h2

/-- C17. `SplitIntoWords(text)` is the list, in order, of the maximal non-empty
runs of non-space characters of `text` (the text split at every space, empty
fragments discarded); no token is empty, no token has a space, the tokens
concatenated are the text without its spaces, and splitting words joined with
single spaces gives the words back, in particular the tokens themselves. -/
theorem SplitIntoWords_correct (text : Str) :
    SplitIntoWords text = maximalRuns text ∧
    (∀ w ∈ SplitIntoWords text, w ≠ []) ∧
    (∀ w ∈ SplitIntoWords text, ' ' ∉ w) ∧
    (SplitIntoWords text).flatten = text.filter (fun c => decide (c ≠ ' ')) ∧
    SplitIntoWords (List.intercalate [' '] (SplitIntoWords text)) = SplitIntoWords text ∧
    (∀ ws : List Str, (∀ w ∈ ws, w ≠ [] ∧ ' ' ∉ w) →
      SplitIntoWords (List.intercalate [' '] ws) = ws) := by
  refine ⟨SplitIntoWords_eq_maximalRuns text, SplitIntoWords_nonempty text,
    SplitIntoWords_no_space text, SplitIntoWords_flatten text, ?_,
    SplitIntoWords_intercalate⟩
  exact SplitIntoWords_intercalate _
    (fun w hw => ⟨SplitIntoWords_nonempty text w hw, SplitIntoWords_no_space text w hw⟩)

/-- C13. For a stored document `d` and a raw query that parses, `MatchDocument`
returns the stored status of `d` with a word list that is empty when `d` is
indexed under a minus-word, and otherwise holds exactly the plus-words under
which `d` is indexed, without duplicates and in ascending lexicographic
order. The query `"пушистый -кот"` gives no word on a document with `кот` and
the word `пушистый` on a document with `пушистый` and without `кот`. -/
theorem MatchDocument_result (s : SearchServer K) (d : Int)
    (hd : d ∈ StdMap.keys s.documents_) (raw_query : Str) (q : Query)
    (hq : ParseQuery s raw_query = .ok q) :
    (∃ words data, MatchDocument s raw_query d = .ok (words, data.status) ∧
      StdMap.lookup s.documents_ d = some data ∧
      ((∃ t ∈ q.minus_words, indexedUnder s t d = true) → words = []) ∧
      ((∀ t ∈ q.minus_words, indexedUnder s t d = false) →
        (∀ w, w ∈ words ↔ w ∈ q.plus_words ∧ indexedUnder s w d = true) ∧
        words.Nodup ∧ words.Pairwise (fun a b => strLess a b = true))) ∧
    MatchDocument (matchServer ℝ) "пушистый -кот".toList 1 = .ok ([], .ACTUAL) ∧
    MatchDocument (matchServer ℝ) "пушистый -кот".toList 2
      = .ok (["пушистый".toList], .BANNED) := by
  refine ⟨?_, rfl, rfl⟩
  obtain ⟨data, hdata⟩ := StdMap.exists_lookup_of_mem_keys hd
  obtain ⟨-, -, hasc, -, -⟩ := ParseQuery_ok_spec s raw_query q hq
  refine ⟨_, data, MatchDocument_eq s raw_query q d data hq hdata, hdata, ?_, ?_⟩
  · rintro ⟨t, ht, hi⟩
    have hany : q.minus_words.any (fun w => indexedUnder s w d) = true :=
      List.any_eq_true.2 ⟨t, ht, hi⟩
    rw [hany]
    rfl
  · intro hnone
    have hany : q.minus_words.any (fun w => indexedUnder s w d) = false := by
      rw [List.any_eq_false]
      intro t ht
      rw [hnone t ht]
      simp
    rw [hany]
    simp only [Bool.false_eq_true, if_false]
    have hsub : (q.plus_words.filter (fun w => indexedUnder s w d)).Sublist q.plus_words :=
      List.filter_sublist _
    refine ⟨fun w => by rw [List.mem_filter], hasc.nodup.sublist hsub, ?_⟩
    exact List.Pairwise.sublist hsub hasc

/-- C14. `ComputeAverageRating` returns 0 for the empty list; for a non-empty
list on which no `int` of the computation overflows (the running sums and the
count stay within the 32-bit signed range) it returns the quotient of the sum
of the ratings by their count rounded toward zero: the quotient of the
magnitudes, with the sign of the sum. So `{8, -3}` gives 2, `{5, -12, 2, 1}`
gives -1 and `{-3, 0}` gives -1, where the floor is -2. The value is the rating
that `AddDocument` stores and that `FindTopDocuments` reports. -/
theorem ComputeAverageRating_value (ratings : List Int) (hne : ratings ≠ [])
    (h : StaysInInt32 ratings) :
    ComputeAverageRating [] = 0 ∧
    ComputeAverageRating ratings = Int.tdiv ratings.sum (ratings.length : Int) ∧
    (0 ≤ ratings.sum → ComputeAverageRating ratings = ratings.sum / (ratings.length : Int)) ∧
    (ratings.sum < 0 →
      ComputeAverageRating ratings = -((-ratings.sum) / (ratings.length : Int))) ∧
    ComputeAverageRating [8, -3] = 2 ∧ ComputeAverageRating [5, -12, 2, 1] = -1 ∧
    ComputeAverageRating [-3, 0] = -1 ∧ Int.fdiv (-3) 2 = -2 ∧
    (∀ (stop_words : List Str) (s0 : SearchServer K) (calls : List AddCall),
      SearchServer.create stop_words = .ok s0 → ∀ c ∈ acceptedCalls s0 calls,
        StdMap.lookup (afterCalls s0 calls).documents_ c.document_id
            = some { rating := ComputeAverageRating c.ratings, status := c.status } ∧
        ∀ (log : K → K) raw_query p docs,
          FindTopDocuments log (afterCalls s0 calls) raw_query p = .ok docs →
          ∀ doc ∈ docs, doc.id = c.document_id →
            doc.rating = ComputeAverageRating c.ratings) := by
  have heq := ComputeAverageRating_eq ratings hne h
  refine ⟨rfl, heq, ?_, ?_, by decide, by decide, by decide, by decide, ?_⟩
  · intro hs
    rw [heq, tdiv_of_nonneg _ _ hs]
  · intro hs
    rw [heq, tdiv_of_neg _ _ hs]
  · intro stop_words s0 calls h0 c hc
    exact stored_rating stop_words s0 calls h0 c hc

/-- C15. After any sequence of calls of `AddDocument` on a fresh server, with
`i_0, ..., i_{n-1}` the ids of the calls that returned normally, in order:
`GetDocumentCount()` is `n`, the ids are pairwise distinct and are exactly the
keys of the document store, `GetDocumentId(k)` is `i_k` for `0 <= k < n`, and
`GetDocumentId(k)` throws `out_of_range` for `k < 0` and for `k >= n`. -/
theorem count_and_positional_lookup (stop_words : List Str) (s0 : SearchServer K)
    (calls : List AddCall) (h0 : SearchServer.create stop_words = .ok s0) :
    GetDocumentCount (afterCalls s0 calls)
      = ((acceptedCalls s0 calls).map (fun c => c.document_id)).length ∧
    ((acceptedCalls s0 calls).map (fun c => c.document_id)).Nodup ∧
    (∀ d, d ∈ StdMap.keys (afterCalls s0 calls).documents_ ↔
      d ∈ (acceptedCalls s0 calls).map (fun c => c.document_id)) ∧
    (∀ (k : Nat) (i : Int),
      ((acceptedCalls s0 calls).map (fun c => c.document_id)).get? k = some i →
        GetDocumentId (afterCalls s0 calls) (k : Int) = .ok i) ∧
    (∀ k : Int, k < 0 ∨
        (((acceptedCalls s0 calls).map (fun c => c.document_id)).length : Int) ≤ k →
      GetDocumentId (afterCalls s0 calls) k = .error .out_of_range) := by
  have hinv := serverInv_of_calls stop_words s0 calls h0
  refine ⟨?_, hinv.nodup, hinv.keys, ?_, ?_⟩
  · rw [hinv.size_documents, List.length_map]
  · intro k i hk
    rw [← hinv.ids] at hk
    exact GetDocumentId_of_get _ k i hk
  · intro k hk
    rw [← hinv.ids] at hk
    exact GetDocumentId_out_of_range _ k hk

/-- C16. In a reachable server a term is a key of `word_to_document_freqs_`
exactly when an accepted document has it among its tokens after stop-word
removal; its per-term map is not empty, holds ids of stored documents only,
and holds the id of an accepted document exactly when the term is one of the
non-stop tokens of that document; no stop word and no empty string is a
key. -/
theorem inverted_index_invariant (stop_words : List Str) (s0 : SearchServer K)
    (calls : List AddCall) (h0 : SearchServer.create stop_words = .ok s0) (t : Str) :
    (t ∈ StdMap.keys (afterCalls s0 calls).word_to_document_freqs_ ↔
      ∃ c ∈ acceptedCalls s0 calls, t ∈ nonStopWords s0 c.document) ∧
    (∀ freqs, StdMap.lookup (afterCalls s0 calls).word_to_document_freqs_ t = some freqs →
      freqs ≠ [] ∧
      (∀ d ∈ StdMap.keys freqs, ∃ c ∈ acceptedCalls s0 calls, c.document_id = d) ∧
      (∀ c ∈ acceptedCalls s0 calls,
        (c.document_id ∈ StdMap.keys freqs ↔ t ∈ nonStopWords s0 c.document))) ∧
    (t ∈ StdMap.keys (afterCalls s0 calls).word_to_document_freqs_ →
      t ∉ (afterCalls s0 calls).stop_words_ ∧ t ≠ []) := by
  have hinv := serverInv_of_calls stop_words s0 calls h0
  have hW : ∀ text, nonStopWords (afterCalls s0 calls) text = nonStopWords s0 text :=
    nonStopWords_congr s0 (afterCalls s0 calls) (afterCalls_stop_words s0 calls)
  have hkey := hinv.mem_keys_index_iff t
  simp only [hW] at hkey
  refine ⟨hkey, ?_, ?_⟩
  · intro freqs hl
    have hmem := StdMap.mem_of_lookup hl
    refine ⟨hinv.index.nonempty _ hmem, ?_, ?_⟩
    · intro d hd
      exact hinv.exists_call (hinv.index.stored _ hmem d hd)
    · intro c hc
      rw [hinv.mem_inner_iff hl hc, hW]
  · intro ht
    obtain ⟨c, hc, htc⟩ := (hinv.mem_keys_index_iff t).1 ht
    obtain ⟨-, h2, h3⟩ := mem_nonStopWords _ _ _ htc
    exact ⟨h2, h3⟩

/-- C19. On a reachable server, for an id that is not negative and not stored and
a text without control characters whose tokens are all stop words (the empty
text and the text of spaces included), `AddDocument` succeeds,
`GetDocumentCount()` grows by one and the inverted index is unchanged; after
any further calls of `AddDocument`, no `FindTopDocuments` call returns the
document, for any query and predicate, and `MatchDocument` returns the empty
word list with its status for every query that parses. -/
theorem document_without_tokens (log : K → K) (s : SearchServer K) (hs : Reachable s)
    (id : Int) (text : Str) (status : DocumentStatus) (ratings : List Int)
    (hid : 0 ≤ id) (hnew : id ∉ StdMap.keys s.documents_) (hctl : ¬ HasControlChar text)
    (hstop : ∀ w ∈ SplitIntoWords text, w ∈ s.stop_words_) :
    (AddDocument s id text status ratings).1 = .ok () ∧
    GetDocumentCount (AddDocument s id text status ratings).2 = GetDocumentCount s + 1 ∧
    (AddDocument s id text status ratings).2.word_to_document_freqs_
      = s.word_to_document_freqs_ ∧
    ∀ later : List AddCall,
      (∀ raw_query p docs,
        FindTopDocuments log (afterCalls (AddDocument s id text status ratings).2 later)
          raw_query p = .ok docs → ∀ doc ∈ docs, doc.id ≠ id) ∧
      (∀ raw_query q,
        ParseQuery (afterCalls (AddDocument s id text status ratings).2 later) raw_query
          = .ok q →
        MatchDocument (afterCalls (AddDocument s id text status ratings).2 later)
          raw_query id = .ok ([], status)) := by
  obtain ⟨acc, hinv⟩ := hs.inv
  have hok : (AddDocument s id text status ratings).1 = .ok () := by
    rw [(AddDocument_outcome s id text status ratings).2]
    rintro (h | h | h)
    · omega
    · exact hnew h
    · exact hctl h
  have hinv1 : ServerInv (afterCall s ⟨id, text, status, ratings⟩)
      (acc ++ [⟨id, text, status, ratings⟩]) := hinv.step ⟨id, text, status, ratings⟩ hok
  have hs1 : (AddDocument s id text status ratings).2 = afterCall s ⟨id, text, status, ratings⟩ :=
    rfl
  have hWnil : nonStopWords s text = [] := nonStopWords_eq_nil s text hstop
  refine ⟨hok, ?_, ?_, ?_⟩
  · rw [hs1, hinv1.size_documents, hinv.size_documents]
    simp
  · have hcond : ¬ (id < 0 ∨ StdMap.count s.documents_ id > 0) := by
      rw [StdMap.count_pos_iff]
      rintro (h | h)
      · omega
      · exact hnew h
    obtain ⟨words, hwords, hadd⟩ := AddDocument_of_good s id text status ratings hcond
      ((IsValidWord_eq_true_iff _).2 hctl)
    have hw := SplitIntoWordsNoStop_eq s text words hwords
    rw [hWnil] at hw
    rw [hadd, hw]
    rfl
  · intro later
    rw [hs1]
    have hinv2 := hinv1.after_calls later
    have hc : (⟨id, text, status, ratings⟩ : AddCall) ∈
        (acc ++ [⟨id, text, status, ratings⟩])
          ++ acceptedCalls (afterCall s ⟨id, text, status, ratings⟩) later := by
      simp
    have hstop2 : (afterCalls (afterCall s ⟨id, text, status, ratings⟩) later).stop_words_
        = s.stop_words_ :=
      (afterCalls_stop_words _ later).trans (afterCall_stop_words s _)
    have hnot : ∀ t, indexedUnder (afterCalls (afterCall s ⟨id, text, status, ratings⟩) later)
        t id = false := by
      intro t
      cases hi : indexedUnder (afterCalls (afterCall s ⟨id, text, status, ratings⟩) later)
          t id with
      | false => rfl
      | true =>
        have h1 := (hinv2.indexedUnder_iff hc t).1 hi
        have h2 : nonStopWords (afterCalls (afterCall s ⟨id, text, status, ratings⟩) later)
            text = [] := by
          rw [nonStopWords_congr s _ hstop2, hWnil]
        rw [show (⟨id, text, status, ratings⟩ : AddCall).document = text from rfl, h2] at h1
        cases h1
    constructor
    · intro raw_query p docs hdocs doc hdoc hdid
      cases hq : ParseQuery (afterCalls (afterCall s ⟨id, text, status, ratings⟩) later)
          raw_query with
      | error e =>
        rw [FindTopDocuments_error log _ raw_query p e hq] at hdocs
        cases hdocs
      | ok q =>
        rw [FindTopDocuments_eq log _ hinv2.index raw_query q p hq] at hdocs
        cases hdocs
        have hmem := mem_top_of_evaluate log _ q p doc hdoc
        have hmid : doc.id ∈ (evaluate log
            (afterCalls (afterCall s ⟨id, text, status, ratings⟩) later) q p).map
              (fun doc => doc.id) := List.mem_map.2 ⟨doc, hmem, rfl⟩
        obtain ⟨⟨t, -, hi⟩, -, -⟩ := (mem_evaluate_id log _ q p doc.id).1 hmid
        rw [hdid, hnot t] at hi
        cases hi
    · intro raw_query q hq
      have hdata := hinv2.data _ hc
      rw [MatchDocument_eq _ raw_query q id _ hq hdata]
      have hfil : q.plus_words.filter (fun w => indexedUnder
          (afterCalls (afterCall s ⟨id, text, status, ratings⟩) later) w id) = [] := by
        rw [List.filter_eq_nil_iff]
        intro w _
        rw [hnot w]
        simp
      rw [hfil]
      simp

/-- C20. In a reachable server every document id of a per-term map of the
inverted index is a key of the document store, so that `documents_.at(id)`
succeeds, and every index term has `1 <= df <= N`, so that `N >= 1` when the
index is not empty and the division of the idf has neither a zero numerator
nor a zero denominator; `FindAllDocuments` returns a list for every query and
predicate, and `FindTopDocuments` fails exactly when `ParseQuery` fails on the
raw query, with the same exception. -/
theorem query_evaluation_cannot_fail (log : K → K) (s : SearchServer K) (hs : Reachable s) :
    (∀ t freqs, StdMap.lookup s.word_to_document_freqs_ t = some freqs →
      (∀ d ∈ StdMap.keys freqs, d ∈ StdMap.keys s.documents_ ∧
        ∃ data, StdMap.at s.documents_ d = .ok data) ∧
      1 ≤ StdMap.size freqs ∧ StdMap.size freqs ≤ GetDocumentCount s ∧
      1 ≤ GetDocumentCount s) ∧
    (s.word_to_document_freqs_ ≠ [] → 1 ≤ GetDocumentCount s) ∧
    (∀ query p, ∃ docs, FindAllDocuments log s query p = .ok docs) ∧
    (∀ raw_query p e, FindTopDocuments log s raw_query p = .error e ↔
      ParseQuery s raw_query = .error e) ∧
    (∀ raw_query p, (∃ e, FindTopDocuments log s raw_query p = .error e) ↔
      ∃ e, ParseQuery s raw_query = .error e) := by
  obtain ⟨acc, hinv⟩ := hs.inv
  have hterm : ∀ t freqs, StdMap.lookup s.word_to_document_freqs_ t = some freqs →
      (∀ d ∈ StdMap.keys freqs, d ∈ StdMap.keys s.documents_ ∧
        ∃ data, StdMap.at s.documents_ d = .ok data) ∧
      1 ≤ StdMap.size freqs ∧ StdMap.size freqs ≤ GetDocumentCount s ∧
      1 ≤ GetDocumentCount s := by
    intro t freqs hl
    obtain ⟨h1, h2⟩ := hinv.size_inner_bounds hl
    refine ⟨?_, h1, h2, le_trans h1 h2⟩
    intro d hd
    have hstored := hinv.index.stored _ (StdMap.mem_of_lookup hl) d hd
    obtain ⟨data, hdata⟩ := StdMap.exists_lookup_of_mem_keys hstored
    exact ⟨hstored, data, StdMap.at_of_lookup hdata⟩
  refine ⟨hterm, ?_, ?_, ?_, ?_⟩
  · intro hne
    cases hidx : s.word_to_document_freqs_ with
    | nil => exact absurd hidx hne
    | cons e rest =>
      have hl : StdMap.lookup s.word_to_document_freqs_ e.1 = some e.2 :=
        StdMap.lookup_of_mem hinv.index.outer (by rw [hidx]; exact List.mem_cons_self _ _)
      exact (hterm e.1 e.2 hl).2.2.2
  · intro query p
    exact ⟨_, FindAllDocuments_eq log s hinv.index query p⟩
  · intro raw_query p e
    exact FindTopDocuments_error_iff log s hs raw_query p e
  · intro raw_query p
    constructor
    · rintro ⟨e, he⟩
      exact ⟨e, (FindTopDocuments_error_iff log s hs raw_query p e).1 he⟩
    · rintro ⟨e, he⟩
      exact ⟨e, (FindTopDocuments_error_iff log s hs raw_query p e).2 he⟩

/-- C18, amended. In a reachable server with `N` stored documents, over the reals,
every term `t` of the index has `1 <= df(t) <= N` and
`idf(t) = ln(N / df(t)) >= 0`; the idf is strictly positive exactly when
`df(t) < N`, that is when some stored document is not indexed under `t`. -/
theorem idf_nonneg (s : SearchServer ℝ) (hs : Reachable s) (t : Str) (freqs : StdMap Int ℝ)
    (hl : StdMap.lookup s.word_to_document_freqs_ t = some freqs) :
    1 ≤ StdMap.size freqs ∧ StdMap.size freqs ≤ GetDocumentCount s ∧
    ComputeWordInverseDocumentFreq Real.log s t
      = .ok (Real.log ((GetDocumentCount s : ℝ) * 1 / (StdMap.size freqs : ℝ))) ∧
    Real.log ((GetDocumentCount s : ℝ) * 1 / (StdMap.size freqs : ℝ))
      = Real.log ((GetDocumentCount s : ℝ) / (StdMap.size freqs : ℝ)) ∧
    0 ≤ Real.log ((GetDocumentCount s : ℝ) * 1 / (StdMap.size freqs : ℝ)) ∧
    (0 < Real.log ((GetDocumentCount s : ℝ) * 1 / (StdMap.size freqs : ℝ)) ↔
      StdMap.size freqs < GetDocumentCount s) := by
  obtain ⟨acc, hinv⟩ := hs.inv
  obtain ⟨h1, h2⟩ := hinv.size_inner_bounds hl
  obtain ⟨h3, h4⟩ := log_ratio_nonneg _ _ h1 h2
  exact ⟨h1, h2, ComputeWordInverseDocumentFreq_eq Real.log s t freqs hl, by rw [mul_one],
    h3, h4⟩

end Server

/-! ## Instances of the claims on the server of `main` -/

/-- The call `AddDocument(-2, ...)` of `main` is rejected and changes nothing. -/
theorem AddDocument_atomic_on_rejection_witness :
    (AddDocument (demoServer ℚ) (-2) "ухоженный скворе и модный ошейник".toList
      DocumentStatus.ACTUAL [8, -3]).2 = demoServer ℚ :=
  (AddDocument_atomic_on_rejection (demoServer ℚ) (-2)
    "ухоженный скворе и модный ошейник".toList DocumentStatus.ACTUAL [8, -3]
    (.invalid_argument "Invalid document ID") rfl).1

/-- The query `"пушистый ухоженный -кот "` of `main` parses on the server of
`main`, and no document it returns contains `кот`. -/
theorem FindTopDocuments_excludes_minus_words_witness :
    Reachable (demoServer ℝ) ∧
    ParseQuery (demoServer ℝ) "пушистый ухоженный -кот ".toList = .ok demoQuery ∧
    ∃ docs, FindTopDocuments Real.log (demoServer ℝ) "пушистый ухоженный -кот ".toList
        isActual = .ok docs ∧
      (∀ doc ∈ docs, ∀ t ∈ demoQuery.minus_words,
        indexedUnder (demoServer ℝ) t doc.id = false) ∧
      (∀ doc ∈ docs, ∀ t, t ∈ demoQuery.plus_words → t ∈ demoQuery.minus_words →
        indexedUnder (demoServer ℝ) t doc.id = false) :=
  ⟨demo_reachable ℝ, rfl,
    FindTopDocuments_excludes_minus_words Real.log (demoServer ℝ) (demo_reachable ℝ)
      "пушистый ухоженный -кот ".toList demoQuery isActual rfl⟩

/-- The characterisation of `FindAllDocuments` on the server of `main`. -/
theorem FindAllDocuments_characterisation_witness :
    Reachable (demoServer ℝ) ∧
    ∃ docs, FindAllDocuments Real.log (demoServer ℝ) demoQuery isActual = .ok docs ∧
      (∀ d, d ∈ docs.map (fun doc => doc.id) ↔
        (∃ t ∈ demoQuery.plus_words, indexedUnder (demoServer ℝ) t d = true) ∧
        (∃ data, StdMap.lookup (demoServer ℝ).documents_ d = some data ∧
          isActual d data.status data.rating = true) ∧
        (∀ t ∈ demoQuery.minus_words, indexedUnder (demoServer ℝ) t d = false)) ∧
      (docs.map (fun doc => doc.id)).Nodup ∧
      (∀ doc ∈ docs, ∃ data, StdMap.lookup (demoServer ℝ).documents_ doc.id = some data ∧
        doc.rating = data.rating) :=
  ⟨demo_reachable ℝ,
    (FindAllDocuments_characterisation Real.log (demoServer ℝ) (demo_reachable ℝ)
      demoQuery isActual).1⟩

/-- The cap of `FindTopDocuments` on the server of `main`. -/
theorem FindTopDocuments_length_witness :
    Reachable (demoServer ℝ) ∧
    ParseQuery (demoServer ℝ) "пушистый ухоженный -кот ".toList = .ok demoQuery ∧
    ∃ found top, FindAllDocuments Real.log (demoServer ℝ) demoQuery isActual = .ok found ∧
      FindTopDocuments Real.log (demoServer ℝ) "пушистый ухоженный -кот ".toList isActual
        = .ok top ∧
      top.length = min 5 found.length ∧
      top.length ≤ MAX_RESULT_DOCUMENT_COUNT ∧ MAX_RESULT_DOCUMENT_COUNT = 5 ∧
      ∀ doc ∈ top, doc ∈ found :=
  ⟨demo_reachable ℝ, rfl,
    FindTopDocuments_length Real.log (demoServer ℝ) (demo_reachable ℝ)
      "пушистый ухоженный -кот ".toList demoQuery isActual rfl⟩

/-- The parsed form of the query `"пушистый ухоженный -кот "` of `main`. -/
theorem ParseQuery_result_witness :
    ParseQuery (demoServer ℝ) "пушистый ухоженный -кот ".toList = .ok demoQuery ∧
    (∀ w, w ∈ demoQuery.plus_words ↔
      w ∈ SplitIntoWords "пушистый ухоженный -кот ".toList ∧ w.head? ≠ some '-' ∧
        w ∉ (demoServer ℝ).stop_words_) ∧
    (∀ w, w ∈ demoQuery.minus_words ↔
      ('-' :: w) ∈ SplitIntoWords "пушистый ухоженный -кот ".toList ∧
        w ∉ (demoServer ℝ).stop_words_) :=
  ⟨rfl,
    (ParseQuery_result (demoServer ℝ) "пушистый ухоженный -кот ".toList demoQuery rfl).1,
    (ParseQuery_result (demoServer ℝ) "пушистый ухоженный -кот ".toList demoQuery rfl).2.1⟩

/-- The query `"пушистый ухоженный --кот"` of `main` has a token and fails. -/
theorem ParseQuery_fails_iff_witness :
    SplitIntoWords "пушистый ухоженный --кот".toList ≠ [] ∧
    ∃ e, ParseQuery (demoServer ℝ) "пушистый ухоженный --кот".toList = .error e :=
  ⟨by decide,
    (ParseQuery_fails_iff Real.log (demoServer ℝ) "пушистый ухоженный --кот".toList
      (by decide)).1.2 ⟨"--кот".toList, by decide, Or.inr (Or.inl ⟨"кот".toList, rfl⟩)⟩⟩

/-- The weights of document 1 of `main`, `"пушистый кот пушистый хвост"`. -/
theorem term_frequencies_sum_to_one_witness :
    (1 : Int) ∈ StdMap.keys (afterCalls (demoStart ℚ) demoCalls).documents_ ∧
    weightSum (afterCalls (demoStart ℚ) demoCalls) 1 = 1 := by
  have hd : (1 : Int) ∈ StdMap.keys (afterCalls (demoStart ℚ) demoCalls).documents_ := by
    decide
  obtain ⟨c, hc, hcd, -, hsum, -⟩ :=
    term_frequencies_sum_to_one _ (demoStart ℚ) demoCalls (demo_create ℚ) 1 hd
  refine ⟨hd, hsum ?_⟩
  have hc2 : c ∈ demoCalls := hc
  simp only [demoCalls, List.mem_cons, List.mem_singleton, List.not_mem_nil, or_false] at hc2
  rcases hc2 with rfl | rfl | rfl | rfl | rfl
  · cases hcd
  · decide
  · cases hcd
  · cases hcd
  · cases hcd

/-- The relevance formula on the server of `main`, in real arithmetic. -/
theorem relevance_is_tf_idf_witness :
    SearchServer.create (SplitIntoWords "и в на".toList) = .ok (demoStart ℝ) ∧
    ∃ docs, FindTopDocumentsDefault Real.log (specServer ℝ)
        "пушистый ухоженный кот".toList = .ok docs ∧
      docs.map (fun doc => (doc.id, doc.rating)) = [(1, 5), (0, 2)] :=
  ⟨demo_create ℝ,
    (relevance_is_tf_idf Real.log _ (demoStart ℝ) demoCalls (demo_create ℝ) demoQuery
      isActual).2.2.2⟩

/-- C5 fails as stated. The server with near-ties is reachable, the query `w`
parses, and `FindTopDocuments` returns three entries that no order sorts: the
relevances of documents 0 and 1, and of documents 1 and 2, differ by less than
`1e-6` while the ratings rise, and the relevances of documents 0 and 2 differ
by more than `1e-6`. -/
theorem FindTopDocuments_sorted_counterexample :
    Reachable (cexServer ℝ) ∧
    ParseQuery (cexServer ℝ) ['w'] = .ok cexQuery ∧
    ∃ docs, FindTopDocuments Real.log (cexServer ℝ) ['w'] isActual = .ok docs ∧
      ¬ docs.Pairwise (fun a b =>
        (|a.relevance - b.relevance| < 1 / 1000000 ∧ a.rating ≥ b.rating) ∨
        (¬ |a.relevance - b.relevance| < 1 / 1000000 ∧ a.relevance > b.relevance)) ∧
      ∀ l : List (Document ℝ), l.Perm docs → ¬ l.Pairwise SortedBefore := by
  refine ⟨cex_reachable ℝ, cex_parse ℝ, _,
    FindTopDocuments_eq Real.log _ (cex_inv ℝ).index ['w'] cexQuery isActual (cex_parse ℝ), ?_⟩
  obtain ⟨d0, d1, d2, hfound, h01, h12, h20⟩ := cex_cycle
  rw [hfound]
  have hperm : ((stdSort relevanceComp [d0, d1, d2]).take MAX_RESULT_DOCUMENT_COUNT).Perm
      [d0, d1, d2] := by
    have h1 := stdSort_perm relevanceComp [d0, d1, d2]
    have hlen : (stdSort relevanceComp [d0, d1, d2]).length ≤ MAX_RESULT_DOCUMENT_COUNT := by
      rw [h1.length_eq]
      simp [MAX_RESULT_DOCUMENT_COUNT]
    rw [List.take_of_length_le hlen]
    exact h1
  have key : ∀ l : List (Document ℝ), l.Perm [d0, d1, d2] → ¬ l.Pairwise SortedBefore :=
    fun l hl => not_pairwise_of_cycle SortedBefore d0 d1 d2 h01 h12 h20 l hl
  exact ⟨key _ hperm, fun l hl => key l (hl.trans hperm)⟩

/-- The amended C5 on the example of the specification, whose two entries
have transitive ties. -/
theorem FindTopDocuments_sorted_of_transitive_ties_witness :
    Reachable (specServer ℝ) ∧
    ParseQuery (specServer ℝ) "пушистый ухоженный кот".toList = .ok specQuery ∧
    ∃ docs, FindTopDocuments Real.log (specServer ℝ) "пушистый ухоженный кот".toList
        isActual = .ok docs ∧
      docs.Pairwise (fun a b =>
        (|a.relevance - b.relevance| < 1 / 1000000 ∧ a.rating ≥ b.rating) ∨
        (¬ |a.relevance - b.relevance| < 1 / 1000000 ∧ a.relevance > b.relevance)) := by
  have hr : Reachable (specServer ℝ) := ⟨_, demoStart ℝ, specCalls, demo_create ℝ, rfl⟩
  refine ⟨hr, rfl, ?_⟩
  refine FindTopDocuments_sorted_of_transitive_ties Real.log (specServer ℝ) hr
    "пушистый ухоженный кот".toList specQuery isActual rfl
    (evaluate Real.log (specServer ℝ) specQuery isActual)
    (FindAllDocuments_eq Real.log _ spec_inv.index specQuery isActual) ?_
  have hshape := spec_evaluate_shape
  generalize evaluate Real.log (specServer ℝ) specQuery isActual = found at hshape
  rcases found with _ | ⟨d0, _ | ⟨d1, _ | ⟨d2, rest⟩⟩⟩
  · simp at hshape
  · simp at hshape
  · intro a ha b hb c hc hab hbc
    have hzero : |(0 : ℝ)| < 1 / 1000000 := by norm_num
    simp only [List.mem_cons, List.mem_singleton, List.not_mem_nil, or_false] at ha hb hc
    rcases ha with rfl | rfl <;> rcases hb with rfl | rfl <;> rcases hc with rfl | rfl <;>
      first
        | exact hab
        | exact hbc
        | (rw [sub_self]; exact hzero)
  · simp at hshape

/-- C11 fails as stated: the query of three spaces has no token, and `ParseQuery`
returns a query for it instead of failing. -/
theorem empty_query_counterexample :
    SplitIntoWords "   ".toList = [] ∧
    ParseQuery (demoServer ℝ) "   ".toList = .ok { plus_words := [], minus_words := [] } ∧
    ¬ ∃ e, ParseQuery (demoServer ℝ) "   ".toList = .error e := by
  have h : ParseQuery (demoServer ℝ) "   ".toList
      = .ok { plus_words := [], minus_words := [] } := rfl
  refine ⟨rfl, h, ?_⟩
  rintro ⟨e, he⟩
  rw [h] at he
  cases he

/-- The amended C11 on the query of three spaces and the server of `main`. -/
theorem empty_query_rejected_witness :
    "   ".toList ≠ [] ∧ (∀ c ∈ "   ".toList, c = ' ') ∧
    FindTopDocuments Real.log (demoServer ℝ) "   ".toList isActual = .ok [] :=
  ⟨by decide, by decide,
    ((empty_query_rejected Real.log (demoServer ℝ)).2.2.2 "   ".toList (by decide)
      (by decide)).2.2 (demo_reachable ℝ) isActual⟩

/-- C12 fails as stated: the query `"кот -кот"` parses, and `кот` is both a
plus-word and a minus-word. -/
theorem plus_minus_overlap_counterexample :
    ParseQuery (demoServer ℝ) "кот -кот".toList
      = .ok { plus_words := ["кот".toList], minus_words := ["кот".toList] } ∧
    ∃ q, ParseQuery (demoServer ℝ) "кот -кот".toList = .ok q ∧
      "кот".toList ∈ q.plus_words ∧ "кот".toList ∈ q.minus_words :=
  ⟨rfl, _, rfl, by decide, by decide⟩

/-- The amended C12 on the query `"пушистый ухоженный -кот "` of `main`. -/
theorem plus_minus_overlap_witness :
    ParseQuery (demoServer ℝ) "пушистый ухоженный -кот ".toList = .ok demoQuery ∧
    (∀ w ∈ SplitIntoWords "пушистый ухоженный -кот ".toList,
      ('-' :: w) ∉ SplitIntoWords "пушистый ухоженный -кот ".toList) ∧
    ∀ w, ¬ (w ∈ demoQuery.plus_words ∧ w ∈ demoQuery.minus_words) :=
  ⟨rfl, by decide,
    (plus_minus_overlap (demoServer ℝ) "пушистый ухоженный -кот ".toList demoQuery rfl).2
      (by decide)⟩

/-- The result of `MatchDocument` on document 1 of `main`. -/
theorem MatchDocument_result_witness :
    (1 : Int) ∈ StdMap.keys (demoServer ℝ).documents_ ∧
    ParseQuery (demoServer ℝ) "пушистый ухоженный -кот ".toList = .ok demoQuery ∧
    ∃ words data, MatchDocument (demoServer ℝ) "пушистый ухоженный -кот ".toList 1
        = .ok (words, data.status) ∧
      StdMap.lookup (demoServer ℝ).documents_ 1 = some data :=
  have h := (MatchDocument_result (demoServer ℝ) 1 (by decide)
    "пушистый ухоженный -кот ".toList demoQuery rfl).1
  ⟨by decide, rfl, h.choose, h.choose_spec.choose, h.choose_spec.choose_spec.1,
    h.choose_spec.choose_spec.2.1⟩

/-- The average rating of document 2 of `main`, with ratings `{5, -12, 2, 1}`. -/
theorem ComputeAverageRating_value_witness :
    StaysInInt32 [5, -12, 2, 1] ∧ ComputeAverageRating [5, -12, 2, 1] = -1 := by
  have hs : StaysInInt32 [5, -12, 2, 1] := by decide
  exact ⟨hs, (ComputeAverageRating_value (K := ℚ) [5, -12, 2, 1] (by decide) hs).2.2.2.1
    (by decide)⟩

/-- C18 fails as stated: on the server with the single document `"кот"` the term
`кот` is a key of the index and its idf is `ln(1/1) = 0`, which is not
positive. -/
theorem idf_positive_counterexample :
    Reachable (soloServer ℝ) ∧
    "кот".toList ∈ StdMap.keys (soloServer ℝ).word_to_document_freqs_ ∧
    ComputeWordInverseDocumentFreq Real.log (soloServer ℝ) "кот".toList = .ok 0 ∧
    ¬ ∃ x, ComputeWordInverseDocumentFreq Real.log (soloServer ℝ) "кот".toList = .ok x ∧
      0 < x := by
  have h : ComputeWordInverseDocumentFreq Real.log (soloServer ℝ) "кот".toList = .ok 0 := by
    have h1 : ComputeWordInverseDocumentFreq Real.log (soloServer ℝ) "кот".toList
        = .ok (Real.log (((1 : ℕ) : ℝ) * 1 / ((1 : ℕ) : ℝ))) := rfl
    rw [h1]
    norm_num
  refine ⟨⟨_, demoStart ℝ, _, demo_create ℝ, rfl⟩, by decide, h, ?_⟩
  rintro ⟨x, hx, hpos⟩
  rw [h] at hx
  cases hx
  exact lt_irrefl _ hpos

/-- The amended C18 on the server of `main` and the term `кот`, which three of
the five documents have. -/
theorem idf_nonneg_witness :
    Reachable (demoServer ℝ) ∧
    ∃ freqs, StdMap.lookup (demoServer ℝ).word_to_document_freqs_ "кот".toList = some freqs ∧
      StdMap.size freqs = 3 ∧ GetDocumentCount (demoServer ℝ) = 5 ∧
      0 < Real.log ((GetDocumentCount (demoServer ℝ) : ℝ) * 1 / (StdMap.size freqs : ℝ)) := by
  have hex : ∃ freqs, StdMap.lookup (demoServer ℝ).word_to_document_freqs_ "кот".toList
      = some freqs ∧ StdMap.size freqs = 3 := ⟨_, rfl, rfl⟩
  obtain ⟨freqs, hl, hsize⟩ := hex
  have hN : GetDocumentCount (demoServer ℝ) = 5 := rfl
  have h := idf_nonneg (demoServer ℝ) (demo_reachable ℝ) "кот".toList freqs hl
  exact ⟨demo_reachable ℝ, freqs, hl, hsize, hN,
    h.2.2.2.2.2.2 (by rw [hsize, hN]; decide)⟩

/-- The calls of the error checks of `main`: three are accepted, with ids 0, 1
and 2. -/
theorem count_and_positional_lookup_witness :
    SearchServer.create (SplitIntoWords "и в на".toList) = .ok (demoStart ℝ) ∧
    GetDocumentCount (afterCalls (demoStart ℝ) faultyCalls) = 3 ∧
    (∀ d, d ∈ StdMap.keys (afterCalls (demoStart ℝ) faultyCalls).documents_ ↔
      d ∈ [(0 : Int), 1, 2]) ∧
    GetDocumentId (afterCalls (demoStart ℝ) faultyCalls) 2 = .ok 2 ∧
    GetDocumentId (afterCalls (demoStart ℝ) faultyCalls) 3 = .error .out_of_range ∧
    GetDocumentId (afterCalls (demoStart ℝ) faultyCalls) (-1) = .error .out_of_range :=
  have h := count_and_positional_lookup _ (demoStart ℝ) faultyCalls (demo_create ℝ)
  ⟨demo_create ℝ, h.1, h.2.2.1, h.2.2.2.1 2 2 rfl, h.2.2.2.2 3 (Or.inr (by decide)),
    h.2.2.2.2 (-1) (Or.inl (by decide))⟩

/-- The term `кот` on the server of `main`: a key of the index, with documents
0, 1 and 3. -/
theorem inverted_index_invariant_witness :
    SearchServer.create (SplitIntoWords "и в на".toList) = .ok (demoStart ℝ) ∧
    "кот".toList ∈ StdMap.keys (afterCalls (demoStart ℝ) demoCalls).word_to_document_freqs_ ∧
    "и".toList ∉ StdMap.keys (afterCalls (demoStart ℝ) demoCalls).word_to_document_freqs_ :=
  have h := inverted_index_invariant _ (demoStart ℝ) demoCalls (demo_create ℝ)
  ⟨demo_create ℝ,
    (h "кот".toList).1.2 ⟨⟨0, "белый кот и модный ошейник".toList, .ACTUAL, [8, -3]⟩,
      List.mem_cons_self _ _, by decide⟩,
    fun hmem => ((h "и".toList).2.2 hmem).1 (by decide)⟩

/-- The document `"и в на"`, all stop words, added to the server of `main`. -/
theorem document_without_tokens_witness :
    Reachable (demoServer ℝ) ∧ (5 : Int) ∉ StdMap.keys (demoServer ℝ).documents_ ∧
    ¬ HasControlChar "и в на".toList ∧
    (∀ w ∈ SplitIntoWords "и в на".toList, w ∈ (demoServer ℝ).stop_words_) ∧
    (AddDocument (demoServer ℝ) 5 "и в на".toList .ACTUAL []).1 = .ok () ∧
    GetDocumentCount (AddDocument (demoServer ℝ) 5 "и в на".toList .ACTUAL []).2 = 6 ∧
    MatchDocument (AddDocument (demoServer ℝ) 5 "и в на".toList .ACTUAL []).2
      "пушистый ухоженный -кот ".toList 5 = .ok ([], .ACTUAL) :=
  have hctl : ¬ HasControlChar "и в на".toList := (IsValidWord_eq_true_iff _).1 rfl
  have h := document_without_tokens Real.log (demoServer ℝ) (demo_reachable ℝ) 5
    "и в на".toList .ACTUAL [] (by decide) (by decide) hctl (by decide)
  ⟨demo_reachable ℝ, by decide, hctl, by decide, h.1, h.2.1,
    ((h.2.2.2 []).2 "пушистый ухоженный -кот ".toList demoQuery rfl)⟩

/-- Query evaluation on the server of `main`. -/
theorem query_evaluation_cannot_fail_witness :
    Reachable (demoServer ℝ) ∧
    (∃ docs, FindAllDocuments Real.log (demoServer ℝ) demoQuery isActual = .ok docs) ∧
    (∀ e, FindTopDocuments Real.log (demoServer ℝ) "пушистый ухоженный -- ".toList isActual
        = .error e ↔
      ParseQuery (demoServer ℝ) "пушистый ухоженный -- ".toList = .error e) :=
  have h := query_evaluation_cannot_fail Real.log (demoServer ℝ) (demo_reachable ℝ)
  ⟨demo_reachable ℝ, h.2.2.1 demoQuery isActual,
    h.2.2.2.1 "пушистый ухоженный -- ".toList isActual⟩

/-- C10 fails as stated for `MatchDocument`: on the server of `main` the query
`"кот"` has one token, no token is malformed and `ParseQuery` and
`FindTopDocuments` return, yet `MatchDocument` with the id 99, which is not
stored, throws `out_of_range`. -/
theorem MatchDocument_unknown_id_counterexample :
    Reachable (demoServer ℝ) ∧ SplitIntoWords "кот".toList ≠ [] ∧
    (¬ ∃ t ∈ SplitIntoWords "кот".toList,
        t = ['-'] ∨ (∃ r, t = '-' :: '-' :: r) ∨ ∃ c ∈ t, c.toNat < 32) ∧
    (∃ q, ParseQuery (demoServer ℝ) "кот".toList = .ok q) ∧
    (∃ docs, FindTopDocuments Real.log (demoServer ℝ) "кот".toList isActual = .ok docs) ∧
    MatchDocument (demoServer ℝ) "кот".toList 99 = .error .out_of_range ∧
    ¬ ((∃ e, MatchDocument (demoServer ℝ) "кот".toList 99 = .error e) ↔
      ∃ t ∈ SplitIntoWords "кот".toList,
        t = ['-'] ∨ (∃ r, t = '-' :: '-' :: r) ∨ ∃ c ∈ t, c.toNat < 32) := by
  have hparse : ParseQuery (demoServer ℝ) "кот".toList
      = .ok { plus_words := ["кот".toList], minus_words := [] } := rfl
  have hmal : ¬ ∃ t ∈ SplitIntoWords "кот".toList,
      t = ['-'] ∨ (∃ r, t = '-' :: '-' :: r) ∨ ∃ c ∈ t, c.toNat < 32 := by
    intro h
    obtain ⟨e, he⟩ := (ParseQuery_error_iff (demoServer ℝ) "кот".toList (by decide)).2 h
    rw [hparse] at he
    cases he
  have hmatch : MatchDocument (demoServer ℝ) "кот".toList 99 = .error .out_of_range := rfl
  refine ⟨demo_reachable ℝ, by decide, hmal, ⟨_, hparse⟩, ?_, hmatch, ?_⟩
  · exact ⟨_, FindTopDocuments_eq Real.log (demoServer ℝ) (demo_reachable ℝ).indexOk
      "кот".toList _ isActual hparse⟩
  · intro h
    exact hmal (h.1 ⟨_, hmatch⟩)

end SearchSystem
